import Mathlib

/-!
A verification development for fix_types.py, a regex-driven batch fixer for
TG-Script test files.  The script rewrites untyped function signatures and
bare assignment statements, processes every tests/*.tg file in sorted order,
and prints a run summary.

The embedding models Python's re semantics (backtracking with greedy
repetition, ordered alternation, leftmost non-overlapping substitution) for
the concrete patterns used by the script, over List Char with the ASCII
meanings of the character classes \s, \w and [a-zA-Z_].
-/

namespace FixTypes

/-- ASCII whitespace as matched by the regex class \s and stripped by
Python's str.strip: space, tab, newline, carriage return, vertical tab,
form feed. -/
def pySpace (c : Char) : Bool :=
  c = ' ' || c = '\t' || c = '\n' || c = '\r' || c = '\x0b' || c = '\x0c'

/-- ASCII word characters, the regex class \w: letters, digits, underscore. -/
def pyWord (c : Char) : Bool :=
  c.isAlphanum || c = '_'

/-- The regex class [a-zA-Z_]. -/
def pyAlphaUnd (c : Char) : Bool :=
  c.isAlpha || c = '_'

/-- Abbreviation turning a string literal into the character list it denotes. -/
def cs (s : String) : List Char := s.toList

/-- Captured groups of one regex match: group number paired with captured text. -/
abbrev Caps := List (Nat × List Char)

/-- Regular expressions, restricted to the constructs appearing in
fix_types.py: literal text, single-character classes, greedy star/plus over a
character class, concatenation, ordered alternation, and numbered capturing
groups. -/
inductive Reg where
  | lit   : List Char → Reg
  | cls   : (Char → Bool) → Reg
  | star  : (Char → Bool) → Reg
  | plus  : (Char → Bool) → Reg
  | seq   : Reg → Reg → Reg
  | alt   : Reg → Reg → Reg
  | grp   : Nat → Reg → Reg

/-- Remaining suffixes after consuming a greedy class repetition, longest
consumption first, as a backtracking engine would try them. -/
def starRests (p : Char → Bool) : List Char → List (List Char)
  | [] => [[]]
  | c :: s => if p c then starRests p s ++ [c :: s] else [c :: s]

/-- Consume a literal prefix. -/
def litRun : List Char → List Char → Option (List Char)
  | [], s => some s
  | _ :: _, [] => none
  | a :: l, c :: s => if a = c then litRun l s else none

/-- All ways a regex can match a prefix of the input, in the priority order a
Python-style backtracking engine explores them (greedy repetition longest
first, alternation left first): each result is the captured groups together
with the remaining suffix. -/
def Reg.run : Reg → List Char → List (Caps × List Char)
  | .lit l, s =>
    match litRun l s with
    | some r => [([], r)]
    | none => []
  | .cls _, [] => []
  | .cls p, c :: s => if p c then [([], s)] else []
  | .star p, s => (starRests p s).map (fun r => ([], r))
  | .plus _, [] => []
  | .plus p, c :: s => if p c then (starRests p s).map (fun r => ([], r)) else []
  | .seq a b, s =>
    (a.run s).flatMap (fun x => (b.run x.2).map (fun y => (x.1 ++ y.1, y.2)))
  | .alt a b, s => a.run s ++ b.run s
  | .grp n r, s =>
    (r.run s).map (fun x => (x.1 ++ [(n, s.take (s.length - x.2.length))], x.2))

/-- Look up a captured group (the patterns here bind each group once). -/
def capGet (caps : Caps) (n : Nat) : List Char :=
  match caps.find? (fun x => x.1 == n) with
  | some x => x.2
  | none => []

/-- Replacement templates: literal text interleaved with group references,
modelling Python's replacement strings with backreferences. -/
inductive Tpl where
  | txt : List Char → Tpl
  | ref : Nat → Tpl

/-- Instantiate a replacement template with the captures of one match. -/
def applyTpl (caps : Caps) : List Tpl → List Char
  | [] => []
  | Tpl.txt l :: t => l ++ applyTpl caps t
  | Tpl.ref n :: t => capGet caps n ++ applyTpl caps t

/-- Leftmost match: scan positions left to right and at the first position
where the regex matches, return the text before the match, the captures of the
engine's chosen (highest-priority) match, and the text after the match. -/
def findFirst (r : Reg) : List Char → Option (List Char × Caps × List Char)
  | [] =>
    match (r.run []).head? with
    | some x => some ([], x.1, x.2)
    | none => none
  | c :: s =>
    match (r.run (c :: s)).head? with
    | some x => some ([], x.1, x.2)
    | none => (findFirst r s).map (fun y => (c :: y.1, y.2.1, y.2.2))

/-- Fuelled worker for re.sub: replace the leftmost match and continue after
its end (replacements are never rescanned, matching Python, whose scan walks
the original string).  Every pattern used here consumes at least one
character, so length-plus-one fuel always suffices. -/
def subAux (r : Reg) (t : List Tpl) : Nat → List Char → List Char
  | 0, s => s
  | Nat.succ fuel, s =>
    match findFirst r s with
    | none => s
    | some (pre, caps, rest) => pre ++ applyTpl caps t ++ subAux r t fuel rest

/-- Python's re.sub: replace every non-overlapping occurrence, leftmost first. -/
def reSub (r : Reg) (t : List Tpl) (s : List Char) : List Char :=
  subAux r t (s.length + 1) s

/-- Python's re.sub for a pattern anchored at the start with a caret and no
MULTILINE flag: such a pattern can only match at position zero, so at most one
replacement happens. -/
def subAnchored (r : Reg) (t : List Tpl) (s : List Char) : List Char :=
  match (r.run s).head? with
  | some x => applyTpl x.1 t ++ x.2
  | none => s

/-- Python's re.match: does the pattern match at the start of the string? -/
def reMatch (r : Reg) (s : List Char) : Bool :=
  ((r.run s).head?).isSome

/-- Concatenation of a list of regexes. -/
def rseq (l : List Reg) : Reg := l.foldr Reg.seq (Reg.lit [])

/-- A regex that never matches, the base of an alternation of literal words. -/
def rfail : Reg := Reg.cls (fun _ => false)

/-- Ordered alternation of literal words, as in (add|multiply|...). -/
def altWords (l : List (List Char)) : Reg :=
  l.foldr (fun w r => Reg.alt (Reg.lit w) r) rfail

/-- Python's str.strip: drop ASCII whitespace from both ends. -/
def pyStrip (s : List Char) : List Char :=
  ((s.dropWhile pySpace).reverse.dropWhile pySpace).reverse

/-- Python's str.split on a newline: the empty string yields one empty line,
and each newline separates a further line. -/
def splitNl : List Char → List (List Char)
  | [] => [[]]
  | c :: s =>
    if c = '\n' then [] :: splitNl s
    else
      match splitNl s with
      | [] => [[c]]
      | l :: ls => (c :: l) :: ls

/-- Python's newline join. -/
def joinNl : List (List Char) → List Char
  | [] => []
  | l :: ls =>
    match ls with
    | [] => l
    | _ :: _ => l ++ '\n' :: joinNl ls

/-- Rule 1 of fix_function_signatures:
the pattern function\s+(\w+)\s*\(\s*(\w+)\s*,\s*(\w+)\s*\)\s*\x7b. -/
def rule1 : Reg :=
  rseq [Reg.lit (cs "function"), Reg.plus pySpace, Reg.grp 1 (Reg.plus pyWord),
    Reg.star pySpace, Reg.lit (cs "("), Reg.star pySpace,
    Reg.grp 2 (Reg.plus pyWord), Reg.star pySpace, Reg.lit (cs ","),
    Reg.star pySpace, Reg.grp 3 (Reg.plus pyWord), Reg.star pySpace,
    Reg.lit (cs ")"), Reg.star pySpace, Reg.lit (cs "\x7b")]

/-- Replacement of rule 1: function \1(\2: number, \3: number): void \x7b. -/
def repl1 : List Tpl :=
  [Tpl.txt (cs "function "), Tpl.ref 1, Tpl.txt (cs "("), Tpl.ref 2,
   Tpl.txt (cs ": number, "), Tpl.ref 3, Tpl.txt (cs ": number): void \x7b")]

/-- Rule 2 of fix_function_signatures:
the pattern function\s+(\w+)\s*\(\s*(\w+)\s*\)\s*\x7b. -/
def rule2 : Reg :=
  rseq [Reg.lit (cs "function"), Reg.plus pySpace, Reg.grp 1 (Reg.plus pyWord),
    Reg.star pySpace, Reg.lit (cs "("), Reg.star pySpace,
    Reg.grp 2 (Reg.plus pyWord), Reg.star pySpace,
    Reg.lit (cs ")"), Reg.star pySpace, Reg.lit (cs "\x7b")]

/-- Replacement of rule 2: function \1(\2: number): void \x7b. -/
def repl2 : List Tpl :=
  [Tpl.txt (cs "function "), Tpl.ref 1, Tpl.txt (cs "("), Tpl.ref 2,
   Tpl.txt (cs ": number): void \x7b")]

/-- The two-parameter mathematical function names of rule 3. -/
def mathNames2 : List (List Char) :=
  [cs "add", cs "multiply", cs "subtract", cs "divide",
   cs "max", cs "min", cs "calc", cs "compute"]

/-- Rule 3 of fix_function_signatures: the pattern
function\s+(add|multiply|subtract|divide|max|min|calc|compute)\s*\(\s*(\w+)\s*,\s*(\w+)\s*\)\s*:\s*void\s*\x7b. -/
def rule3 : Reg :=
  rseq [Reg.lit (cs "function"), Reg.plus pySpace, Reg.grp 1 (altWords mathNames2),
    Reg.star pySpace, Reg.lit (cs "("), Reg.star pySpace,
    Reg.grp 2 (Reg.plus pyWord), Reg.star pySpace, Reg.lit (cs ","),
    Reg.star pySpace, Reg.grp 3 (Reg.plus pyWord), Reg.star pySpace,
    Reg.lit (cs ")"), Reg.star pySpace, Reg.lit (cs ":"), Reg.star pySpace,
    Reg.lit (cs "void"), Reg.star pySpace, Reg.lit (cs "\x7b")]

/-- Replacement of rule 3: function \1(\2: number, \3: number): number \x7b. -/
def repl3 : List Tpl :=
  [Tpl.txt (cs "function "), Tpl.ref 1, Tpl.txt (cs "("), Tpl.ref 2,
   Tpl.txt (cs ": number, "), Tpl.ref 3, Tpl.txt (cs ": number): number \x7b")]

/-- The one-parameter mathematical function names of rule 4. -/
def mathNames1 : List (List Char) :=
  [cs "factorial", cs "fibonacci", cs "square", cs "abs"]

/-- Rule 4 of fix_function_signatures: the pattern
function\s+(factorial|fibonacci|square|abs)\s*\(\s*(\w+)\s*\)\s*:\s*void\s*\x7b. -/
def rule4 : Reg :=
  rseq [Reg.lit (cs "function"), Reg.plus pySpace, Reg.grp 1 (altWords mathNames1),
    Reg.star pySpace, Reg.lit (cs "("), Reg.star pySpace,
    Reg.grp 2 (Reg.plus pyWord), Reg.star pySpace,
    Reg.lit (cs ")"), Reg.star pySpace, Reg.lit (cs ":"), Reg.star pySpace,
    Reg.lit (cs "void"), Reg.star pySpace, Reg.lit (cs "\x7b")]

/-- Replacement of rule 4: function \1(\2: number): number \x7b. -/
def repl4 : List Tpl :=
  [Tpl.txt (cs "function "), Tpl.ref 1, Tpl.txt (cs "("), Tpl.ref 2,
   Tpl.txt (cs ": number): number \x7b")]

/-- The ordered pattern table of fix_function_signatures. -/
def patterns : List (Reg × List Tpl) :=
  [(rule1, repl1), (rule2, repl2), (rule3, repl3), (rule4, repl4)]

/-- The Signature Fixer: apply the four substitutions in order over the whole
buffer, each one a global leftmost non-overlapping re.sub. -/
def fix_function_signatures (content : List Char) : List Char :=
  patterns.foldl (fun c pr => reSub pr.1 pr.2 c) content

/-- The condition pattern of the Declaration Fixer, matched with re.match
against the stripped line: the pattern [a-zA-Z_]\w*\s*=\s* (the leading caret
is implicit in re.match). -/
def patA : Reg :=
  rseq [Reg.cls pyAlphaUnd, Reg.star pyWord, Reg.star pySpace,
    Reg.lit (cs "="), Reg.star pySpace]

/-- The exclusion pattern of the Declaration Fixer, matched with re.match
against the stripped line: the pattern \s*(let|const|var)\s+. -/
def patB : Reg :=
  rseq [Reg.star pySpace, Reg.grp 1 (altWords [cs "let", cs "const", cs "var"]),
    Reg.plus pySpace]

/-- The rewrite pattern of the Declaration Fixer, a re.sub anchored at the
line start: the pattern (\s*)([a-zA-Z_]\w*\s*=). -/
def patC : Reg :=
  rseq [Reg.grp 1 (Reg.star pySpace),
    Reg.grp 2 (rseq [Reg.cls pyAlphaUnd, Reg.star pyWord, Reg.star pySpace,
      Reg.lit (cs "=")])]

/-- Replacement of the rewrite pattern: \1let \2. -/
def replC : List Tpl := [Tpl.ref 1, Tpl.txt (cs "let "), Tpl.ref 2]

/-- The per-line body of the Declaration Fixer's loop: prepend let when the
stripped line starts with an identifier followed by an equals sign and does
not already start with a declaration keyword. -/
def fixLine (line : List Char) : List Char :=
  if reMatch patA (pyStrip line) && !reMatch patB (pyStrip line) then
    subAnchored patC replC line
  else
    line

/-- The Declaration Fixer: split on newlines, fix each line independently,
join with newlines. -/
def fix_variable_declarations (content : List Char) : List Char :=
  joinNl ((splitNl content).map fixLine)

/-- The full transformer applied by fix_file to a file's content: the
Signature Fixer followed by the Declaration Fixer. -/
def applyFixes (content : List Char) : List Char :=
  fix_variable_declarations (fix_function_signatures content)

/-- State of one file on disk, as seen by fix_file: readable content, or a
file whose open/read/decode step raises an I/O or decoding failure (its raw
on-disk bytes are carried so that non-modification is expressible). -/
inductive Entry where
  | good : List Char → Entry
  | bad : List Char → Entry
deriving DecidableEq

/-- The filesystem: an association of paths to file states. -/
abbrev FS := List (String × Entry)

/-- Reading a path: the first entry with that path, if any. -/
def fsRead (fs : FS) (p : String) : Option Entry :=
  match fs.find? (fun e => e.1 == p) with
  | some e => some e.2
  | none => none

/-- Writing content to a path (fix_file only writes paths it has just read,
so overwriting existing entries suffices). -/
def fsWrite (fs : FS) (p : String) (c : List Char) : FS :=
  fs.map (fun e => if e.1 == p then (e.1, Entry.good c) else e)

/-- Per-file console status, one line per processed file. -/
inductive Report where
  | fixedR : String → Report
  | skippedR : String → Report
  | errorR : String → Report
deriving DecidableEq

/-- The File Processor fix_file: read, transform, write back only on change;
returns True exactly when the file was rewritten.  Any raised I/O or decoding
failure is caught, reported as an error, and yields False with the
filesystem untouched. -/
def fix_file (fs : FS) (p : String) : FS × Bool × Report :=
  match fsRead fs p with
  | some (Entry.good c) =>
    let c2 := applyFixes c
    if c2 = c then (fs, false, Report.skippedR p)
    else (fsWrite fs p c2, true, Report.fixedR p)
  | some (Entry.bad _) => (fs, false, Report.errorR p)
  | none => (fs, false, Report.errorR p)

/-- The driver loop of main over an already-sorted file list: thread the
filesystem through fix_file, collect the per-file reports in order, and count
the files for which fix_file returned True. -/
def processList (fs : FS) : List String → FS × List Report × Nat
  | [] => (fs, [], 0)
  | p :: ps =>
    let r := fix_file fs p
    let rest := processList r.1 ps
    (rest.1, r.2.2 :: rest.2.1, (if r.2.1 then 1 else 0) + rest.2.2)

/-- Lexicographic comparison of paths by code point, Python's string order. -/
def lexLe : List Char → List Char → Bool
  | [], _ => true
  | _ :: _, [] => false
  | a :: as, b :: bs => if a < b then true else if b < a then false else lexLe as bs

/-- Insert a path into a sorted list of paths. -/
def insertSorted (x : String) : List String → List String
  | [] => [x]
  | y :: ys => if lexLe x.toList y.toList then x :: y :: ys else y :: insertSorted x ys

/-- Python's sorted on the globbed path list. -/
def sortPaths (l : List String) : List String :=
  l.foldr insertSorted []

/-- The Batch Driver main, parameterized by the filesystem and the list of
paths the glob returned: process the paths in sorted order and report the
summary counters (total, fixed, skipped = total - fixed), the per-file report
lines, and the final filesystem. -/
def mainRun (fs : FS) (globbed : List String) : (Nat × Nat × Nat) × List Report × FS :=
  let total := globbed.length
  let res := processList fs (sortPaths globbed)
  ((total, res.2.2, total - res.2.2), res.2.1, res.1)

/-- Does processing this path in this filesystem change its content, i.e.
does fix_file return True on it? -/
def changesAt (fs : FS) (p : String) : Bool :=
  match fsRead fs p with
  | some (Entry.good c) => if applyFixes c = c then false else true
  | _ => false

/-- Does reading this path fail (missing file or raising read)? -/
def errsAt (fs : FS) (p : String) : Bool :=
  match fsRead fs p with
  | some (Entry.good _) => false
  | _ => true

/-- Is this path readable and left unchanged by the transformer? -/
def unchangedAt (fs : FS) (p : String) : Bool :=
  match fsRead fs p with
  | some (Entry.good c) => if applyFixes c = c then true else false
  | _ => false

/-- Acceptance semantics with captures for the engine: the backtracking
engine can match the regex against a prefix of the string, producing these
captures and leaving this remainder. -/
def AccC : Reg → List Char → Caps → List Char → Prop
  | Reg.lit l, s, caps, r => caps = [] ∧ s = l ++ r
  | Reg.cls p, s, caps, r => caps = [] ∧ ∃ c, s = c :: r ∧ p c = true
  | Reg.star p, s, caps, r => caps = [] ∧ ∃ u, s = u ++ r ∧ ∀ c ∈ u, p c = true
  | Reg.plus p, s, caps, r =>
    caps = [] ∧ ∃ u, s = u ++ r ∧ u ≠ [] ∧ ∀ c ∈ u, p c = true
  | Reg.seq a b, s, caps, r =>
    ∃ m c1 c2, caps = c1 ++ c2 ∧ AccC a s c1 m ∧ AccC b m c2 r
  | Reg.alt a b, s, caps, r => AccC a s caps r ∨ AccC b s caps r
  | Reg.grp n a, s, caps, r =>
    ∃ c1, caps = c1 ++ [(n, s.take (s.length - r.length))] ∧ AccC a s c1 r

/-- Matchability at the start of a string, forgetting the captures. -/
def Acc (r : Reg) (s rest : List Char) : Prop := ∃ caps, AccC r s caps rest

/-- An occurrence of the pattern somewhere in the string. -/
def Occ (r : Reg) (y : List Char) : Prop :=
  ∃ u m w, y = u ++ m ++ w ∧ Acc r (m ++ w) w

/-- No match starts at any position strictly inside this prefix, given the
stated continuation after it. -/
def PureBefore (r : Reg) (pre cont : List Char) : Prop :=
  ∀ u v, pre = u ++ v → v ≠ [] → Reg.run r (v ++ cont) = []

/-- Every accepted match consumes at least one character. -/
def Productive (r : Reg) : Prop :=
  ∀ s caps rest, AccC r s caps rest → rest.length < s.length

/-- Structure of a global leftmost substitution: the output interleaves
match-free stretches of the input with instantiated replacement templates. -/
inductive SubOut (r : Reg) (t : List Tpl) : List Char → List Char → Prop
  | pure : ∀ s, ¬ Occ r s → SubOut r t s s
  | step : ∀ pre m caps rest out,
      PureBefore r pre (m ++ rest) →
      AccC r (m ++ rest) caps rest →
      SubOut r t rest out →
      SubOut r t (pre ++ m ++ rest) (pre ++ applyTpl caps t ++ out)

/-- Structural tokens abstracting the syntactic elements of the signature
patterns: a literal character, a possibly-empty whitespace run, a nonempty
whitespace run, and a nonempty word run. -/
inductive Tok where
  | ch : Char → Tok
  | sp : Tok
  | sp1 : Tok
  | w : Tok
deriving DecidableEq

/-- The strings one token stands for. -/
def TokStr : Tok → List Char → Prop
  | Tok.ch a, u => u = [a]
  | Tok.sp, u => ∀ c ∈ u, pySpace c = true
  | Tok.sp1, u => u ≠ [] ∧ ∀ c ∈ u, pySpace c = true
  | Tok.w, u => u ≠ [] ∧ ∀ c ∈ u, pyWord c = true

/-- The concatenations a token list stands for. -/
def ToksStr : List Tok → List Char → Prop
  | [], u => u = []
  | t :: ts, u => ∃ u1 u2, u = u1 ++ u2 ∧ TokStr t u1 ∧ ToksStr ts u2

/-- The characters of a string as literal tokens. -/
def chT (s : String) : List Tok := s.toList.map Tok.ch

/-- A regex element is abstracted by a token list when every accepted
consumption of the element realizes those tokens. -/
def ElemToks (e : Reg) (ts : List Tok) : Prop :=
  ∀ s caps rest, AccC e s caps rest → ∃ m, s = m ++ rest ∧ ToksStr ts m

/-- Token skeleton of signature rule 1. -/
def ruleToks1 : List Tok :=
  chT "function" ++ [Tok.sp1, Tok.w, Tok.sp, Tok.ch '(', Tok.sp, Tok.w, Tok.sp,
    Tok.ch ',', Tok.sp, Tok.w, Tok.sp, Tok.ch ')', Tok.sp, Tok.ch '\x7b']

/-- Token skeleton of signature rule 2. -/
def ruleToks2 : List Tok :=
  chT "function" ++ [Tok.sp1, Tok.w, Tok.sp, Tok.ch '(', Tok.sp, Tok.w, Tok.sp,
    Tok.ch ')', Tok.sp, Tok.ch '\x7b']

/-- Token skeleton of signature rule 3 (the name alternation weakens to a
word run). -/
def ruleToks3 : List Tok :=
  chT "function" ++ [Tok.sp1, Tok.w, Tok.sp, Tok.ch '(', Tok.sp, Tok.w, Tok.sp,
    Tok.ch ',', Tok.sp, Tok.w, Tok.sp, Tok.ch ')', Tok.sp, Tok.ch ':', Tok.sp] ++
  chT "void" ++ [Tok.sp, Tok.ch '\x7b']

/-- Token skeleton of signature rule 4. -/
def ruleToks4 : List Tok :=
  chT "function" ++ [Tok.sp1, Tok.w, Tok.sp, Tok.ch '(', Tok.sp, Tok.w, Tok.sp,
    Tok.ch ')', Tok.sp, Tok.ch ':', Tok.sp] ++ chT "void" ++ [Tok.sp, Tok.ch '\x7b']

/-- A nonempty string of word characters. -/
def WordStr (w : List Char) : Prop := w ≠ [] ∧ ∀ c ∈ w, pyWord c = true

/-- Does a token list begin with whitespace and then a non-word, non-space
literal character?  This is what always follows a word-run token in the
signature skeletons. -/
def wFollowOk : List Tok → Bool
  | Tok.sp :: Tok.ch d :: _ => !pyWord d && !pySpace d
  | _ => false

/-- Every word-run token in the list is followed by whitespace and a
non-word, non-space literal character. -/
def splitCheckW : List Tok → Bool
  | [] => true
  | t :: ts => (if t = Tok.w then wFollowOk ts else true) && splitCheckW ts

/-- No literal-character token in the list is the letter f or l. -/
def chTailOk (L : List Tok) : Bool :=
  L.all (fun t =>
    match t with
    | Tok.ch a => !(a == 'f') && !(a == 'l')
    | _ => true)

/-- No literal-character token in the list is the letter l. -/
def chNoL (L : List Tok) : Bool :=
  L.all (fun t =>
    match t with
    | Tok.ch a => !(a == 'l')
    | _ => true)

/-- The decomposition every signature-rule match starts with: the literal
word function, nonempty whitespace, a word run, whitespace, an opening
parenthesis, whitespace, a word run, whitespace, and then a non-word
non-space non-colon character. -/
def Pre8 (m : List Char) : Prop :=
  ∃ s1 nm s2 s3 w2m s4 d mr,
    m = cs "function" ++
      (s1 ++ (nm ++ (s2 ++ ('(' :: (s3 ++ (w2m ++ (s4 ++ d :: mr))))))) ∧
    s1 ≠ [] ∧ (∀ x ∈ s1, pySpace x = true) ∧
    nm ≠ [] ∧ (∀ x ∈ nm, pyWord x = true) ∧
    (∀ x ∈ s2, pySpace x = true) ∧ (∀ x ∈ s3, pySpace x = true) ∧
    w2m ≠ [] ∧ (∀ x ∈ w2m, pyWord x = true) ∧
    (∀ x ∈ s4, pySpace x = true) ∧
    pyWord d = false ∧ pySpace d = false ∧ d ≠ ':'

/-- The facts about a signature rule and its token skeleton that the
idempotence development uses: every accepted match realizes the skeleton,
every word run of the skeleton is followed by whitespace and a non-word
non-space character, no letter f or l occurs as a literal past the head, and
every realized match has the common decomposition. -/
def GoodRule (rk : Reg) (tks : List Tok) : Prop :=
  (∀ s caps rest, AccC rk s caps rest → ∃ m, s = m ++ rest ∧ ToksStr tks m) ∧
  splitCheckW tks = true ∧ chTailOk tks.tail = true ∧ chNoL tks = true ∧
  (∀ m, ToksStr tks m → Pre8 m)

/-- The possible tails of an instantiated replacement template, after the
colon that follows the first parameter. -/
def ReplTail (T : List Char) : Prop :=
  T = cs " number): void \x7b" ∨ T = cs " number): number \x7b" ∨
  (∃ w3, WordStr w3 ∧
    (T = cs " number, " ++ w3 ++ cs ": number): void \x7b" ∨
     T = cs " number, " ++ w3 ++ cs ": number): number \x7b"))

/-- The common shape of every string the four replacement templates can
produce: a typed signature whose parameters are word runs. -/
def ReplShape (R : List Char) : Prop :=
  ∃ w1 w2 T, WordStr w1 ∧ WordStr w2 ∧ ReplTail T ∧
    R = cs "function " ++ w1 ++ '(' :: (w2 ++ ':' :: T)

/-- A concrete three-file filesystem whose middle file (in sorted order)
raises on read. -/
def fsW : FS :=
  [("tests/a.tg", Entry.good (cs "x = 1\n")),
   ("tests/b.tg", Entry.bad (cs "#")),
   ("tests/c.tg", Entry.good (cs "y = 2\n"))]

/-- A concrete two-file filesystem with no read errors: one file needs a fix,
the other is already fixed. -/
def fsG : FS :=
  [("tests/a.tg", Entry.good (cs "x = 1\n")),
   ("tests/b.tg", Entry.good (cs "let y = 2;\n"))]

/-- Reading a cons cell checks the head path first. -/
lemma fsRead_cons (a : String) (e : Entry) (fs : FS) (p : String) :
    fsRead ((a, e) :: fs) p = if a == p then some e else fsRead fs p := by
  by_cases h : (a == p) = true
  · simp [fsRead, List.find?, h]
  · simp [fsRead, List.find?, h]

/-- Writing maps over the filesystem, rewriting matching heads. -/
lemma fsWrite_cons (a : String) (e : Entry) (fs : FS) (q : String) (c : List Char) :
    fsWrite ((a, e) :: fs) q c =
      (if a == q then (a, Entry.good c) else (a, e)) :: fsWrite fs q c := rfl

/-- Writing one path does not change reads of another path. -/
lemma fsRead_fsWrite_ne (fs : FS) (p q : String) (c : List Char) (h : ¬ q = p) :
    fsRead (fsWrite fs p c) q = fsRead fs q := by
  induction fs with
  | nil => rfl
  | cons x fs ih =>
    obtain ⟨a, e⟩ := x
    rw [fsWrite_cons]
    cases hap : a == p with
    | true =>
      have haq : (a == q) = false := by
        rw [beq_iff_eq] at hap
        subst hap
        exact beq_eq_false_iff_ne.mpr (fun hh => h hh.symm)
      simp [fsRead_cons, hap, haq, ih]
    | false => simp [fsRead_cons, hap, ih]

/-- Writing a present path makes subsequent reads return the written content. -/
lemma fsRead_fsWrite_self (fs : FS) (p : String) (c : List Char) (e : Entry)
    (h : fsRead fs p = some e) :
    fsRead (fsWrite fs p c) p = some (Entry.good c) := by
  induction fs with
  | nil => simp [fsRead] at h
  | cons x fs ih =>
    obtain ⟨a, b⟩ := x
    rw [fsWrite_cons]
    cases hap : a == p with
    | true => simp [fsRead_cons, hap]
    | false =>
      rw [fsRead_cons] at h
      simp only [hap, Bool.false_eq_true, if_false] at h
      simp only [hap, Bool.false_eq_true, if_false, fsRead_cons]
      exact ih h

/-- Processing one path never changes the content of a different path. -/
lemma fix_file_other (fs : FS) (p q : String) (h : ¬ q = p) :
    fsRead (fix_file fs p).1 q = fsRead fs q := by
  unfold fix_file
  cases hr : fsRead fs p with
  | none => rfl
  | some e =>
    cases e with
    | bad c => rfl
    | good c =>
      by_cases hc : applyFixes c = c
      · simp [hc]
      · simp [hc, fsRead_fsWrite_ne fs p q _ h]

/-- The boolean fix_file returns is exactly whether the transformer changes
the file's readable content. -/
lemma fix_file_bool (fs : FS) (p : String) :
    (fix_file fs p).2.1 = changesAt fs p := by
  unfold fix_file changesAt
  cases hr : fsRead fs p with
  | none => rfl
  | some e =>
    cases e with
    | bad c => rfl
    | good c =>
      by_cases hc : applyFixes c = c
      · simp [hc]
      · simp [hc]

/-- A file whose read raises is reported as an error and left untouched. -/
lemma fix_file_bad (fs : FS) (p : String) (c : List Char)
    (h : fsRead fs p = some (Entry.bad c)) :
    fix_file fs p = (fs, false, Report.errorR p) := by
  simp [fix_file, h]

/-- Paths outside the processed list keep their content. -/
lemma processList_untouched (l : List String) : ∀ (fs : FS) (q : String), q ∉ l →
    fsRead (processList fs l).1 q = fsRead fs q := by
  induction l with
  | nil => intro fs q _; rfl
  | cons p ps ih =>
    intro fs q h
    rcases not_or.mp (by simpa [List.mem_cons] using h) with ⟨h1, h2⟩
    simp only [processList]
    rw [ih _ _ h2, fix_file_other _ _ _ h1]

/-- A file that raises on read still raises, with its bytes intact, after any
amount of further batch processing. -/
lemma processList_bad_preserved (l : List String) :
    ∀ (fs : FS) (p : String) (c : List Char), fsRead fs p = some (Entry.bad c) →
      fsRead (processList fs l).1 p = some (Entry.bad c) := by
  induction l with
  | nil => intro fs p c h; exact h
  | cons q ps ih =>
    intro fs p c h
    simp only [processList]
    apply ih
    by_cases hqp : p = q
    · subst hqp
      rw [fix_file_bad fs p c h]
      exact h
    · rw [fix_file_other fs q p hqp]
      exact h

/-- Processing a concatenation processes the first part and continues with
the second from the resulting filesystem, concatenating reports and adding
fixed counts. -/
lemma processList_append (l1 l2 : List String) : ∀ fs : FS,
    processList fs (l1 ++ l2) =
      ((processList (processList fs l1).1 l2).1,
       (processList fs l1).2.1 ++ (processList (processList fs l1).1 l2).2.1,
       (processList fs l1).2.2 + (processList (processList fs l1).1 l2).2.2) := by
  induction l1 with
  | nil => intro fs; simp [processList]
  | cons p ps ih =>
    intro fs
    simp only [List.cons_append, processList, List.append_eq]
    rw [ih (fix_file fs p).1]
    simp [add_assoc]

/-- Inserting into a sorted list is a permutation of consing. -/
lemma insertSorted_perm (x : String) : ∀ l : List String,
    (insertSorted x l).Perm (x :: l) := by
  intro l
  induction l with
  | nil => exact List.Perm.refl _
  | cons y ys ih =>
    simp only [insertSorted]
    by_cases h : lexLe x.toList y.toList = true
    · rw [if_pos h]
    · rw [if_neg h]
      exact (ih.cons y).trans (List.Perm.swap x y ys)

/-- Python's sorted returns a permutation of its input. -/
lemma sortPaths_perm : ∀ l : List String, (sortPaths l).Perm l := by
  intro l
  induction l with
  | nil => exact List.Perm.refl _
  | cons x xs ih =>
    exact (insertSorted_perm x (sortPaths xs)).trans (ih.cons x)

/-- Core batch invariant over a duplicate-free path list: the fixed count is
the number of paths whose content the transformer changes, and afterwards
every processed path holds the transformed content of what it held before
(readable files), or its original state (error files). -/
lemma processList_spec : ∀ (l : List String) (fs : FS), l.Nodup →
    ((processList fs l).2.2 = (l.filter (changesAt fs)).length ∧
     ∀ p ∈ l, fsRead (processList fs l).1 p =
        (match fsRead fs p with
         | some (Entry.good c) => some (Entry.good (applyFixes c))
         | o => o)) := by
  intro l
  induction l with
  | nil => intro fs _; exact ⟨rfl, by intro p hp; cases hp⟩
  | cons p ps ih =>
    intro fs hnd
    obtain ⟨hp, hps⟩ := List.nodup_cons.mp hnd
    have hframe : ∀ q ∈ ps, fsRead (fix_file fs p).1 q = fsRead fs q := by
      intro q hq
      exact fix_file_other fs p q (fun hh => hp (hh ▸ hq))
    have hchg : ∀ q ∈ ps, changesAt (fix_file fs p).1 q = changesAt fs q := by
      intro q hq
      unfold changesAt
      rw [hframe q hq]
    obtain ⟨ihc, ihs⟩ := ih (fix_file fs p).1 hps
    constructor
    · simp only [processList]
      rw [ihc, List.filter_congr hchg, fix_file_bool]
      cases hc : changesAt fs p
      · simp [List.filter_cons, hc]
      · simp only [List.filter_cons, hc, if_true]
        simp [Nat.add_comm]
    · intro q hq
      rcases List.mem_cons.mp hq with rfl | hq2
      · simp only [processList]
        rw [processList_untouched ps (fix_file fs q).1 q hp]
        cases hr : fsRead fs q with
        | none => simp [fix_file, hr]
        | some e =>
          cases e with
          | bad c => simp [fix_file, hr]
          | good c =>
            by_cases hc : applyFixes c = c
            · simp [fix_file, hr, hc]
            · simp only [fix_file, hr, hc, if_false]
              exact fsRead_fsWrite_self fs q _ _ hr
      · simp only [processList]
        rw [ihs q hq2, hframe q hq2]

/-- Every path falls in exactly one summary class: changed, errored, or
readable-but-unchanged. -/
lemma count_trichotomy (fs : FS) : ∀ paths : List String,
    (paths.filter (changesAt fs)).length +
      ((paths.filter (errsAt fs)).length + (paths.filter (unchangedAt fs)).length) =
      paths.length := by
  intro paths
  induction paths with
  | nil => rfl
  | cons p ps ih =>
    simp only [List.filter_cons]
    cases hr : fsRead fs p with
    | none =>
      simp [changesAt, errsAt, unchangedAt, hr]
      omega
    | some e =>
      cases e with
      | bad c =>
        simp [changesAt, errsAt, unchangedAt, hr]
        omega
      | good c =>
        by_cases hc : applyFixes c = c
        · simp [changesAt, errsAt, unchangedAt, hr, hc]
          omega
        · simp [changesAt, errsAt, unchangedAt, hr, hc]
          omega

/-- C1: on the input line function add(a, b) \x7b the full transformer
produces function add(a: number, b: number): void \x7b — with a void return
annotation, not the number annotation the claim states: rule 3 requires
untyped parameters before : void, so it never matches the typed output of
rule 1, and the math-name return-type correction never happens for this
input. -/
theorem c1_add_two_param_gets_void :
    applyFixes (cs "function add(a, b) \x7b") =
      cs "function add(a: number, b: number): void \x7b" ∧
    applyFixes (cs "function add(a, b) \x7b") ≠
      cs "function add(a: number, b: number): number \x7b" := by
  decide

/-- C2 (counterexample): the Signature Fixer leaves the annotated shape
function add(a: number, b: number): void \x7b — exactly the output rule 1
produces — unchanged, so rules 3 and 4 do not rewrite the shapes produced by
rules 1/2, contrary to the claim. -/
theorem c2_counterexample :
    fix_function_signatures
        (cs "function add(a: number, b: number): void \x7b") =
      cs "function add(a: number, b: number): void \x7b" := by
  decide

/-- C2 (amended): rules 3 and 4 rewrite the untyped-parameter shapes that
already carry a literal : void annotation — function NAME(a, b): void \x7b
for the eight two-parameter math names and function NAME(x): void \x7b for
the four one-parameter math names — changing the parameters to : number and
the return annotation from void to number; these input shapes are never
produced by rules 1/2 (whose output has typed parameters, fails to match
rules 3/4, and keeps void, as the last conjunct shows on rule 1's output). -/
theorem c2_amended_untyped_void_shapes :
    (∀ n ∈ mathNames2,
      fix_function_signatures (cs "function " ++ n ++ cs "(a, b): void \x7b") =
        cs "function " ++ n ++ cs "(a: number, b: number): number \x7b") ∧
    (∀ n ∈ mathNames1,
      fix_function_signatures (cs "function " ++ n ++ cs "(x): void \x7b") =
        cs "function " ++ n ++ cs "(x: number): number \x7b") ∧
    fix_function_signatures (cs "function add(a, b) \x7b") =
      cs "function add(a: number, b: number): void \x7b" := by
  decide

/-- C2 (witness): the amended statement instantiated at the name max. -/
theorem c2_amended_witness :
    fix_function_signatures (cs "function max(a, b): void \x7b") =
      cs "function max(a: number, b: number): number \x7b" :=
  c2_amended_untyped_void_shapes.1 (cs "max") (by decide)

/-- C3 (counterexample): a line using the comparison operator == is not left
unchanged: the condition pattern already matches the prefix total = of
total == 5, so the Declaration Fixer rewrites it to let total == 5. -/
theorem c3_counterexample :
    fix_variable_declarations (cs "total == 5") = cs "let total == 5" ∧
    cs "let total == 5" ≠ cs "total == 5" := by
  decide

/-- C3 (amended): the Declaration Fixer leaves unchanged every line whose
stripped content does not match the prefix pattern [a-zA-Z_]\w*\s*=\s* —
including blank lines, member assignments a.b = 1, index assignments
a[0] = 1, and lines already starting with a declaration keyword — but a line
like total == 5 does match that prefix (at the first = of ==) and is
rewritten to let total == 5. -/
theorem c3_amended_lines :
    (∀ l, reMatch patA (pyStrip l) = false → fixLine l = l) ∧
    fixLine (cs "") = cs "" ∧
    fixLine (cs "a.b = 1") = cs "a.b = 1" ∧
    fixLine (cs "a[0] = 1") = cs "a[0] = 1" ∧
    fixLine (cs "let total = 5;") = cs "let total = 5;" ∧
    fix_variable_declarations (cs "total == 5") = cs "let total == 5" := by
  refine ⟨?_, by decide, by decide, by decide, by decide, by decide⟩
  intro l h
  simp [fixLine, h]

/-- C3 (witness): the amended general conjunct instantiated at a concrete
non-assignment line. -/
theorem c3_amended_witness :
    fixLine (cs "foo();") = cs "foo();" :=
  c3_amended_lines.1 (cs "foo();") (by decide)

/-- C4 (counterexample): a signature whose parameter list contains a newline
is recognized and rewritten, not passed through unchanged: the regex class \s
matches the newline, so the two-line declaration collapses to one annotated
line. -/
theorem c4_counterexample :
    applyFixes (cs "function add(a,\n  b) \x7b") =
      cs "function add(a: number, b: number): void \x7b" ∧
    applyFixes (cs "function add(a,\n  b) \x7b") ≠ cs "function add(a,\n  b) \x7b" := by
  decide

/-- C6: the Declaration Fixer maps total = 5; to let total = 5;, leaves
let total = 5; and obj.total = 5; unchanged, and preserves leading
whitespace on rewritten lines. -/
theorem c6_declaration_fixer_examples :
    fix_variable_declarations (cs "total = 5;") = cs "let total = 5;" ∧
    fix_variable_declarations (cs "let total = 5;") = cs "let total = 5;" ∧
    fix_variable_declarations (cs "obj.total = 5;") = cs "obj.total = 5;" ∧
    fix_variable_declarations (cs "   total = 5;") = cs "   let total = 5;" := by
  decide

/-- C7: for the non-math name greet, the transformer annotates the parameter
and keeps the void return annotation produced by rule 2. -/
theorem c7_greet_keeps_void :
    applyFixes (cs "function greet(name) \x7b") =
      cs "function greet(name: number): void \x7b" := by
  decide

/-- C8: when reading a file raises, the File Processor reports an error for
it, does not count it as fixed, does not modify the filesystem at that step
(the remaining files are processed from the unchanged filesystem, and their
reports and fixed counts follow as if the failing file had merely emitted its
error line), and the failing file still holds its original unreadable bytes
after the whole batch. -/
theorem c8_read_error_isolated :
    ∀ (fs : FS) (ps1 ps2 : List String) (p : String) (c : List Char),
      fsRead (processList fs ps1).1 p = some (Entry.bad c) →
      processList fs (ps1 ++ p :: ps2) =
        ((processList (processList fs ps1).1 ps2).1,
         (processList fs ps1).2.1 ++
           Report.errorR p :: (processList (processList fs ps1).1 ps2).2.1,
         (processList fs ps1).2.2 + (processList (processList fs ps1).1 ps2).2.2) ∧
      fsRead (processList fs (ps1 ++ p :: ps2)).1 p = some (Entry.bad c) := by
  intro fs ps1 ps2 p c h
  have hff : fix_file (processList fs ps1).1 p =
      ((processList fs ps1).1, false, Report.errorR p) :=
    fix_file_bad _ _ _ h
  constructor
  · rw [processList_append]
    simp [processList, hff]
  · rw [processList_append]
    simp only [processList, hff]
    exact processList_bad_preserved ps2 _ p c h

/-- C8 (witness): in the concrete three-file batch, the file that raises on
read still holds its original bytes after the whole run. -/
theorem c8_witness :
    fsRead (processList fsW (["tests/a.tg"] ++ "tests/b.tg" :: ["tests/c.tg"])).1
        "tests/b.tg" = some (Entry.bad (cs "#")) :=
  (c8_read_error_isolated fsW ["tests/a.tg"] ["tests/c.tg"] "tests/b.tg" (cs "#")
    (by decide)).2

/-- C9: over duplicate-free paths that all read successfully, the batch
summary reports total = N, fixed = K (the number of files the transformer
changes), skipped = total - fixed, and exactly K files have content on disk
differing from before the run. -/
theorem c9_batch_summary :
    ∀ (fs : FS) (paths : List String),
      paths.Nodup → (∀ p ∈ paths, errsAt fs p = false) →
      (mainRun fs paths).1.1 = paths.length ∧
      (mainRun fs paths).1.2.1 = (paths.filter (changesAt fs)).length ∧
      (mainRun fs paths).1.2.2 = (mainRun fs paths).1.1 - (mainRun fs paths).1.2.1 ∧
      (paths.filter (fun p =>
          decide (¬ fsRead (mainRun fs paths).2.2 p = fsRead fs p))).length =
        (paths.filter (changesAt fs)).length := by
  intro fs paths hnd hgood
  have hperm := sortPaths_perm paths
  have hnd2 : (sortPaths paths).Nodup := hperm.nodup_iff.mpr hnd
  obtain ⟨hcount, hstate⟩ := processList_spec (sortPaths paths) fs hnd2
  have hfix : (mainRun fs paths).1.2.1 = (paths.filter (changesAt fs)).length := by
    simp only [mainRun]
    rw [hcount]
    exact (hperm.filter (changesAt fs)).length_eq
  refine ⟨rfl, hfix, rfl, ?_⟩
  have hpt : ∀ p ∈ paths,
      (decide (¬ fsRead (mainRun fs paths).2.2 p = fsRead fs p)) = changesAt fs p := by
    intro p hpm
    have hm2 : p ∈ sortPaths paths := hperm.mem_iff.mpr hpm
    have hfinal := hstate p hm2
    have herr := hgood p hpm
    cases hr : fsRead fs p with
    | none => simp [errsAt, hr] at herr
    | some e =>
      cases e with
      | bad c => simp [errsAt, hr] at herr
      | good c =>
        rw [hr] at hfinal
        have hfinal2 : fsRead (processList fs (sortPaths paths)).1 p =
            some (Entry.good (applyFixes c)) := hfinal
        simp only [mainRun]
        simp only [hfinal2]
        unfold changesAt
        simp only [hr]
        by_cases hc : applyFixes c = c
        · simp [hc]
        · simp [hc]
  rw [List.filter_congr hpt]

/-- C9 (witness): the fixed count of a concrete error-free two-file batch
equals the number of files the transformer changes. -/
theorem c9_witness :
    (mainRun fsG ["tests/a.tg", "tests/b.tg"]).1.2.1 =
      ((["tests/a.tg", "tests/b.tg"] : List String).filter (changesAt fsG)).length :=
  (c9_batch_summary fsG ["tests/a.tg", "tests/b.tg"] (by decide) (by decide)).2.1

/-- C10: a file whose read raises makes fix_file return false, exactly as a
readable file the transformer leaves unchanged does, and over duplicate-free
paths the printed skipped count (total minus fixed) equals the number of
errored files plus the number of readable-but-unchanged files. -/
theorem c10_errors_counted_as_skipped :
    (∀ (fs : FS) (p : String) (c : List Char),
       fsRead fs p = some (Entry.bad c) → (fix_file fs p).2.1 = false) ∧
    (∀ (fs : FS) (p : String) (c : List Char),
       fsRead fs p = some (Entry.good c) → applyFixes c = c →
         (fix_file fs p).2.1 = false) ∧
    (∀ (fs : FS) (paths : List String), paths.Nodup →
       (mainRun fs paths).1.2.2 =
         (paths.filter (errsAt fs)).length + (paths.filter (unchangedAt fs)).length) := by
  refine ⟨?_, ?_, ?_⟩
  · intro fs p c h
    rw [fix_file_bad fs p c h]
  · intro fs p c h hc
    simp [fix_file, h, hc]
  · intro fs paths hnd
    have hperm := sortPaths_perm paths
    have hnd2 : (sortPaths paths).Nodup := hperm.nodup_iff.mpr hnd
    have hcount := (processList_spec (sortPaths paths) fs hnd2).1
    have htri := count_trichotomy fs paths
    simp only [mainRun]
    rw [hcount, (hperm.filter (changesAt fs)).length_eq]
    omega

/-- A remainder appears among the greedy star candidates exactly when what
precedes it is a run of the class. -/
lemma mem_starRests (p : Char → Bool) :
    ∀ s r, r ∈ starRests p s ↔ ∃ u, s = u ++ r ∧ ∀ c ∈ u, p c = true := by
  intro s
  induction s with
  | nil =>
    intro r
    simp only [starRests, List.mem_singleton]
    constructor
    · intro h
      exact ⟨[], by simp [h]⟩
    · rintro ⟨u, hu, -⟩
      cases u with
      | nil => simpa using hu.symm
      | cons a u2 => simp at hu
  | cons c s ih =>
    intro r
    constructor
    · intro h
      simp only [starRests] at h
      by_cases hc : p c = true
      · rw [if_pos hc] at h
        rcases List.mem_append.mp h with h1 | h2
        · rcases (ih r).mp h1 with ⟨u, hu, hall⟩
          refine ⟨c :: u, by simp [hu], ?_⟩
          intro d hd
          rcases List.mem_cons.mp hd with rfl | hd2
          · exact hc
          · exact hall d hd2
        · have hr : r = c :: s := by simpa using h2
          exact ⟨[], by simp [hr], by simp⟩
      · rw [if_neg hc] at h
        have hr : r = c :: s := by simpa using h
        exact ⟨[], by simp [hr], by simp⟩
    · rintro ⟨u, hu, hall⟩
      cases u with
      | nil =>
        simp only [List.nil_append] at hu
        simp only [starRests]
        by_cases hc : p c = true
        · rw [if_pos hc]
          simp [hu]
        · rw [if_neg hc]
          simp [hu]
      | cons a u2 =>
        simp only [List.cons_append, List.cons.injEq] at hu
        obtain ⟨h1, hu2⟩ := hu
        subst h1
        have hac : p c = true := hall c (by simp)
        simp only [starRests, if_pos hac]
        refine List.mem_append.mpr (Or.inl ?_)
        exact (ih r).mpr ⟨u2, hu2, fun d hd => hall d (by simp [hd])⟩

/-- The literal matcher succeeds exactly on literal prefixes. -/
lemma litRun_eq_some : ∀ l s r, litRun l s = some r ↔ s = l ++ r := by
  intro l
  induction l with
  | nil =>
    intro s r
    simp [litRun]
  | cons a l ih =>
    intro s r
    cases s with
    | nil => simp [litRun]
    | cons c s2 =>
      simp only [litRun]
      by_cases hac : a = c
      · subst hac
        rw [if_pos rfl, ih]
        simp
      · rw [if_neg hac]
        constructor
        · intro h
          cases h
        · intro h
          simp only [List.cons_append, List.cons.injEq] at h
          exact absurd h.1.symm hac

/-- Every result the engine produces is an accepted decomposition. -/
lemma run_sound : ∀ (r : Reg) (s : List Char) (x : Caps × List Char),
    x ∈ r.run s → AccC r s x.1 x.2 := by
  intro r
  induction r with
  | lit l =>
    intro s x h
    simp only [Reg.run] at h
    cases hl : litRun l s with
    | some t =>
      rw [hl] at h
      have hx : x = ([], t) := by simpa using h
      subst hx
      exact ⟨rfl, (litRun_eq_some l s t).mp hl⟩
    | none =>
      rw [hl] at h
      simp at h
  | cls p =>
    intro s x h
    cases s with
    | nil => simp [Reg.run] at h
    | cons c s2 =>
      simp only [Reg.run] at h
      by_cases hc : p c = true
      · rw [if_pos hc] at h
        have hx : x = ([], s2) := by simpa using h
        subst hx
        exact ⟨rfl, c, rfl, hc⟩
      · rw [if_neg hc] at h
        simp at h
  | star p =>
    intro s x h
    simp only [Reg.run, List.mem_map] at h
    obtain ⟨t, ht, rfl⟩ := h
    exact ⟨rfl, (mem_starRests p s t).mp ht⟩
  | plus p =>
    intro s x h
    cases s with
    | nil => simp [Reg.run] at h
    | cons c s2 =>
      simp only [Reg.run] at h
      by_cases hc : p c = true
      · rw [if_pos hc] at h
        simp only [List.mem_map] at h
        obtain ⟨t, ht, rfl⟩ := h
        obtain ⟨u, hu, hall⟩ := (mem_starRests p s2 t).mp ht
        refine ⟨rfl, c :: u, by simp [hu], by simp, ?_⟩
        intro d hd
        rcases List.mem_cons.mp hd with rfl | hd2
        · exact hc
        · exact hall d hd2
      · rw [if_neg hc] at h
        simp at h
  | seq a b iha ihb =>
    intro s x h
    simp only [Reg.run, List.mem_flatMap, List.mem_map] at h
    obtain ⟨xa, hxa, y, hy, rfl⟩ := h
    exact ⟨xa.2, xa.1, y.1, rfl, iha s xa hxa, ihb xa.2 y hy⟩
  | alt a b iha ihb =>
    intro s x h
    simp only [Reg.run, List.mem_append] at h
    rcases h with h | h
    · exact Or.inl (iha s x h)
    · exact Or.inr (ihb s x h)
  | grp n a iha =>
    intro s x h
    simp only [Reg.run, List.mem_map] at h
    obtain ⟨y, hy, rfl⟩ := h
    exact ⟨y.1, rfl, iha s y hy⟩

/-- Every accepted decomposition is produced by the engine. -/
lemma run_complete : ∀ (r : Reg) (s : List Char) (caps : Caps) (rest : List Char),
    AccC r s caps rest → (caps, rest) ∈ r.run s := by
  intro r
  induction r with
  | lit l =>
    intro s caps rest h
    obtain ⟨rfl, hs⟩ := h
    simp only [Reg.run]
    rw [(litRun_eq_some l s rest).mpr hs]
    simp
  | cls p =>
    intro s caps rest h
    obtain ⟨rfl, c, rfl, hc⟩ := h
    simp [Reg.run, hc]
  | star p =>
    intro s caps rest h
    obtain ⟨rfl, hu⟩ := h
    simp only [Reg.run, List.mem_map]
    exact ⟨rest, (mem_starRests p s rest).mpr hu, rfl⟩
  | plus p =>
    intro s caps rest h
    obtain ⟨rfl, u, rfl, hne, hall⟩ := h
    cases u with
    | nil => exact absurd rfl hne
    | cons c u2 =>
      simp only [List.cons_append, Reg.run]
      rw [if_pos (hall c (by simp))]
      simp only [List.mem_map]
      refine ⟨rest, (mem_starRests p (u2 ++ rest) rest).mpr ⟨u2, rfl, ?_⟩, rfl⟩
      intro d hd
      exact hall d (by simp [hd])
  | seq a b iha ihb =>
    intro s caps rest h
    obtain ⟨m, c1, c2, rfl, ha, hb⟩ := h
    simp only [Reg.run, List.mem_flatMap]
    refine ⟨(c1, m), iha s c1 m ha, ?_⟩
    simp only [List.mem_map]
    exact ⟨(c2, rest), ihb m c2 rest hb, rfl⟩
  | alt a b iha ihb =>
    intro s caps rest h
    simp only [Reg.run, List.mem_append]
    rcases h with h | h
    · exact Or.inl (iha s caps rest h)
    · exact Or.inr (ihb s caps rest h)
  | grp n a iha =>
    intro s caps rest h
    obtain ⟨c1, rfl, ha⟩ := h
    simp only [Reg.run, List.mem_map]
    exact ⟨(c1, rest), iha s c1 rest ha, rfl⟩

/-- An accepted decomposition splits the string as consumed plus remainder. -/
lemma accC_split : ∀ (r : Reg) (s : List Char) (caps : Caps) (rest : List Char),
    AccC r s caps rest → ∃ m, s = m ++ rest := by
  intro r
  induction r with
  | lit l =>
    intro s caps rest h
    exact ⟨l, h.2⟩
  | cls p =>
    intro s caps rest h
    obtain ⟨-, c, rfl, -⟩ := h
    exact ⟨[c], rfl⟩
  | star p =>
    intro s caps rest h
    obtain ⟨-, u, rfl, -⟩ := h
    exact ⟨u, rfl⟩
  | plus p =>
    intro s caps rest h
    obtain ⟨-, u, rfl, -, -⟩ := h
    exact ⟨u, rfl⟩
  | seq a b iha ihb =>
    intro s caps rest h
    obtain ⟨m, c1, c2, -, ha, hb⟩ := h
    obtain ⟨ma, rfl⟩ := iha s c1 m ha
    obtain ⟨mb, rfl⟩ := ihb m c2 rest hb
    exact ⟨ma ++ mb, by simp⟩
  | alt a b iha ihb =>
    intro s caps rest h
    rcases h with h | h
    · exact iha s caps rest h
    · exact ihb s caps rest h
  | grp n a iha =>
    intro s caps rest h
    obtain ⟨c1, -, ha⟩ := h
    exact iha s c1 rest ha

/-- Acceptance constrains only the consumed part: the remainder can be
replaced by anything, keeping the same captures. -/
lemma accC_ext : ∀ (r : Reg) (m rest : List Char) (caps : Caps),
    AccC r (m ++ rest) caps rest → ∀ rest2, AccC r (m ++ rest2) caps rest2 := by
  intro r
  induction r with
  | lit l =>
    intro m rest caps h rest2
    obtain ⟨rfl, hs⟩ := h
    have hm : m = l := (List.append_inj' hs rfl).1
    subst hm
    exact ⟨rfl, rfl⟩
  | cls p =>
    intro m rest caps h rest2
    obtain ⟨rfl, c, hs, hc⟩ := h
    have hm : m = [c] := (List.append_inj' (by simpa using hs) rfl).1
    subst hm
    exact ⟨rfl, c, rfl, hc⟩
  | star p =>
    intro m rest caps h rest2
    obtain ⟨rfl, u, hs, hall⟩ := h
    have hm : m = u := (List.append_inj' hs rfl).1
    subst hm
    exact ⟨rfl, m, rfl, hall⟩
  | plus p =>
    intro m rest caps h rest2
    obtain ⟨rfl, u, hs, hne, hall⟩ := h
    have hm : m = u := (List.append_inj' hs rfl).1
    subst hm
    exact ⟨rfl, m, rfl, hne, hall⟩
  | seq a b iha ihb =>
    intro m rest caps h rest2
    obtain ⟨mid, c1, c2, rfl, ha, hb⟩ := h
    obtain ⟨mb, rfl⟩ := accC_split b mid c2 rest hb
    obtain ⟨ma, hsa⟩ := accC_split a (m ++ rest) c1 (mb ++ rest) ha
    have hm : m = ma ++ mb := by
      have hh : m ++ rest = (ma ++ mb) ++ rest := by simpa [List.append_assoc] using hsa
      exact (List.append_inj' hh rfl).1
    subst hm
    refine ⟨mb ++ rest2, c1, c2, rfl, ?_, ihb mb rest c2 hb rest2⟩
    have ha2 := iha ma (mb ++ rest) c1 (by simpa [List.append_assoc] using ha) (mb ++ rest2)
    simpa [List.append_assoc] using ha2
  | alt a b iha ihb =>
    intro m rest caps h rest2
    rcases h with h | h
    · exact Or.inl (iha m rest caps h rest2)
    · exact Or.inr (ihb m rest caps h rest2)
  | grp n a iha =>
    intro m rest caps h rest2
    obtain ⟨c1, hcaps, ha⟩ := h
    have htk : ∀ z : List Char, (m ++ z).take ((m ++ z).length - z.length) = m := by
      intro z
      have hl : (m ++ z).length - z.length = m.length := by simp
      rw [hl]
      exact List.take_left m z
    rw [htk rest] at hcaps
    refine ⟨c1, ?_, iha m rest c1 ha rest2⟩
    rw [htk rest2]
    exact hcaps

/-- An occurrence in a suffix is an occurrence in the whole. -/
lemma occ_lift (r : Reg) (x z : List Char) (h : Occ r z) : Occ r (x ++ z) := by
  obtain ⟨u, m, w, rfl, hacc⟩ := h
  exact ⟨x ++ u, m, w, by simp, hacc⟩

/-- An occurrence contained in a prefix of the string is an occurrence no
matter what follows that prefix. -/
lemma occ_extend (r : Reg) (u m d w : List Char) (h : Acc r (m ++ w) w) :
    ∀ z, Occ r ((u ++ m ++ d) ++ z) := by
  intro z
  obtain ⟨caps, hc⟩ := h
  exact ⟨u, m, d ++ z, by simp, caps, accC_ext r m w caps hc (d ++ z)⟩

/-- The engine finds a result exactly when some decomposition is accepted. -/
lemma run_ne_iff (r : Reg) (s : List Char) :
    r.run s ≠ [] ↔ ∃ rest, Acc r s rest := by
  constructor
  · intro h
    cases hr : r.run s with
    | nil => exact absurd hr h
    | cons x l =>
      have hx : x ∈ r.run s := by rw [hr]; simp
      exact ⟨x.2, x.1, run_sound r s x hx⟩
  · rintro ⟨rest, caps, h⟩
    exact List.ne_nil_of_mem (run_complete r s caps rest h)

/-- The scan returns none exactly when no suffix matches. -/
lemma findFirst_none_iff (r : Reg) :
    ∀ s, findFirst r s = none ↔ ∀ u v : List Char, s = u ++ v → r.run v = [] := by
  intro s
  induction s with
  | nil =>
    cases hh : (r.run []).head? with
    | some x =>
      simp only [findFirst, hh]
      constructor
      · intro h
        cases h
      · intro h
        have h0 := h [] [] rfl
        rw [h0] at hh
        cases hh
    | none =>
      simp only [findFirst, hh]
      constructor
      · intro _ u v huv
        have hu : u = [] := by
          cases u with
          | nil => rfl
          | cons a u2 => simp at huv
        have hv : v = [] := by
          cases v with
          | nil => rfl
          | cons a v2 => subst hu; simp at huv
        subst hv
        exact List.head?_eq_none_iff.mp hh
      · intro _
        trivial
  | cons c s ih =>
    cases hh : (r.run (c :: s)).head? with
    | some x =>
      simp only [findFirst, hh]
      constructor
      · intro h
        cases h
      · intro h
        have h0 := h [] (c :: s) rfl
        rw [h0] at hh
        cases hh
    | none =>
      simp only [findFirst, hh]
      rw [Option.map_eq_none', ih]
      constructor
      · intro h u v huv
        cases u with
        | nil =>
          simp only [List.nil_append] at huv
          subst huv
          exact List.head?_eq_none_iff.mp hh
        | cons a u2 =>
          simp only [List.cons_append, List.cons.injEq] at huv
          exact h u2 v huv.2
      · intro h u v huv
        exact h (c :: u) v (by simp [huv])

/-- What the scan's first hit means: a decomposition into a match-free
prefix, the accepted match, and the remainder. -/
lemma findFirst_some_spec (r : Reg) :
    ∀ s pre caps rest, findFirst r s = some (pre, caps, rest) →
      ∃ m, s = pre ++ m ++ rest ∧ AccC r (m ++ rest) caps rest ∧
        PureBefore r pre (m ++ rest) := by
  intro s
  induction s with
  | nil =>
    intro pre caps rest h
    cases hh : (r.run []).head? with
    | some x =>
      simp only [findFirst, hh] at h
      obtain ⟨h1, h2, h3⟩ : pre = [] ∧ caps = x.1 ∧ rest = x.2 := by
        cases h
        exact ⟨rfl, rfl, rfl⟩
      subst h1; subst h2; subst h3
      have hx : x ∈ r.run [] := by
        cases hr : r.run [] with
        | nil => rw [hr] at hh; cases hh
        | cons y l =>
          rw [hr] at hh
          cases hh
          simp
      have hac := run_sound r [] x hx
      obtain ⟨m, hm⟩ := accC_split r [] x.1 x.2 hac
      refine ⟨m, by simpa using hm, by rw [hm] at hac; exact hac, ?_⟩
      intro u v huv hv
      cases u with
      | nil =>
        simp only [List.nil_append] at huv
        exact absurd huv.symm hv
      | cons a u2 => simp at huv
    | none =>
      simp only [findFirst, hh] at h
      cases h
  | cons c s ih =>
    intro pre caps rest h
    cases hh : (r.run (c :: s)).head? with
    | some x =>
      simp only [findFirst, hh] at h
      obtain ⟨h1, h2, h3⟩ : pre = [] ∧ caps = x.1 ∧ rest = x.2 := by
        cases h
        exact ⟨rfl, rfl, rfl⟩
      subst h1; subst h2; subst h3
      have hx : x ∈ r.run (c :: s) := by
        cases hr : r.run (c :: s) with
        | nil => rw [hr] at hh; cases hh
        | cons y l =>
          rw [hr] at hh
          cases hh
          simp
      have hac := run_sound r (c :: s) x hx
      obtain ⟨m, hm⟩ := accC_split r (c :: s) x.1 x.2 hac
      refine ⟨m, by simpa using hm, by rw [hm] at hac; exact hac, ?_⟩
      intro u v huv hv
      cases u with
      | nil =>
        simp only [List.nil_append] at huv
        exact absurd huv.symm hv
      | cons a u2 => simp at huv
    | none =>
      simp only [findFirst, hh] at h
      rw [Option.map_eq_some'] at h
      obtain ⟨y, hy, hxy⟩ := h
      obtain ⟨m, hm, hac, hpure⟩ := ih y.1 y.2.1 y.2.2 hy
      obtain ⟨h1, h2, h3⟩ : pre = c :: y.1 ∧ caps = y.2.1 ∧ rest = y.2.2 := by
        cases hxy
        exact ⟨rfl, rfl, rfl⟩
      subst h1; subst h2; subst h3
      refine ⟨m, by simp [hm], hac, ?_⟩
      intro u v huv hv
      cases u with
      | nil =>
        simp only [List.nil_append] at huv
        subst huv
        have hcs : (c :: y.1) ++ (m ++ y.2.2) = c :: s := by
          rw [hm]
          simp
        rw [hcs]
        exact List.head?_eq_none_iff.mp hh
      | cons a u2 =>
        simp only [List.cons_append, List.cons.injEq] at huv
        exact hpure u2 v huv.2 hv

/-- With enough fuel, the fuelled substitution is described by SubOut. -/
lemma subAux_subOut (r : Reg) (t : List Tpl) (hp : Productive r) :
    ∀ fuel s, s.length < fuel → SubOut r t s (subAux r t fuel s) := by
  intro fuel
  induction fuel with
  | zero =>
    intro s hs
    exact absurd hs (by omega)
  | succ fuel ih =>
    intro s hs
    simp only [subAux]
    cases hf : findFirst r s with
    | none =>
      refine SubOut.pure s ?_
      rintro ⟨u, m, w, rfl, rest, hacc⟩
      have h0 := (findFirst_none_iff r _).mp hf u (m ++ w) (by simp)
      exact List.ne_nil_of_mem (run_complete r (m ++ w) rest w hacc) h0
    | some x =>
      obtain ⟨pre, caps, rest⟩ := x
      obtain ⟨m, hm, hac, hpure⟩ := findFirst_some_spec r s pre caps rest hf
      have hlen : rest.length < fuel := by
        have h1 := hp (m ++ rest) caps rest hac
        have h2 : s.length = pre.length + (m.length + rest.length) := by
          rw [hm]; simp
        simp only [List.length_append] at h1
        omega
      rw [hm]
      exact SubOut.step pre m caps rest (subAux r t fuel rest) hpure hac (ih rest hlen)

/-- The substitution's output is described by SubOut. -/
lemma reSub_subOut (r : Reg) (t : List Tpl) (hp : Productive r) (s : List Char) :
    SubOut r t s (reSub r t s) :=
  subAux_subOut r t hp (s.length + 1) s (by omega)

/-- On a string without any occurrence, the substitution is the identity. -/
lemma reSub_id_of_noOcc (r : Reg) (t : List Tpl) (s : List Char) (h : ¬ Occ r s) :
    reSub r t s = s := by
  have hf : findFirst r s = none := by
    rw [findFirst_none_iff]
    intro u v huv
    cases hr : r.run v with
    | nil => rfl
    | cons x l =>
      exfalso
      have hx : x ∈ r.run v := by rw [hr]; simp
      have hac := run_sound r v x hx
      obtain ⟨m, hm⟩ := accC_split r v x.1 x.2 hac
      refine h ⟨u, m, x.2, by rw [huv, hm, List.append_assoc], x.1, ?_⟩
      rw [hm] at hac
      exact hac
  unfold reSub
  simp only [subAux, hf]

/-- Token realizations concatenate. -/
lemma toksStr_append : ∀ (ts1 ts2 : List Tok) (u1 u2 : List Char),
    ToksStr ts1 u1 → ToksStr ts2 u2 → ToksStr (ts1 ++ ts2) (u1 ++ u2) := by
  intro ts1
  induction ts1 with
  | nil =>
    intro ts2 u1 u2 h1 h2
    have hu : u1 = [] := h1
    subst hu
    simpa using h2
  | cons t ts ih =>
    intro ts2 u1 u2 h1 h2
    obtain ⟨v1, v2, rfl, ht, hts⟩ := h1
    exact ⟨v1, v2 ++ u2, by simp, ht, ih ts2 v2 u2 hts h2⟩

/-- A string of literal-character tokens stands for exactly that string. -/
lemma toksStr_chars : ∀ l : List Char, ToksStr (l.map Tok.ch) l := by
  intro l
  induction l with
  | nil => exact rfl
  | cons c l ih => exact ⟨[c], l, rfl, rfl, ih⟩

/-- A single token as a one-element token list. -/
lemma toksStr_single (t : Tok) (m : List Char) (h : TokStr t m) : ToksStr [t] m :=
  ⟨m, [], by simp, h, rfl⟩

/-- A literal element realizes its character tokens. -/
lemma elem_lit (l : List Char) : ElemToks (Reg.lit l) (l.map Tok.ch) := by
  intro s caps rest h
  obtain ⟨-, rfl⟩ := h
  exact ⟨l, rfl, toksStr_chars l⟩

/-- A nonempty whitespace repetition realizes the sp1 token. -/
lemma elem_plus_sp : ElemToks (Reg.plus pySpace) [Tok.sp1] := by
  intro s caps rest h
  obtain ⟨-, u, rfl, hne, hall⟩ := h
  exact ⟨u, rfl, toksStr_single _ _ ⟨hne, hall⟩⟩

/-- A whitespace repetition realizes the sp token. -/
lemma elem_star_sp : ElemToks (Reg.star pySpace) [Tok.sp] := by
  intro s caps rest h
  obtain ⟨-, u, rfl, hall⟩ := h
  exact ⟨u, rfl, toksStr_single _ _ hall⟩

/-- A captured word repetition realizes the w token. -/
lemma elem_grp_w (n : Nat) : ElemToks (Reg.grp n (Reg.plus pyWord)) [Tok.w] := by
  intro s caps rest h
  obtain ⟨c1, -, hin⟩ := h
  obtain ⟨-, u, rfl, hne, hall⟩ := hin
  exact ⟨u, rfl, toksStr_single _ _ ⟨hne, hall⟩⟩

/-- An alternation of literal words accepts exactly one of its words. -/
lemma accC_altWords : ∀ (names : List (List Char)) (s : List Char) (caps : Caps)
    (rest : List Char), AccC (altWords names) s caps rest →
      ∃ nm, nm ∈ names ∧ caps = [] ∧ s = nm ++ rest := by
  intro names
  induction names with
  | nil =>
    intro s caps rest h
    obtain ⟨-, c, -, hc⟩ := h
    simp at hc
  | cons nm names ih =>
    intro s caps rest h
    rcases h with ⟨hc, hs⟩ | h2
    · exact ⟨nm, by simp, hc, hs⟩
    · obtain ⟨nm2, hmem, hc, hs⟩ := ih s caps rest h2
      exact ⟨nm2, by simp [hmem], hc, hs⟩

/-- A captured alternation of nonempty all-word names realizes the w token. -/
lemma elem_grp_alt (n : Nat) (names : List (List Char))
    (hn : ∀ nm ∈ names, nm ≠ [] ∧ ∀ c ∈ nm, pyWord c = true) :
    ElemToks (Reg.grp n (altWords names)) [Tok.w] := by
  intro s caps rest h
  obtain ⟨c1, -, hin⟩ := h
  obtain ⟨nm, hmem, -, rfl⟩ := accC_altWords names s c1 rest hin
  exact ⟨nm, rfl, toksStr_single _ _ (hn nm hmem)⟩

/-- An accepted match of a concatenation realizes the concatenation of the
elements' token lists. -/
lemma accC_rseq_toks : ∀ (es : List Reg) (tss : List (List Tok)),
    List.Forall₂ ElemToks es tss →
    ∀ (s : List Char) (caps : Caps) (rest : List Char),
      AccC (rseq es) s caps rest →
      ∃ m, s = m ++ rest ∧ ToksStr tss.flatten m := by
  intro es tss hf
  induction hf with
  | nil =>
    intro s caps rest h
    obtain ⟨-, hs⟩ := h
    exact ⟨[], by simpa using hs, rfl⟩
  | @cons e ts es2 tss2 he hf2 ih =>
    intro s caps rest h
    obtain ⟨mid, c1, c2, -, h1, h2⟩ := h
    obtain ⟨m1, rfl, ht1⟩ := he s c1 mid h1
    obtain ⟨m2, hmid, ht2⟩ := ih mid c2 rest h2
    subst hmid
    refine ⟨m1 ++ m2, by simp, ?_⟩
    have hta := toksStr_append ts tss2.flatten m1 m2 ht1 ht2
    simpa using hta

/-- Any match of rule 1 realizes its token skeleton. -/
lemma rule1_toksStr : ∀ (s : List Char) (caps : Caps) (rest : List Char),
    AccC rule1 s caps rest → ∃ m, s = m ++ rest ∧ ToksStr ruleToks1 m := by
  have hf : List.Forall₂ ElemToks
      [Reg.lit (cs "function"), Reg.plus pySpace, Reg.grp 1 (Reg.plus pyWord),
       Reg.star pySpace, Reg.lit (cs "("), Reg.star pySpace,
       Reg.grp 2 (Reg.plus pyWord), Reg.star pySpace, Reg.lit (cs ","),
       Reg.star pySpace, Reg.grp 3 (Reg.plus pyWord), Reg.star pySpace,
       Reg.lit (cs ")"), Reg.star pySpace, Reg.lit (cs "\x7b")]
      [chT "function", [Tok.sp1], [Tok.w], [Tok.sp], [Tok.ch '('], [Tok.sp],
       [Tok.w], [Tok.sp], [Tok.ch ','], [Tok.sp], [Tok.w], [Tok.sp],
       [Tok.ch ')'], [Tok.sp], [Tok.ch '\x7b']] :=
    .cons (elem_lit _) (.cons elem_plus_sp (.cons (elem_grp_w 1)
      (.cons elem_star_sp (.cons (elem_lit _) (.cons elem_star_sp
      (.cons (elem_grp_w 2) (.cons elem_star_sp (.cons (elem_lit _)
      (.cons elem_star_sp (.cons (elem_grp_w 3) (.cons elem_star_sp
      (.cons (elem_lit _) (.cons elem_star_sp (.cons (elem_lit _) .nil))))))))))))))
  intro s caps rest h
  obtain ⟨m, hm, ht⟩ := accC_rseq_toks _ _ hf s caps rest h
  exact ⟨m, hm, ht⟩

/-- Any match of rule 2 realizes its token skeleton. -/
lemma rule2_toksStr : ∀ (s : List Char) (caps : Caps) (rest : List Char),
    AccC rule2 s caps rest → ∃ m, s = m ++ rest ∧ ToksStr ruleToks2 m := by
  have hf : List.Forall₂ ElemToks
      [Reg.lit (cs "function"), Reg.plus pySpace, Reg.grp 1 (Reg.plus pyWord),
       Reg.star pySpace, Reg.lit (cs "("), Reg.star pySpace,
       Reg.grp 2 (Reg.plus pyWord), Reg.star pySpace,
       Reg.lit (cs ")"), Reg.star pySpace, Reg.lit (cs "\x7b")]
      [chT "function", [Tok.sp1], [Tok.w], [Tok.sp], [Tok.ch '('], [Tok.sp],
       [Tok.w], [Tok.sp], [Tok.ch ')'], [Tok.sp], [Tok.ch '\x7b']] :=
    .cons (elem_lit _) (.cons elem_plus_sp (.cons (elem_grp_w 1)
      (.cons elem_star_sp (.cons (elem_lit _) (.cons elem_star_sp
      (.cons (elem_grp_w 2) (.cons elem_star_sp (.cons (elem_lit _)
      (.cons elem_star_sp (.cons (elem_lit _) .nil))))))))))
  intro s caps rest h
  obtain ⟨m, hm, ht⟩ := accC_rseq_toks _ _ hf s caps rest h
  exact ⟨m, hm, ht⟩

/-- Any match of rule 3 realizes its token skeleton. -/
lemma rule3_toksStr : ∀ (s : List Char) (caps : Caps) (rest : List Char),
    AccC rule3 s caps rest → ∃ m, s = m ++ rest ∧ ToksStr ruleToks3 m := by
  have hf : List.Forall₂ ElemToks
      [Reg.lit (cs "function"), Reg.plus pySpace, Reg.grp 1 (altWords mathNames2),
       Reg.star pySpace, Reg.lit (cs "("), Reg.star pySpace,
       Reg.grp 2 (Reg.plus pyWord), Reg.star pySpace, Reg.lit (cs ","),
       Reg.star pySpace, Reg.grp 3 (Reg.plus pyWord), Reg.star pySpace,
       Reg.lit (cs ")"), Reg.star pySpace, Reg.lit (cs ":"), Reg.star pySpace,
       Reg.lit (cs "void"), Reg.star pySpace, Reg.lit (cs "\x7b")]
      [chT "function", [Tok.sp1], [Tok.w], [Tok.sp], [Tok.ch '('], [Tok.sp],
       [Tok.w], [Tok.sp], [Tok.ch ','], [Tok.sp], [Tok.w], [Tok.sp],
       [Tok.ch ')'], [Tok.sp], [Tok.ch ':'], [Tok.sp], chT "void", [Tok.sp],
       [Tok.ch '\x7b']] :=
    .cons (elem_lit _) (.cons elem_plus_sp
      (.cons (elem_grp_alt 1 mathNames2 (by decide))
      (.cons elem_star_sp (.cons (elem_lit _) (.cons elem_star_sp
      (.cons (elem_grp_w 2) (.cons elem_star_sp (.cons (elem_lit _)
      (.cons elem_star_sp (.cons (elem_grp_w 3) (.cons elem_star_sp
      (.cons (elem_lit _) (.cons elem_star_sp (.cons (elem_lit _)
      (.cons elem_star_sp (.cons (elem_lit _) (.cons elem_star_sp
      (.cons (elem_lit _) .nil))))))))))))))))))
  intro s caps rest h
  obtain ⟨m, hm, ht⟩ := accC_rseq_toks _ _ hf s caps rest h
  exact ⟨m, hm, ht⟩

/-- Any match of rule 4 realizes its token skeleton. -/
lemma rule4_toksStr : ∀ (s : List Char) (caps : Caps) (rest : List Char),
    AccC rule4 s caps rest → ∃ m, s = m ++ rest ∧ ToksStr ruleToks4 m := by
  have hf : List.Forall₂ ElemToks
      [Reg.lit (cs "function"), Reg.plus pySpace, Reg.grp 1 (altWords mathNames1),
       Reg.star pySpace, Reg.lit (cs "("), Reg.star pySpace,
       Reg.grp 2 (Reg.plus pyWord), Reg.star pySpace,
       Reg.lit (cs ")"), Reg.star pySpace, Reg.lit (cs ":"), Reg.star pySpace,
       Reg.lit (cs "void"), Reg.star pySpace, Reg.lit (cs "\x7b")]
      [chT "function", [Tok.sp1], [Tok.w], [Tok.sp], [Tok.ch '('], [Tok.sp],
       [Tok.w], [Tok.sp], [Tok.ch ')'], [Tok.sp], [Tok.ch ':'], [Tok.sp],
       chT "void", [Tok.sp], [Tok.ch '\x7b']] :=
    .cons (elem_lit _) (.cons elem_plus_sp
      (.cons (elem_grp_alt 1 mathNames1 (by decide))
      (.cons elem_star_sp (.cons (elem_lit _) (.cons elem_star_sp
      (.cons (elem_grp_w 2) (.cons elem_star_sp (.cons (elem_lit _)
      (.cons elem_star_sp (.cons (elem_lit _) (.cons elem_star_sp
      (.cons (elem_lit _) (.cons elem_star_sp (.cons (elem_lit _) .nil))))))))))))))
  intro s caps rest h
  obtain ⟨m, hm, ht⟩ := accC_rseq_toks _ _ hf s caps rest h
  exact ⟨m, hm, ht⟩

/-- Inversion for a captured word repetition. -/
lemma accC_grp_plus_inv {n : Nat} {p : Char → Bool} {s : List Char} {caps : Caps}
    {rest : List Char} (h : AccC (Reg.grp n (Reg.plus p)) s caps rest) :
    ∃ u, caps = [(n, u)] ∧ s = u ++ rest ∧ u ≠ [] ∧ ∀ c ∈ u, p c = true := by
  obtain ⟨c1, hcaps, hin⟩ := h
  obtain ⟨hc1, u, rfl, hne, hall⟩ := hin
  subst hc1
  refine ⟨u, ?_, rfl, hne, hall⟩
  have hl : (u ++ rest).length - rest.length = u.length := by simp
  rw [hcaps, hl, List.take_left u rest]
  simp

/-- Inversion for a captured word alternation. -/
lemma accC_grp_alt_inv {n : Nat} {names : List (List Char)} {s : List Char}
    {caps : Caps} {rest : List Char}
    (h : AccC (Reg.grp n (altWords names)) s caps rest) :
    ∃ nm, nm ∈ names ∧ caps = [(n, nm)] ∧ s = nm ++ rest := by
  obtain ⟨c1, hcaps, hin⟩ := h
  obtain ⟨nm, hmem, hc1, rfl⟩ := accC_altWords names s c1 rest hin
  subst hc1
  refine ⟨nm, hmem, ?_, rfl⟩
  have hl : (nm ++ rest).length - rest.length = nm.length := by simp
  rw [hcaps, hl, List.take_left nm rest]
  simp

/-- A token list led by literal characters peels them off. -/
lemma toksStr_chars_prefix : ∀ (l : List Char) (ts : List Tok) (m : List Char),
    ToksStr (l.map Tok.ch ++ ts) m → ∃ m2, m = l ++ m2 ∧ ToksStr ts m2 := by
  intro l
  induction l with
  | nil =>
    intro ts m h
    exact ⟨m, rfl, h⟩
  | cons c l ih =>
    intro ts m h
    obtain ⟨u1, u2, rfl, hu1, hts⟩ := h
    have hu : u1 = [c] := hu1
    subst hu
    obtain ⟨m2, rfl, h2⟩ := ih ts u2 hts
    exact ⟨m2, rfl, h2⟩

/-- Captures of a rule-1 match: the name and the two parameters. -/
lemma rule1_caps : ∀ (s : List Char) (caps : Caps) (rest : List Char),
    AccC rule1 s caps rest →
    ∃ nm w2 w3, caps = [(1, nm), (2, w2), (3, w3)] ∧
      WordStr nm ∧ WordStr w2 ∧ WordStr w3 := by
  intro s caps rest h
  obtain ⟨t1, a1, b1, rfl, h1, h⟩ := h
  obtain ⟨t2, a2, b2, rfl, h2, h⟩ := h
  obtain ⟨t3, a3, b3, rfl, h3, h⟩ := h
  obtain ⟨t4, a4, b4, rfl, h4, h⟩ := h
  obtain ⟨t5, a5, b5, rfl, h5, h⟩ := h
  obtain ⟨t6, a6, b6, rfl, h6, h⟩ := h
  obtain ⟨t7, a7, b7, rfl, h7, h⟩ := h
  obtain ⟨t8, a8, b8, rfl, h8, h⟩ := h
  obtain ⟨t9, a9, b9, rfl, h9, h⟩ := h
  obtain ⟨t10, a10, b10, rfl, h10, h⟩ := h
  obtain ⟨t11, a11, b11, rfl, h11, h⟩ := h
  obtain ⟨t12, a12, b12, rfl, h12, h⟩ := h
  obtain ⟨t13, a13, b13, rfl, h13, h⟩ := h
  obtain ⟨t14, a14, b14, rfl, h14, h⟩ := h
  obtain ⟨t15, a15, b15, rfl, h15, h16⟩ := h
  obtain ⟨nm, ha3, -, hne3, hall3⟩ := accC_grp_plus_inv h3
  obtain ⟨w2, ha7, -, hne7, hall7⟩ := accC_grp_plus_inv h7
  obtain ⟨w3, ha11, -, hne11, hall11⟩ := accC_grp_plus_inv h11
  refine ⟨nm, w2, w3, ?_, ⟨hne3, hall3⟩, ⟨hne7, hall7⟩, ⟨hne11, hall11⟩⟩
  subst ha3
  subst ha7
  subst ha11
  rw [h1.1, h2.1, h4.1, h5.1, h6.1, h8.1, h9.1, h10.1, h12.1, h13.1, h14.1,
    h15.1, h16.1]
  simp

/-- Captures of a rule-2 match: the name and the parameter. -/
lemma rule2_caps : ∀ (s : List Char) (caps : Caps) (rest : List Char),
    AccC rule2 s caps rest →
    ∃ nm w2, caps = [(1, nm), (2, w2)] ∧ WordStr nm ∧ WordStr w2 := by
  intro s caps rest h
  obtain ⟨t1, a1, b1, rfl, h1, h⟩ := h
  obtain ⟨t2, a2, b2, rfl, h2, h⟩ := h
  obtain ⟨t3, a3, b3, rfl, h3, h⟩ := h
  obtain ⟨t4, a4, b4, rfl, h4, h⟩ := h
  obtain ⟨t5, a5, b5, rfl, h5, h⟩ := h
  obtain ⟨t6, a6, b6, rfl, h6, h⟩ := h
  obtain ⟨t7, a7, b7, rfl, h7, h⟩ := h
  obtain ⟨t8, a8, b8, rfl, h8, h⟩ := h
  obtain ⟨t9, a9, b9, rfl, h9, h⟩ := h
  obtain ⟨t10, a10, b10, rfl, h10, h⟩ := h
  obtain ⟨t11, a11, b11, rfl, h11, h12⟩ := h
  obtain ⟨nm, ha3, -, hne3, hall3⟩ := accC_grp_plus_inv h3
  obtain ⟨w2, ha7, -, hne7, hall7⟩ := accC_grp_plus_inv h7
  refine ⟨nm, w2, ?_, ⟨hne3, hall3⟩, ⟨hne7, hall7⟩⟩
  subst ha3
  subst ha7
  rw [h1.1, h2.1, h4.1, h5.1, h6.1, h8.1, h9.1, h10.1, h11.1, h12.1]
  simp

/-- Captures of a rule-3 match: a math name and the two parameters. -/
lemma rule3_caps : ∀ (s : List Char) (caps : Caps) (rest : List Char),
    AccC rule3 s caps rest →
    ∃ nm w2 w3, caps = [(1, nm), (2, w2), (3, w3)] ∧
      WordStr nm ∧ WordStr w2 ∧ WordStr w3 := by
  intro s caps rest h
  obtain ⟨t1, a1, b1, rfl, h1, h⟩ := h
  obtain ⟨t2, a2, b2, rfl, h2, h⟩ := h
  obtain ⟨t3, a3, b3, rfl, h3, h⟩ := h
  obtain ⟨t4, a4, b4, rfl, h4, h⟩ := h
  obtain ⟨t5, a5, b5, rfl, h5, h⟩ := h
  obtain ⟨t6, a6, b6, rfl, h6, h⟩ := h
  obtain ⟨t7, a7, b7, rfl, h7, h⟩ := h
  obtain ⟨t8, a8, b8, rfl, h8, h⟩ := h
  obtain ⟨t9, a9, b9, rfl, h9, h⟩ := h
  obtain ⟨t10, a10, b10, rfl, h10, h⟩ := h
  obtain ⟨t11, a11, b11, rfl, h11, h⟩ := h
  obtain ⟨t12, a12, b12, rfl, h12, h⟩ := h
  obtain ⟨t13, a13, b13, rfl, h13, h⟩ := h
  obtain ⟨t14, a14, b14, rfl, h14, h⟩ := h
  obtain ⟨t15, a15, b15, rfl, h15, h⟩ := h
  obtain ⟨t16, a16, b16, rfl, h16, h⟩ := h
  obtain ⟨t17, a17, b17, rfl, h17, h⟩ := h
  obtain ⟨t18, a18, b18, rfl, h18, h⟩ := h
  obtain ⟨t19, a19, b19, rfl, h19, h20⟩ := h
  obtain ⟨nm, hmem, ha3, -⟩ := accC_grp_alt_inv h3
  obtain ⟨w2, ha7, -, hne7, hall7⟩ := accC_grp_plus_inv h7
  obtain ⟨w3, ha11, -, hne11, hall11⟩ := accC_grp_plus_inv h11
  have hnm : WordStr nm := by
    have hall : ∀ x ∈ mathNames2, WordStr x := by
      intro x hx
      simp only [mathNames2, List.mem_cons, List.not_mem_nil, or_false] at hx
      rcases hx with rfl | rfl | rfl | rfl | rfl | rfl | rfl | rfl <;>
        exact ⟨by decide, by decide⟩
    exact hall nm hmem
  refine ⟨nm, w2, w3, ?_, hnm, ⟨hne7, hall7⟩, ⟨hne11, hall11⟩⟩
  subst ha3
  subst ha7
  subst ha11
  rw [h1.1, h2.1, h4.1, h5.1, h6.1, h8.1, h9.1, h10.1, h12.1, h13.1, h14.1,
    h15.1, h16.1, h17.1, h18.1, h19.1, h20.1]
  simp

/-- Captures of a rule-4 match: a math name and the parameter. -/
lemma rule4_caps : ∀ (s : List Char) (caps : Caps) (rest : List Char),
    AccC rule4 s caps rest →
    ∃ nm w2, caps = [(1, nm), (2, w2)] ∧ WordStr nm ∧ WordStr w2 := by
  intro s caps rest h
  obtain ⟨t1, a1, b1, rfl, h1, h⟩ := h
  obtain ⟨t2, a2, b2, rfl, h2, h⟩ := h
  obtain ⟨t3, a3, b3, rfl, h3, h⟩ := h
  obtain ⟨t4, a4, b4, rfl, h4, h⟩ := h
  obtain ⟨t5, a5, b5, rfl, h5, h⟩ := h
  obtain ⟨t6, a6, b6, rfl, h6, h⟩ := h
  obtain ⟨t7, a7, b7, rfl, h7, h⟩ := h
  obtain ⟨t8, a8, b8, rfl, h8, h⟩ := h
  obtain ⟨t9, a9, b9, rfl, h9, h⟩ := h
  obtain ⟨t10, a10, b10, rfl, h10, h⟩ := h
  obtain ⟨t11, a11, b11, rfl, h11, h⟩ := h
  obtain ⟨t12, a12, b12, rfl, h12, h⟩ := h
  obtain ⟨t13, a13, b13, rfl, h13, h⟩ := h
  obtain ⟨t14, a14, b14, rfl, h14, h⟩ := h
  obtain ⟨t15, a15, b15, rfl, h15, h16⟩ := h
  obtain ⟨nm, hmem, ha3, -⟩ := accC_grp_alt_inv h3
  obtain ⟨w2, ha7, -, hne7, hall7⟩ := accC_grp_plus_inv h7
  have hnm : WordStr nm := by
    have hall : ∀ x ∈ mathNames1, WordStr x := by
      intro x hx
      simp only [mathNames1, List.mem_cons, List.not_mem_nil, or_false] at hx
      rcases hx with rfl | rfl | rfl | rfl <;> exact ⟨by decide, by decide⟩
    exact hall nm hmem
  refine ⟨nm, w2, ?_, hnm, ⟨hne7, hall7⟩⟩
  subst ha3
  subst ha7
  rw [h1.1, h2.1, h4.1, h5.1, h6.1, h8.1, h9.1, h10.1, h11.1, h12.1, h13.1,
    h14.1, h15.1, h16.1]
  simp

/-- The replacement a rule-1 match produces has the common typed shape. -/
lemma rule1_replShape : ∀ (s : List Char) (caps : Caps) (rest : List Char),
    AccC rule1 s caps rest → ReplShape (applyTpl caps repl1) := by
  intro s caps rest h
  obtain ⟨nm, w2, w3, rfl, h1, h2, h3⟩ := rule1_caps s caps rest h
  refine ⟨nm, w2, cs " number, " ++ w3 ++ cs ": number): void \x7b", h1, h2,
    Or.inr (Or.inr ⟨w3, h3, Or.inl rfl⟩), ?_⟩
  have he : applyTpl [(1, nm), (2, w2), (3, w3)] repl1 =
      cs "function " ++ (nm ++ (cs "(" ++ (w2 ++ (cs ": number, " ++
        (w3 ++ (cs ": number): void \x7b" ++ [])))))) := rfl
  rw [he]
  rw [show cs ": number, " = ':' :: cs " number, " from rfl]
  rw [show cs "(" = ['('] from rfl]
  simp [List.append_assoc]

/-- The replacement a rule-2 match produces has the common typed shape. -/
lemma rule2_replShape : ∀ (s : List Char) (caps : Caps) (rest : List Char),
    AccC rule2 s caps rest → ReplShape (applyTpl caps repl2) := by
  intro s caps rest h
  obtain ⟨nm, w2, rfl, h1, h2⟩ := rule2_caps s caps rest h
  refine ⟨nm, w2, cs " number): void \x7b", h1, h2, Or.inl rfl, ?_⟩
  have he : applyTpl [(1, nm), (2, w2)] repl2 =
      cs "function " ++ (nm ++ (cs "(" ++ (w2 ++ (cs ": number): void \x7b" ++ [])))) := rfl
  rw [he]
  rw [show cs ": number): void \x7b" = ':' :: cs " number): void \x7b" from rfl]
  rw [show cs "(" = ['('] from rfl]
  simp [List.append_assoc]

/-- The replacement a rule-3 match produces has the common typed shape. -/
lemma rule3_replShape : ∀ (s : List Char) (caps : Caps) (rest : List Char),
    AccC rule3 s caps rest → ReplShape (applyTpl caps repl3) := by
  intro s caps rest h
  obtain ⟨nm, w2, w3, rfl, h1, h2, h3⟩ := rule3_caps s caps rest h
  refine ⟨nm, w2, cs " number, " ++ w3 ++ cs ": number): number \x7b", h1, h2,
    Or.inr (Or.inr ⟨w3, h3, Or.inr rfl⟩), ?_⟩
  have he : applyTpl [(1, nm), (2, w2), (3, w3)] repl3 =
      cs "function " ++ (nm ++ (cs "(" ++ (w2 ++ (cs ": number, " ++
        (w3 ++ (cs ": number): number \x7b" ++ [])))))) := rfl
  rw [he]
  rw [show cs ": number, " = ':' :: cs " number, " from rfl]
  rw [show cs "(" = ['('] from rfl]
  simp [List.append_assoc]

/-- The replacement a rule-4 match produces has the common typed shape. -/
lemma rule4_replShape : ∀ (s : List Char) (caps : Caps) (rest : List Char),
    AccC rule4 s caps rest → ReplShape (applyTpl caps repl4) := by
  intro s caps rest h
  obtain ⟨nm, w2, rfl, h1, h2⟩ := rule4_caps s caps rest h
  refine ⟨nm, w2, cs " number): number \x7b", h1, h2, Or.inr (Or.inl rfl), ?_⟩
  have he : applyTpl [(1, nm), (2, w2)] repl4 =
      cs "function " ++ (nm ++ (cs "(" ++ (w2 ++ (cs ": number): number \x7b" ++ [])))) := rfl
  rw [he]
  rw [show cs ": number): number \x7b" = ':' :: cs " number): number \x7b" from rfl]
  rw [show cs "(" = ['('] from rfl]
  simp [List.append_assoc]

/-- A class run cannot begin at a character outside the class. -/
lemma spanStop (p : Char → Bool) (u z : List Char) (a : Char) (y : List Char)
    (hall : ∀ c ∈ u, p c = true) (ha : p a = false) (he : u ++ z = a :: y) :
    u = [] ∧ z = a :: y := by
  cases u with
  | nil => exact ⟨rfl, by simpa using he⟩
  | cons c u2 =>
    simp only [List.cons_append, List.cons.injEq] at he
    have hc := hall c (by simp)
    rw [he.1] at hc
    rw [hc] at ha
    cases ha

/-- A class run lying in a string that continues with an out-of-class
character stays inside the part before that character. -/
lemma spanSplit (p : Char → Bool) : ∀ (u z v : List Char) (a : Char) (y : List Char),
    (∀ c ∈ u, p c = true) → p a = false → u ++ z = v ++ a :: y →
    ∃ v2, v = u ++ v2 ∧ z = v2 ++ a :: y := by
  intro u
  induction u with
  | nil =>
    intro z v a y _ _ he
    exact ⟨v, rfl, by simpa using he⟩
  | cons c u2 ih =>
    intro z v a y hall ha he
    cases v with
    | nil =>
      simp only [List.nil_append, List.cons_append, List.cons.injEq] at he
      have hc := hall c (by simp)
      rw [he.1] at hc
      rw [hc] at ha
      cases ha
    | cons b v2 =>
      simp only [List.cons_append, List.cons.injEq] at he
      obtain ⟨rfl, he2⟩ := he
      obtain ⟨v3, hv3, hz⟩ := ih z v2 a y (fun d hd => hall d (by simp [hd])) ha he2
      exact ⟨v3, by simp [hv3], hz⟩

/-- Whitespace characters are not word characters. -/
lemma space_not_word (c : Char) (h : pySpace c = true) : pyWord c = false := by
  simp only [pySpace, Bool.or_eq_true, decide_eq_true_eq] at h
  rcases h with ⟨⟨⟨⟨h | h⟩ | h⟩ | h⟩ | h⟩ | h <;> subst h <;> decide

/-- Word characters are not whitespace. -/
lemma word_not_space (c : Char) (h : pyWord c = true) : pySpace c = false := by
  cases hs : pySpace c with
  | false => rfl
  | true =>
    rw [space_not_word c hs] at h
    cases h

/-- Identifier head characters are word characters. -/
lemma alphaUnd_word (c : Char) (h : pyAlphaUnd c = true) : pyWord c = true := by
  simp only [pyAlphaUnd, Bool.or_eq_true, decide_eq_true_eq] at h
  simp only [pyWord, Bool.or_eq_true, decide_eq_true_eq]
  rcases h with h | h
  · exact Or.inl (by simp [Char.isAlphanum, h])
  · exact Or.inr h

/-- An element sitting after a nonempty prefix is in the tail of the whole. -/
lemma mem_tail_of_split {α : Type} (ts1 : List α) (t : α) (ts2 L : List α)
    (he : ts1 ++ t :: ts2 = L) (h1 : ts1 ≠ []) : t ∈ L.tail := by
  cases ts1 with
  | nil => exact absurd rfl h1
  | cons a ts1b =>
    rw [← he]
    simp

/-- A member of the second part of a split of a nonempty-prefix
concatenation is in the tail of the whole. -/
lemma mem_tail_of_append {r1 r2 L : List Char} {c : Char}
    (he : r1 ++ r2 = L) (h1 : r1 ≠ []) (hc : c ∈ r2) : c ∈ L.tail := by
  cases r1 with
  | nil => exact absurd rfl h1
  | cons a r1b =>
    rw [← he]
    simp [hc]

/-- A word run followed by a non-word non-space separator can never line up
with the literal word function followed by whitespace. -/
lemma wordRun_sep_vs_fn (u : List Char) (sep : Char) (X : List Char) (c : Char)
    (z : List Char) (hu : ∀ x ∈ u, pyWord x = true) (hw : pyWord sep = false)
    (hs : pySpace sep = false) (hc : pySpace c = true)
    (he : u ++ sep :: X = cs "function" ++ c :: z) : False := by
  have hcw : pyWord c = false := space_not_word c hc
  obtain ⟨v2, hv2, hz⟩ := spanSplit pyWord u (sep :: X) (cs "function") c z hu hcw he
  cases v2 with
  | nil =>
    simp only [List.nil_append, List.cons.injEq] at hz
    rw [hz.1] at hs
    rw [hc] at hs
    cases hs
  | cons e v2b =>
    simp only [List.cons_append, List.cons.injEq] at hz
    have he2 : e ∈ cs "function" := by
      rw [hv2]
      simp
    have hew : pyWord e = true := by
      have hall : ∀ x ∈ cs "function", pyWord x = true := by decide
      exact hall e he2
    rw [← hz.1] at hew
    rw [hew] at hw
    cases hw

/-- A word run, whitespace, and then a non-word non-space character can never
line up with an all-word literal followed by a space and a word character. -/
lemma wordRun_sp_d_vs_litsp (u u4 : List Char) (d : Char) (Z : List Char)
    (lit : List Char) (nxt : Char) (Y : List Char)
    (hu : ∀ x ∈ u, pyWord x = true) (hu4 : ∀ x ∈ u4, pySpace x = true)
    (hdw : pyWord d = false) (hds : pySpace d = false)
    (hlit : ∀ x ∈ lit, pyWord x = true) (hnxt : pyWord nxt = true)
    (he : u ++ (u4 ++ d :: Z) = lit ++ ' ' :: nxt :: Y) : False := by
  obtain ⟨v2, hv2, hz⟩ :=
    spanSplit pyWord u (u4 ++ d :: Z) lit ' ' (nxt :: Y) hu (by decide) he
  cases v2 with
  | nil =>
    simp only [List.nil_append] at hz
    cases u4 with
    | nil =>
      simp only [List.nil_append, List.cons.injEq] at hz
      rw [hz.1] at hds
      exact absurd hds (by decide)
    | cons s0 u4b =>
      simp only [List.cons_append, List.cons.injEq] at hz
      obtain ⟨h41, h42⟩ := spanStop pySpace u4b (d :: Z) nxt Y
        (fun x hx => hu4 x (by simp [hx])) (word_not_space nxt hnxt) hz.2
      simp only [List.cons.injEq] at h42
      rw [h42.1] at hdw
      rw [hnxt] at hdw
      cases hdw
  | cons e v2b =>
    simp only [List.cons_append] at hz
    have hew : pyWord e = true := by
      refine hlit e ?_
      rw [hv2]
      simp
    have hes : pySpace e = false := word_not_space e hew
    obtain ⟨h41, h42⟩ := spanStop pySpace u4 (d :: Z) e _ hu4 hes hz
    simp only [List.cons.injEq] at h42
    rw [h42.1] at hdw
    rw [hew] at hdw
    cases hdw

/-- Anything continuing a nonempty fragment and beginning like a match must
begin with the letter f. -/
lemma r2_head_f {r2 b : List Char} {c : Char} {z : List Char}
    (he : r2 ++ b = cs "function" ++ c :: z) (h2 : r2 ≠ []) :
    ∃ r2t, r2 = 'f' :: r2t := by
  cases r2 with
  | nil => exact absurd rfl h2
  | cons rh r2t =>
    rw [show cs "function" = 'f' :: cs "unction" from rfl] at he
    simp only [List.cons_append, List.cons.injEq] at he
    exact ⟨r2t, by rw [he.1]⟩

/-- The letter f never occurs in a replacement tail except inside the third
parameter, and there it is always part of a word run ending at a colon. -/
lemma no_f_in_tail (T kt r2t b : List Char) (c : Char) (z : List Char)
    (hT : ReplTail T) (hk : T = kt ++ 'f' :: r2t)
    (he2 : ('f' :: r2t) ++ b = cs "function" ++ c :: z)
    (hc : pySpace c = true) : False := by
  rcases hT with hT | hT | ⟨w3, hw3, hT⟩
  · have hmem : 'f' ∈ cs " number): void \x7b" := by
      rw [← hT, hk]
      simp
    exact absurd hmem (by decide)
  · have hmem : 'f' ∈ cs " number): number \x7b" := by
      rw [← hT, hk]
      simp
    exact absurd hmem (by decide)
  · have hlift : ∀ lit2 : List Char, ('f' ∉ lit2) → lit2 ≠ [] →
        (∃ lit2t, lit2 = ':' :: lit2t) →
        cs " number, " ++ (w3 ++ lit2) = kt ++ 'f' :: r2t → False := by
      intro lit2 hf2 hne2 hcolon hkk
      rcases List.append_eq_append_iff.mp hkk with ⟨q, hq1, hq2⟩ | ⟨q, hq1, hq2⟩
      · -- kt = " number, " ++ q ∧ w3 ++ lit2 = q ++ 'f' :: r2t
        rcases List.append_eq_append_iff.mp hq2 with ⟨p, hp1, hp2⟩ | ⟨p, hp1, hp2⟩
        · -- q = w3 ++ p ∧ lit2 = p ++ 'f' :: r2t
          exact hf2 (by rw [hp2]; simp)
        · -- w3 = q ++ p ∧ 'f' :: r2t = p ++ lit2
          cases p with
          | nil =>
            obtain ⟨lit2t, rfl⟩ := hcolon
            simp only [List.nil_append, List.cons.injEq] at hp2
            exact absurd hp2.1 (by decide)
          | cons ph pt =>
            obtain ⟨lit2t, rfl⟩ := hcolon
            have hpw : ∀ x ∈ ph :: pt, pyWord x = true := by
              intro x hx
              exact hw3.2 x (by rw [hp1]; simp [hx])
            refine wordRun_sep_vs_fn (ph :: pt) ':' (lit2t ++ b) c z hpw
              (by decide) (by decide) hc ?_
            rw [← he2, hp2]
            simp
      · -- " number, " = kt ++ q ∧ 'f' :: r2t = q ++ (w3 ++ lit2)
        cases q with
        | nil =>
          simp only [List.nil_append] at hq2
          obtain ⟨lit2t, rfl⟩ := hcolon
          refine wordRun_sep_vs_fn w3 ':' (lit2t ++ b) c z hw3.2
            (by decide) (by decide) hc ?_
          rw [← he2, hq2]
          simp
        | cons qh qt =>
          have hqh : qh = 'f' := by
            simp only [List.cons_append, List.cons.injEq] at hq2
            exact hq2.1.symm
          subst hqh
          have hmem : 'f' ∈ cs " number, " := by
            rw [hq1]
            simp
          exact absurd hmem (by decide)
    rcases hT with hT | hT
    · exact hlift (cs ": number): void \x7b") (by decide) (by decide)
        ⟨cs " number): void \x7b", rfl⟩ (by rw [← hk, hT, List.append_assoc])
    · exact hlift (cs ": number): number \x7b") (by decide) (by decide)
        ⟨cs " number): number \x7b", rfl⟩ (by rw [← hk, hT, List.append_assoc])

/-- No match of a signature rule can start strictly inside an instantiated
replacement: the literal word function followed by whitespace occurs nowhere
in the interior of a replacement block, even continuing past its end. -/
lemma no_fn_sp_inside_replShape (R r1 r2 b : List Char) (c : Char) (z : List Char)
    (hR : ReplShape R) (hsplit : r1 ++ r2 = R) (h1 : r1 ≠ []) (h2 : r2 ≠ [])
    (he : r2 ++ b = cs "function" ++ c :: z) (hc : pySpace c = true) : False := by
  obtain ⟨w1, w2, T, hw1, hw2, hT, hshape⟩ := hR
  obtain ⟨r2t, rfl⟩ := r2_head_f he h2
  rw [hshape] at hsplit
  rw [show cs "function " ++ w1 ++ '(' :: (w2 ++ ':' :: T) =
      cs "function " ++ (w1 ++ '(' :: (w2 ++ ':' :: T)) from by simp] at hsplit
  rcases List.append_eq_append_iff.mp hsplit with ⟨g, hA1, hA2⟩ | ⟨g, hB1, hB2⟩
  · cases g with
    | nil =>
      simp only [List.nil_append] at hA2
      refine wordRun_sep_vs_fn w1 '(' ((w2 ++ ':' :: T) ++ b) c z hw1.2
        (by decide) (by decide) hc ?_
      rw [← he, hA2]
      simp
    | cons gh gt =>
      have hgh : gh = 'f' := by
        simp only [List.cons_append, List.cons.injEq] at hA2
        exact hA2.1.symm
      subst hgh
      have hmem : 'f' ∈ (cs "function ").tail :=
        mem_tail_of_append hA1.symm h1 (by simp)
      exact absurd hmem (by decide)
  · rcases List.append_eq_append_iff.mp hB2 with ⟨l, hl1, hl2⟩ | ⟨l, hl1, hl2⟩
    · -- g = w1 ++ l ∧ '(' :: (w2 ++ ':' :: T) = l ++ 'f' :: r2t
      cases l with
      | nil =>
        simp only [List.nil_append, List.cons.injEq] at hl2
        exact absurd hl2.1 (by decide)
      | cons lh lt =>
        simp only [List.cons_append, List.cons.injEq] at hl2
        obtain ⟨rfl, hl3⟩ := hl2
        rcases List.append_eq_append_iff.mp hl3 with ⟨k, hk1, hk2⟩ | ⟨k, hk1, hk2⟩
        · -- lt = w2 ++ k ∧ ':' :: T = k ++ 'f' :: r2t
          cases k with
          | nil =>
            simp only [List.nil_append, List.cons.injEq] at hk2
            exact absurd hk2.1 (by decide)
          | cons kh kt =>
            simp only [List.cons_append, List.cons.injEq] at hk2
            exact no_f_in_tail T kt r2t b c z hT hk2.2 he hc
        · -- w2 = lt ++ k ∧ 'f' :: r2t = k ++ ':' :: T
          cases k with
          | nil =>
            simp only [List.nil_append, List.cons.injEq] at hk2
            exact absurd hk2.1 (by decide)
          | cons kh kt =>
            have hkw : ∀ x ∈ kh :: kt, pyWord x = true := by
              intro x hx
              exact hw2.2 x (by rw [hk1]; simp [hx])
            refine wordRun_sep_vs_fn (kh :: kt) ':' (T ++ b) c z hkw
              (by decide) (by decide) hc ?_
            rw [← he, hk2]
            simp
    · -- w1 = g ++ l ∧ 'f' :: r2t = l ++ '(' :: (w2 ++ ':' :: T)
      cases l with
      | nil =>
        simp only [List.nil_append, List.cons.injEq] at hl2
        exact absurd hl2.1 (by decide)
      | cons lh lt =>
        have hlw : ∀ x ∈ lh :: lt, pyWord x = true := by
          intro x hx
          exact hw1.2 x (by rw [hl1]; simp [hx])
        refine wordRun_sep_vs_fn (lh :: lt) '(' ((w2 ++ ':' :: T) ++ b) c z hlw
          (by decide) (by decide) hc ?_
        rw [← he, hl2]
        simp

/-- A realization of a token list split anywhere splits at a token: some token
contributes a nonempty suffix of its own realization to the second part. -/
lemma toksStr_split : ∀ (ts : List Tok) (m1 m2 : List Char),
    ToksStr ts (m1 ++ m2) → m2 ≠ [] →
    ∃ ts1 t ts2 v1 v2 m1h m2t, ts = ts1 ++ t :: ts2 ∧
      TokStr t (v1 ++ v2) ∧ v2 ≠ [] ∧
      m1 = m1h ++ v1 ∧ ToksStr ts1 m1h ∧
      m2 = v2 ++ m2t ∧ ToksStr ts2 m2t := by
  intro ts
  induction ts with
  | nil =>
    intro m1 m2 h h2
    have hnil : m1 ++ m2 = [] := h
    exact absurd (List.append_eq_nil.mp hnil).2 h2
  | cons t ts ih =>
    intro m1 m2 h h2
    obtain ⟨u, rest, heq, htok, hts⟩ := h
    rcases List.append_eq_append_iff.mp heq with ⟨q, hq1, hq2⟩ | ⟨q, hq1, hq2⟩
    · cases q with
      | nil =>
        simp only [List.append_nil] at hq1
        simp only [List.nil_append] at hq2
        subst hq1
        subst hq2
        obtain ⟨ts1, t2, ts2, v1, v2, m1h, m2t, he1, he2, he3, he4, he5, he6, he7⟩ :=
          ih [] m2 (by simpa using hts) h2
        obtain ⟨h8, h9⟩ := List.append_eq_nil.mp he4.symm
        subst h8
        subst h9
        refine ⟨t :: ts1, t2, ts2, [], v2, u, m2t, ?_, he2, he3, by simp, ?_, he6, he7⟩
        · rw [he1]
          rfl
        · exact ⟨u, [], by simp, htok, he5⟩
      | cons qh qt =>
        subst hq1
        exact ⟨[], t, ts, m1, qh :: qt, [], rest, rfl, htok, by simp, by simp, rfl,
          hq2, hts⟩
    · subst hq1
      have hts2 : ToksStr ts (q ++ m2) := by rw [← hq2]; exact hts
      obtain ⟨ts1, t2, ts2, v1, v2, m1h, m2t, he1, he2, he3, he4, he5, he6, he7⟩ :=
        ih q m2 hts2 h2
      refine ⟨t :: ts1, t2, ts2, v1, v2, u ++ m1h, m2t, ?_, he2, he3, ?_, ?_, he6, he7⟩
      · rw [he1]
        rfl
      · rw [he4, List.append_assoc]
      · exact ⟨u, m1h, rfl, htok, he5⟩

/-- The per-word-run follow check extracts to each word token's tail. -/
lemma splitCheckW_spec : ∀ L : List Tok, splitCheckW L = true →
    ∀ ts1 ts2, L = ts1 ++ Tok.w :: ts2 → wFollowOk ts2 = true := by
  intro L
  induction L with
  | nil =>
    intro _ ts1 ts2 he
    cases ts1 <;> simp at he
  | cons t ts ih =>
    intro hch ts1 ts2 he
    simp only [splitCheckW, Bool.and_eq_true] at hch
    cases ts1 with
    | nil =>
      simp only [List.nil_append, List.cons.injEq] at he
      obtain ⟨rfl, rfl⟩ := he
      have h1 := hch.1
      rw [if_pos rfl] at h1
      exact h1
    | cons a ts1b =>
      simp only [List.cons_append, List.cons.injEq] at he
      exact ih hch.2 ts1b ts2 he.2

/-- What a passing follow check says: whitespace then a non-word non-space
literal character. -/
lemma wFollowOk_spec (L : List Tok) (h : wFollowOk L = true) :
    ∃ d L2, L = Tok.sp :: Tok.ch d :: L2 ∧ pyWord d = false ∧ pySpace d = false := by
  cases L with
  | nil => simp [wFollowOk] at h
  | cons t L1 =>
    cases t with
    | ch a => simp [wFollowOk] at h
    | sp1 => simp [wFollowOk] at h
    | w => simp [wFollowOk] at h
    | sp =>
      cases L1 with
      | nil => simp [wFollowOk] at h
      | cons t2 L2 =>
        cases t2 with
        | ch d =>
          have h2 : (!pyWord d && !pySpace d) = true := h
          simp only [Bool.and_eq_true, Bool.not_eq_true'] at h2
          exact ⟨d, L2, rfl, h2.1, h2.2⟩
        | sp => simp [wFollowOk] at h
        | sp1 => simp [wFollowOk] at h
        | w => simp [wFollowOk] at h

/-- A literal-character token in a list passing the tail check is neither the
letter f nor the letter l. -/
lemma chTailOk_spec {L : List Tok} (h : chTailOk L = true) {a : Char}
    (hm : Tok.ch a ∈ L) : a ≠ 'f' ∧ a ≠ 'l' := by
  have h2 := (List.all_eq_true.mp h) _ hm
  have h3 : (!(a == 'f') && !(a == 'l')) = true := h2
  simp only [Bool.and_eq_true, Bool.not_eq_true', beq_eq_false_iff_ne] at h3
  exact h3

/-- A literal-character token in a list passing the no-l check is not the
letter l. -/
lemma chNoL_spec {L : List Tok} (h : chNoL L = true) {a : Char}
    (hm : Tok.ch a ∈ L) : a ≠ 'l' := by
  have h2 := (List.all_eq_true.mp h) _ hm
  have h3 : (!(a == 'l')) = true := h2
  simp only [Bool.not_eq_true', beq_eq_false_iff_ne] at h3
  exact h3

/-- Core overlap refutation: when an all-word literal followed by a space and
a word character begins strictly inside a token realization, the split token
can only be a literal character equal to the literal's first letter — space
runs and word runs are impossible because every word run of the skeleton is
followed by whitespace and a non-word non-space character. -/
lemma toks_overlap_core (tks : List Tok) (hsc : splitCheckW tks = true)
    (lh : Char) (lt : List Char) (hlit : ∀ c ∈ lh :: lt, pyWord c = true)
    (nxt : Char) (hnxt : pyWord nxt = true) (Y : List Char)
    (u1 ρ w : List Char) (hts : ToksStr tks (u1 ++ ρ)) (hρ : ρ ≠ [])
    (he : ρ ++ w = (lh :: lt) ++ ' ' :: nxt :: Y) :
    ∃ ts1 a ts2 ρ2, tks = ts1 ++ Tok.ch a :: ts2 ∧ ToksStr ts1 u1 ∧
      ρ = a :: ρ2 ∧ ToksStr ts2 ρ2 := by
  obtain ⟨ts1, t, ts2, v1, v2, m1h, m2t, hteq, htok, hv2, hm1, hts1, hm2, hts2⟩ :=
    toksStr_split tks u1 ρ hts hρ
  cases t with
  | ch a =>
    have hva : v1 ++ v2 = [a] := htok
    cases v1 with
    | cons x xt =>
      exfalso
      simp only [List.cons_append, List.cons.injEq] at hva
      exact hv2 (List.append_eq_nil.mp hva.2).2
    | nil =>
      simp only [List.nil_append] at hva
      refine ⟨ts1, a, ts2, m2t, hteq, ?_, ?_, hts2⟩
      · have hu : u1 = m1h := by simpa using hm1
        rw [hu]
        exact hts1
      · rw [hm2, hva]
        rfl
  | sp =>
    exfalso
    have hall : ∀ c ∈ v1 ++ v2, pySpace c = true := htok
    cases v2 with
    | nil => exact hv2 rfl
    | cons c v2t =>
      have hcs : pySpace c = true := hall c (by simp)
      have hρe : ρ = c :: (v2t ++ m2t) := by rw [hm2]; rfl
      rw [hρe] at he
      simp only [List.cons_append, List.cons.injEq] at he
      have hlw : pyWord lh = true := hlit lh (by simp)
      rw [← he.1] at hlw
      rw [space_not_word c hcs] at hlw
      cases hlw
  | sp1 =>
    exfalso
    have hall : ∀ c ∈ v1 ++ v2, pySpace c = true := htok.2
    cases v2 with
    | nil => exact hv2 rfl
    | cons c v2t =>
      have hcs : pySpace c = true := hall c (by simp)
      have hρe : ρ = c :: (v2t ++ m2t) := by rw [hm2]; rfl
      rw [hρe] at he
      simp only [List.cons_append, List.cons.injEq] at he
      have hlw : pyWord lh = true := hlit lh (by simp)
      rw [← he.1] at hlw
      rw [space_not_word c hcs] at hlw
      cases hlw
  | w =>
    exfalso
    have hall : ∀ c ∈ v1 ++ v2, pyWord c = true := htok.2
    have hwOk : wFollowOk ts2 = true := splitCheckW_spec tks hsc ts1 ts2 hteq
    obtain ⟨d2, ts3, hts2eq, hdw, hds⟩ := wFollowOk_spec ts2 hwOk
    rw [hts2eq] at hts2
    obtain ⟨usp, r2, hm2t, hspTok, hrest⟩ := hts2
    obtain ⟨ud, r3, hr2, hdTok, hts3b⟩ := hrest
    have hud : ud = [d2] := hdTok
    have huspS : ∀ c ∈ usp, pySpace c = true := hspTok
    refine wordRun_sp_d_vs_litsp v2 usp d2 (r3 ++ w) (lh :: lt) nxt Y
      (fun x hx => hall x (by simp [hx])) huspS hdw hds hlit hnxt ?_
    rw [← he, hm2, hm2t, hr2, hud]
    simp [List.append_assoc]

/-- The literal word function followed by whitespace and a word character can
never begin strictly inside a realized rule skeleton. -/
lemma no_fnsp_inside_toks (tks : List Tok) (hsc : splitCheckW tks = true)
    (hct : chTailOk tks.tail = true) (u1 ρ w : List Char) (wh : Char)
    (Y : List Char) (hts : ToksStr tks (u1 ++ ρ)) (h1 : u1 ≠ []) (h2 : ρ ≠ [])
    (he : ρ ++ w = cs "function" ++ ' ' :: wh :: Y) (hwh : pyWord wh = true) :
    False := by
  obtain ⟨ts1, a, ts2, ρ2, hteq, hts1, hρ, hts2⟩ :=
    toks_overlap_core tks hsc 'f' (cs "unction") (by decide) wh hwh Y u1 ρ w hts h2
      (by rw [he]; rfl)
  have ha : a = 'f' := by
    rw [hρ] at he
    rw [show cs "function" = 'f' :: cs "unction" from rfl] at he
    simp only [List.cons_append, List.cons.injEq] at he
    exact he.1
  subst ha
  cases ts1 with
  | nil => exact h1 hts1
  | cons t0 ts1b =>
    have hmem : Tok.ch 'f' ∈ tks.tail :=
      mem_tail_of_split (t0 :: ts1b) (Tok.ch 'f') ts2 tks hteq.symm (by simp)
    exact (chTailOk_spec hct hmem).1 rfl

/-- An inserted declaration keyword followed by a word character can never
begin strictly inside a realized rule skeleton, nor even at its start. -/
lemma no_let_overlap_toks (tks : List Tok) (hsc : splitCheckW tks = true)
    (hnl : chNoL tks = true) (u1 ρ w : List Char) (d : Char) (B : List Char)
    (hts : ToksStr tks (u1 ++ ρ)) (h2 : ρ ≠ [])
    (he : ρ ++ w = cs "let " ++ d :: B) (hd : pyWord d = true) : False := by
  obtain ⟨ts1, a, ts2, ρ2, hteq, hts1, hρ, hts2⟩ :=
    toks_overlap_core tks hsc 'l' (cs "et") (by decide) d hd B u1 ρ w hts h2
      (by rw [he]; rfl)
  have ha : a = 'l' := by
    rw [hρ] at he
    rw [show cs "let " = 'l' :: cs "et " from rfl] at he
    simp only [List.cons_append, List.cons.injEq] at he
    exact he.1
  subst ha
  have hmem : Tok.ch 'l' ∈ tks := by
    rw [hteq]
    simp
  exact chNoL_spec hnl hmem rfl

/-- Realizations of the common skeleton prefix decompose as the literal word
function, whitespace, a name, whitespace, a parenthesis, whitespace, a word
run, whitespace, and a separator. -/
lemma toksStr_pre8_of (d : Char) (ts2 : List Tok)
    (hd1 : pyWord d = false) (hd2 : pySpace d = false) (hd3 : d ≠ ':') :
    ∀ m, ToksStr (chT "function" ++ Tok.sp1 :: Tok.w :: Tok.sp :: Tok.ch '(' ::
      Tok.sp :: Tok.w :: Tok.sp :: Tok.ch d :: ts2) m → Pre8 m := by
  intro m h
  obtain ⟨m2, rfl, h2⟩ := toksStr_chars_prefix (cs "function") _ m h
  obtain ⟨s1, r1, rfl, ht1, h3⟩ := h2
  obtain ⟨nm, r2, rfl, ht2, h4⟩ := h3
  obtain ⟨s2, r3, rfl, ht3, h5⟩ := h4
  obtain ⟨up, r4, rfl, ht4, h6⟩ := h5
  obtain ⟨s3, r5, rfl, ht5, h7⟩ := h6
  obtain ⟨w2m, r6, rfl, ht6, h8⟩ := h7
  obtain ⟨s4, r7, rfl, ht7, h9⟩ := h8
  obtain ⟨ud, r8, rfl, ht8, h10⟩ := h9
  have hup : up = ['('] := ht4
  have hud : ud = [d] := ht8
  subst hup
  subst hud
  refine ⟨s1, nm, s2, s3, w2m, s4, d, r8, ?_, ht1.1, ht1.2, ht2.1, ht2.2, ht3,
    ht5, ht6.1, ht6.2, ht7, hd1, hd2, hd3⟩
  simp

/-- Any realization of rule 1's skeleton has the common decomposition. -/
lemma ruleToks1_pre8 : ∀ m, ToksStr ruleToks1 m → Pre8 m := by
  intro m h
  exact toksStr_pre8_of ',' _ (by decide) (by decide) (by decide) m h

/-- Any realization of rule 2's skeleton has the common decomposition. -/
lemma ruleToks2_pre8 : ∀ m, ToksStr ruleToks2 m → Pre8 m := by
  intro m h
  exact toksStr_pre8_of ')' _ (by decide) (by decide) (by decide) m h

/-- Any realization of rule 3's skeleton has the common decomposition. -/
lemma ruleToks3_pre8 : ∀ m, ToksStr ruleToks3 m → Pre8 m := by
  intro m h
  exact toksStr_pre8_of ',' _ (by decide) (by decide) (by decide) m h

/-- Any realization of rule 4's skeleton has the common decomposition. -/
lemma ruleToks4_pre8 : ∀ m, ToksStr ruleToks4 m → Pre8 m := by
  intro m h
  exact toksStr_pre8_of ')' _ (by decide) (by decide) (by decide) m h

/-- Rule 1 together with its skeleton satisfies all the structural checks. -/
lemma goodRule1 : GoodRule rule1 ruleToks1 :=
  ⟨rule1_toksStr, by decide, by decide, by decide, ruleToks1_pre8⟩

/-- Rule 2 together with its skeleton satisfies all the structural checks. -/
lemma goodRule2 : GoodRule rule2 ruleToks2 :=
  ⟨rule2_toksStr, by decide, by decide, by decide, ruleToks2_pre8⟩

/-- Rule 3 together with its skeleton satisfies all the structural checks. -/
lemma goodRule3 : GoodRule rule3 ruleToks3 :=
  ⟨rule3_toksStr, by decide, by decide, by decide, ruleToks3_pre8⟩

/-- Rule 4 together with its skeleton satisfies all the structural checks. -/
lemma goodRule4 : GoodRule rule4 ruleToks4 :=
  ⟨rule4_toksStr, by decide, by decide, by decide, ruleToks4_pre8⟩

/-- A decomposed match begins with the literal word function and a space. -/
lemma pre8_head {m : List Char} (h : Pre8 m) :
    ∃ c z, m = cs "function" ++ c :: z ∧ pySpace c = true := by
  obtain ⟨s1, nm, s2, s3, w2m, s4, d, mr, hm, h1, h2, -, -, -, -, -, -, -, -, -, -⟩ := h
  cases s1 with
  | nil => exact absurd rfl h1
  | cons c s1t =>
    refine ⟨c, s1t ++ (nm ++ (s2 ++ ('(' :: (s3 ++ (w2m ++ (s4 ++ d :: mr)))))),
      ?_, h2 c (by simp)⟩
    rw [hm]
    simp

/-- A decomposed match is nonempty. -/
lemma pre8_ne {m : List Char} (h : Pre8 m) : m ≠ [] := by
  obtain ⟨c, z, hm, -⟩ := pre8_head h
  rw [hm, show cs "function" = 'f' :: cs "unction" from rfl]
  simp

/-- A rule passing the structural checks consumes at least one character. -/
lemma productive_of_good (rk : Reg) (tks : List Tok) (hg : GoodRule rk tks) :
    Productive rk := by
  intro s caps rest hacc
  obtain ⟨m, rfl, hts⟩ := hg.1 s caps rest hacc
  have hmne : m ≠ [] := pre8_ne (hg.2.2.2.2 m hts)
  have hpos : 0 < m.length := List.length_pos.mpr hmne
  simp only [List.length_append]
  omega

/-- No decomposed match can begin exactly at the start of an instantiated
replacement: the separator after the second parameter would have to be the
colon of the typed annotation. -/
lemma no_match_at_replStart (m w R out2 : List Char) (hm : Pre8 m)
    (hR : ReplShape R) (he : m ++ w = R ++ out2) : False := by
  obtain ⟨s1, nm, s2, s3, w2m, s4, d, mr, hmeq, hs1ne, hs1, hnmne, hnm, hs2,
    hs3, hw2ne, hw2m, hs4, hdw, hds, hdc⟩ := hm
  obtain ⟨w1, w2, T, hw1, hw2, hT, hReq⟩ := hR
  rw [hmeq, hReq, show cs "function " = cs "function" ++ [' '] from rfl] at he
  simp only [List.append_assoc, List.cons_append, List.singleton_append,
    List.nil_append] at he
  have he2 := List.append_cancel_left he
  cases s1 with
  | nil => exact absurd rfl hs1ne
  | cons c0 s1t =>
    simp only [List.cons_append, List.cons.injEq] at he2
    obtain ⟨-, he3⟩ := he2
    cases w1 with
    | nil => exact absurd rfl hw1.1
    | cons w1h w1t =>
      obtain ⟨h41, he4⟩ := spanStop pySpace s1t _ w1h _
        (fun x hx => hs1 x (by simp [hx])) (word_not_space w1h (hw1.2 w1h (by simp)))
        he3
      obtain ⟨v2, hv2, hz⟩ := spanSplit pyWord nm _ (w1h :: w1t) '(' _
        hnm (by decide) he4
      cases v2 with
      | cons vh vt =>
        have hvh : pyWord vh = true := by
          refine hw1.2 vh ?_
          rw [hv2]
          simp
        obtain ⟨h51, h52⟩ := spanStop pySpace s2 _ vh _ hs2 (word_not_space vh hvh)
          hz
        simp only [List.cons.injEq] at h52
        rw [← h52.1] at hvh
        exact absurd hvh (by decide)
      | nil =>
        simp only [List.nil_append] at hz
        obtain ⟨h51, h52⟩ := spanStop pySpace s2 _ '(' _ hs2 (by decide) hz
        simp only [List.cons.injEq] at h52
        obtain ⟨-, he5⟩ := h52
        cases w2 with
        | nil => exact absurd rfl hw2.1
        | cons w2h w2t =>
          obtain ⟨h61, he6⟩ := spanStop pySpace s3 _ w2h _ hs3
            (word_not_space w2h (hw2.2 w2h (by simp))) he5
          obtain ⟨v3, hv3, hz3⟩ := spanSplit pyWord w2m _ (w2h :: w2t) ':' _
            hw2m (by decide) he6
          cases v3 with
          | cons vh3 vt3 =>
            have hvh3 : pyWord vh3 = true := by
              refine hw2.2 vh3 ?_
              rw [hv3]
              simp
            obtain ⟨h71, h72⟩ := spanStop pySpace s4 _ vh3 _ hs4
              (word_not_space vh3 hvh3) hz3
            simp only [List.cons.injEq] at h72
            rw [h72.1] at hdw
            rw [hvh3] at hdw
            cases hdw
          | nil =>
            simp only [List.nil_append] at hz3
            obtain ⟨h71, h72⟩ := spanStop pySpace s4 _ ':' _ hs4 (by decide) hz3
            simp only [List.cons.injEq] at h72
            exact hdc h72.1

/-- Position trichotomy for an occurrence across a replacement block: any
occurrence of a checked rule in pure text followed by an instantiated
replacement and further output lies wholly in the pure text or wholly in the
further output — it can neither start inside or at the replacement, nor
straddle into it. -/
lemma occ_block (rk : Reg) (tks : List Tok) (hg : GoodRule rk tks)
    (R pre out2 : List Char) (hR : ReplShape R)
    (ho : Occ rk (pre ++ (R ++ out2))) : Occ rk pre ∨ Occ rk out2 := by
  obtain ⟨u, mk, w, heq, caps, hacc⟩ := ho
  obtain ⟨m2, hm2, hts⟩ := hg.1 (mk ++ w) caps w hacc
  have hmm : mk = m2 := (List.append_inj' hm2 rfl).1
  subst hmm
  have hpre8 : Pre8 mk := hg.2.2.2.2 mk hts
  have heq2 : pre ++ (R ++ out2) = u ++ (mk ++ w) := by
    rw [heq, List.append_assoc]
  rcases List.append_eq_append_iff.mp heq2 with ⟨a2, ha1, ha2⟩ | ⟨c2, hc1, hc2⟩
  · rcases List.append_eq_append_iff.mp ha2 with ⟨p, hp1, hp2⟩ | ⟨p, hp1, hp2⟩
    · refine Or.inr ⟨p, mk, w, ?_, caps, hacc⟩
      rw [hp2, List.append_assoc]
    · cases p with
      | nil =>
        refine Or.inr ⟨[], mk, w, ?_, caps, hacc⟩
        simp only [List.nil_append] at hp2
        rw [← hp2]
        simp
      | cons ph pt =>
        exfalso
        cases a2 with
        | nil =>
          simp only [List.nil_append] at hp1
          refine no_match_at_replStart mk w R out2 hpre8 hR ?_
          rw [hp1]
          exact hp2
        | cons ah at2 =>
          obtain ⟨c, z, hhd, hcs⟩ := pre8_head hpre8
          refine no_fn_sp_inside_replShape R (ah :: at2) (ph :: pt) out2 c
            (z ++ w) hR hp1.symm (by simp) (by simp) ?_ hcs
          rw [← hp2, hhd]
          simp [List.append_assoc]
  · rcases List.append_eq_append_iff.mp hc2 with ⟨q, hq1, hq2⟩ | ⟨q, hq1, hq2⟩
    · refine Or.inl ⟨u, mk, q, ?_, caps, accC_ext rk mk w caps hacc q⟩
      rw [hc1, hq1, List.append_assoc]
    · cases q with
      | nil =>
        simp only [List.append_nil] at hq1
        refine Or.inl ⟨u, mk, [], ?_, caps, accC_ext rk mk w caps hacc []⟩
        rw [hc1, ← hq1]
        simp
      | cons qh qt =>
        exfalso
        cases c2 with
        | nil =>
          simp only [List.nil_append] at hq1
          refine no_match_at_replStart mk w R out2 hpre8 hR ?_
          rw [hq1]
          exact hq2.symm
        | cons ch2 ct2 =>
          obtain ⟨w1, w2, T, hw1, hw2, hT, hReq⟩ := hR
          cases w1 with
          | nil => exact absurd rfl hw1.1
          | cons w1h w1t =>
            have htsk : ToksStr tks ((ch2 :: ct2) ++ (qh :: qt)) := by
              rw [← hq1]
              exact hts
            refine no_fnsp_inside_toks tks hg.2.1 hg.2.2.1 (ch2 :: ct2) (qh :: qt)
              w w1h (w1t ++ ('(' :: (w2 ++ ':' :: (T ++ out2)))) htsk (by simp)
              (by simp) ?_ (hw1.2 w1h (by simp))
            rw [← hq2, hReq, show cs "function " = cs "function" ++ [' '] from rfl]
            simp [List.append_assoc]

/-- After a global substitution of a checked rule, no occurrence of that rule
remains in the output. -/
lemma subOut_elim (rj : Reg) (t : List Tpl) (tks : List Tok)
    (hg : GoodRule rj tks)
    (hRS : ∀ s caps rest, AccC rj s caps rest → ReplShape (applyTpl caps t)) :
    ∀ s out, SubOut rj t s out → ¬ Occ rj out := by
  intro s out hso
  induction hso with
  | pure s2 hno => exact hno
  | step pre m caps rest out2 hpb hacc hsub ih =>
    intro ho
    have hR : ReplShape (applyTpl caps t) := hRS (m ++ rest) caps rest hacc
    have ho2 : Occ rj (pre ++ (applyTpl caps t ++ out2)) := by
      rw [← List.append_assoc]
      exact ho
    rcases occ_block rj tks hg (applyTpl caps t) pre out2 hR ho2 with hp | ho3
    · obtain ⟨u, mk, wp, hpe, capsp, haccp⟩ := hp
      obtain ⟨m2, hm2, hts⟩ := hg.1 (mk ++ wp) capsp wp haccp
      have hkm : mk = m2 := (List.append_inj' hm2 rfl).1
      have hkne : mk ≠ [] := by
        rw [hkm]
        exact pre8_ne (hg.2.2.2.2 m2 hts)
      have hvne : mk ++ wp ≠ [] := by
        intro h0
        exact hkne (List.append_eq_nil.mp h0).1
      have hrun := hpb u (mk ++ wp) (by rw [hpe, List.append_assoc]) hvne
      have hacc2 : AccC rj (mk ++ (wp ++ (m ++ rest))) capsp (wp ++ (m ++ rest)) :=
        accC_ext rj mk wp capsp haccp (wp ++ (m ++ rest))
      have hmem := run_complete rj _ _ _ hacc2
      rw [List.append_assoc] at hrun
      rw [hrun] at hmem
      exact absurd hmem (List.not_mem_nil _)
    · exact ih ho3

/-- A global substitution of one checked rule introduces no occurrence of any
checked rule: occurrences of the output map back to the input. -/
lemma subOut_pres (rj : Reg) (t : List Tpl)
    (hRS : ∀ s caps rest, AccC rj s caps rest → ReplShape (applyTpl caps t))
    (rk : Reg) (tks : List Tok) (hg : GoodRule rk tks) :
    ∀ s out, SubOut rj t s out → ¬ Occ rk s → ¬ Occ rk out := by
  intro s out hso
  induction hso with
  | pure s2 hno => exact fun h => h
  | step pre m caps rest out2 hpb hacc hsub ih =>
    intro hns ho
    have hR : ReplShape (applyTpl caps t) := hRS (m ++ rest) caps rest hacc
    have ho2 : Occ rk (pre ++ (applyTpl caps t ++ out2)) := by
      rw [← List.append_assoc]
      exact ho
    rcases occ_block rk tks hg (applyTpl caps t) pre out2 hR ho2 with hp | ho3
    · obtain ⟨u, mk, wp, hpe, capsp, haccp⟩ := hp
      refine hns ⟨u, mk, wp ++ (m ++ rest), ?_, capsp,
        accC_ext rk mk wp capsp haccp (wp ++ (m ++ rest))⟩
      rw [hpe]
      simp [List.append_assoc]
    · refine ih ?_ ho3
      intro hrest
      exact hns (occ_lift rk (pre ++ m) rest hrest)

/-- The Signature Fixer is the four substitutions in order. -/
lemma fix_signatures_unfold (x : List Char) :
    fix_function_signatures x =
      reSub rule4 repl4 (reSub rule3 repl3 (reSub rule2 repl2
        (reSub rule1 repl1 x))) := rfl

/-- After the Signature Fixer, no occurrence of any of the four rules
remains. -/
lemma noOcc_fix_signatures (x : List Char) :
    ¬ Occ rule1 (fix_function_signatures x) ∧
    ¬ Occ rule2 (fix_function_signatures x) ∧
    ¬ Occ rule3 (fix_function_signatures x) ∧
    ¬ Occ rule4 (fix_function_signatures x) := by
  have e1 : ¬ Occ rule1 (reSub rule1 repl1 x) :=
    subOut_elim rule1 repl1 ruleToks1 goodRule1 rule1_replShape x _
      (reSub_subOut _ _ (productive_of_good _ _ goodRule1) x)
  have p12 : ¬ Occ rule1 (reSub rule2 repl2 (reSub rule1 repl1 x)) :=
    subOut_pres rule2 repl2 rule2_replShape rule1 ruleToks1 goodRule1 _ _
      (reSub_subOut _ _ (productive_of_good _ _ goodRule2) _) e1
  have e2 : ¬ Occ rule2 (reSub rule2 repl2 (reSub rule1 repl1 x)) :=
    subOut_elim rule2 repl2 ruleToks2 goodRule2 rule2_replShape _ _
      (reSub_subOut _ _ (productive_of_good _ _ goodRule2) _)
  have p13 : ¬ Occ rule1 (reSub rule3 repl3 (reSub rule2 repl2
      (reSub rule1 repl1 x))) :=
    subOut_pres rule3 repl3 rule3_replShape rule1 ruleToks1 goodRule1 _ _
      (reSub_subOut _ _ (productive_of_good _ _ goodRule3) _) p12
  have p23 : ¬ Occ rule2 (reSub rule3 repl3 (reSub rule2 repl2
      (reSub rule1 repl1 x))) :=
    subOut_pres rule3 repl3 rule3_replShape rule2 ruleToks2 goodRule2 _ _
      (reSub_subOut _ _ (productive_of_good _ _ goodRule3) _) e2
  have e3 : ¬ Occ rule3 (reSub rule3 repl3 (reSub rule2 repl2
      (reSub rule1 repl1 x))) :=
    subOut_elim rule3 repl3 ruleToks3 goodRule3 rule3_replShape _ _
      (reSub_subOut _ _ (productive_of_good _ _ goodRule3) _)
  have p14 : ¬ Occ rule1 (reSub rule4 repl4 (reSub rule3 repl3 (reSub rule2 repl2
      (reSub rule1 repl1 x)))) :=
    subOut_pres rule4 repl4 rule4_replShape rule1 ruleToks1 goodRule1 _ _
      (reSub_subOut _ _ (productive_of_good _ _ goodRule4) _) p13
  have p24 : ¬ Occ rule2 (reSub rule4 repl4 (reSub rule3 repl3 (reSub rule2 repl2
      (reSub rule1 repl1 x)))) :=
    subOut_pres rule4 repl4 rule4_replShape rule2 ruleToks2 goodRule2 _ _
      (reSub_subOut _ _ (productive_of_good _ _ goodRule4) _) p23
  have p34 : ¬ Occ rule3 (reSub rule4 repl4 (reSub rule3 repl3 (reSub rule2 repl2
      (reSub rule1 repl1 x)))) :=
    subOut_pres rule4 repl4 rule4_replShape rule3 ruleToks3 goodRule3 _ _
      (reSub_subOut _ _ (productive_of_good _ _ goodRule4) _) e3
  have e4 : ¬ Occ rule4 (reSub rule4 repl4 (reSub rule3 repl3 (reSub rule2 repl2
      (reSub rule1 repl1 x)))) :=
    subOut_elim rule4 repl4 ruleToks4 goodRule4 rule4_replShape _ _
      (reSub_subOut _ _ (productive_of_good _ _ goodRule4) _)
  rw [fix_signatures_unfold]
  exact ⟨p14, p24, p34, e4⟩

/-- On a buffer free of all four rule occurrences, the Signature Fixer is the
identity. -/
lemma fix_signatures_id (z : List Char) (h1 : ¬ Occ rule1 z) (h2 : ¬ Occ rule2 z)
    (h3 : ¬ Occ rule3 z) (h4 : ¬ Occ rule4 z) : fix_function_signatures z = z := by
  rw [fix_signatures_unfold, reSub_id_of_noOcc rule1 repl1 z h1,
    reSub_id_of_noOcc rule2 repl2 z h2, reSub_id_of_noOcc rule3 repl3 z h3,
    reSub_id_of_noOcc rule4 repl4 z h4]

/-- Consumed-prefix extraction for the capture bookkeeping. -/
lemma take_of_append {α : Type} (u r : List α) :
    (u ++ r).take ((u ++ r).length - r.length) = u := by
  have hl : (u ++ r).length - r.length = u.length := by simp
  rw [hl]
  exact List.take_left u r

/-- Inversion for a captured whitespace repetition. -/
lemma accC_grp_star_inv {n : Nat} {p : Char → Bool} {s : List Char} {caps : Caps}
    {rest : List Char} (h : AccC (Reg.grp n (Reg.star p)) s caps rest) :
    ∃ u, caps = [(n, u)] ∧ s = u ++ rest ∧ ∀ c ∈ u, p c = true := by
  obtain ⟨c1, hcaps, hin⟩ := h
  obtain ⟨hc1, u, rfl, hall⟩ := hin
  subst hc1
  refine ⟨u, ?_, rfl, hall⟩
  rw [hcaps, take_of_append u rest]
  simp

/-- Dropping while over an all-satisfying prefix continues into the suffix. -/
lemma dropWhile_append_all {p : Char → Bool} : ∀ (A B : List Char),
    (∀ c ∈ A, p c = true) → (A ++ B).dropWhile p = B.dropWhile p := by
  intro A
  induction A with
  | nil =>
    intro B _
    rfl
  | cons a A2 ih =>
    intro B hA
    have ha : p a = true := hA a (by simp)
    rw [List.cons_append,
      show ((a :: (A2 ++ B)).dropWhile p) = (A2 ++ B).dropWhile p from by
        simp [List.dropWhile, ha]]
    exact ih B (fun c hc => hA c (by simp [hc]))

/-- Dropping while stops at a failing head. -/
lemma dropWhile_cons_neg {p : Char → Bool} (a : Char) (l : List Char)
    (ha : p a = false) : (a :: l).dropWhile p = a :: l := by
  simp [List.dropWhile, ha]

/-- A list containing a failing element never drops to nothing. -/
lemma dropWhile_ne_nil_of_exists {p : Char → Bool} : ∀ (l : List Char),
    (∃ c ∈ l, p c = false) → l.dropWhile p ≠ [] := by
  intro l
  induction l with
  | nil =>
    rintro ⟨c, hc, -⟩
    simp at hc
  | cons a l2 ih =>
    rintro ⟨c, hc, hcf⟩
    cases hpa : p a with
    | false =>
      rw [dropWhile_cons_neg a l2 hpa]
      simp
    | true =>
      rw [show (a :: l2).dropWhile p = l2.dropWhile p from by
        simp [List.dropWhile, hpa]]
      refine ih ⟨c, ?_, hcf⟩
      rcases List.mem_cons.mp hc with rfl | h2
      · rw [hpa] at hcf
        cases hcf
      · exact h2

/-- Dropping while over an append whose left part survives keeps the right
part intact. -/
lemma dropWhile_append_ne {p : Char → Bool} : ∀ (A B : List Char),
    A.dropWhile p ≠ [] → (A ++ B).dropWhile p = A.dropWhile p ++ B := by
  intro A
  induction A with
  | nil =>
    intro B h
    exact absurd rfl h
  | cons a A2 ih =>
    intro B h
    cases hpa : p a with
    | false =>
      rw [List.cons_append, dropWhile_cons_neg a _ hpa, dropWhile_cons_neg a A2 hpa]
      rfl
    | true =>
      have hh : (a :: A2).dropWhile p = A2.dropWhile p := by
        simp [List.dropWhile, hpa]
      rw [List.cons_append,
        show ((a :: (A2 ++ B)).dropWhile p) = (A2 ++ B).dropWhile p from by
          simp [List.dropWhile, hpa], hh]
      refine ih B ?_
      rw [hh] at h
      exact h

/-- Stripping trailing whitespace distributes over an append whose right part
keeps some non-whitespace character. -/
lemma rstrip_append (Y X : List Char) (hX : ∃ c ∈ X, pySpace c = false) :
    ((Y ++ X).reverse.dropWhile pySpace).reverse =
      Y ++ (X.reverse.dropWhile pySpace).reverse := by
  rw [List.reverse_append]
  have hne : X.reverse.dropWhile pySpace ≠ [] := by
    obtain ⟨c, hc, hcs⟩ := hX
    exact dropWhile_ne_nil_of_exists X.reverse ⟨c, List.mem_reverse.mpr hc, hcs⟩
  rw [dropWhile_append_ne X.reverse Y.reverse hne, List.reverse_append,
    List.reverse_reverse]

/-- The strip of a line made of leading whitespace, the declaration keyword,
and a remainder keeping some non-whitespace character. -/
lemma pyStrip_shape (g1 X : List Char) (hg1 : ∀ c ∈ g1, pySpace c = true)
    (hX : ∃ c ∈ X, pySpace c = false) :
    pyStrip (g1 ++ (cs "let " ++ X)) =
      cs "let " ++ (X.reverse.dropWhile pySpace).reverse := by
  unfold pyStrip
  rw [dropWhile_append_all g1 _ hg1,
    show cs "let " ++ X = 'l' :: (cs "et " ++ X) from rfl,
    dropWhile_cons_neg 'l' _ (by decide),
    show ('l' : Char) :: (cs "et " ++ X) = cs "let " ++ X from rfl]
  exact rstrip_append (cs "let ") X hX

/-- Captures of a line-rewrite match: the leading whitespace and the
identifier-equals segment, which starts with an identifier head character and
ends at the equals sign. -/
lemma patC_caps {l : List Char} {caps : Caps} {rest : List Char}
    (h : AccC patC l caps rest) :
    ∃ g1 d wr sr, caps = [(1, g1), (2, d :: (wr ++ (sr ++ ['='])))] ∧
      l = g1 ++ (d :: (wr ++ (sr ++ ('=' :: rest)))) ∧
      (∀ c ∈ g1, pySpace c = true) ∧ pyAlphaUnd d = true ∧
      (∀ c ∈ wr, pyWord c = true) ∧ (∀ c ∈ sr, pySpace c = true) := by
  obtain ⟨mid1, c1, c2, hcaps, h1, h2⟩ := h
  obtain ⟨g1, hc1g, hlg, hg1⟩ := accC_grp_star_inv h1
  obtain ⟨mid2, c3, c4, hc2, h3, h4⟩ := h2
  obtain ⟨hc4, hmid2⟩ := h4
  simp only [List.nil_append] at hmid2
  obtain ⟨c5, hc3, h5⟩ := h3
  obtain ⟨m1, cA, cA2, hc5, hA, h6⟩ := h5
  obtain ⟨hcA, d, hmidA, hd⟩ := hA
  obtain ⟨m2, cB, cB2, hcA2eq, hB, h7⟩ := h6
  obtain ⟨hcB, wr, hm1, hwr⟩ := hB
  obtain ⟨m3, cC, cC2, hcB2eq, hC, h8⟩ := h7
  obtain ⟨hcC, sr, hm2e, hsr⟩ := hC
  obtain ⟨m4, cD, cD2, hcC2eq, hDl, h9⟩ := h8
  obtain ⟨hcD, hm3⟩ := hDl
  obtain ⟨hcD2, hm4⟩ := h9
  simp only [List.nil_append] at hm4
  have hmid1eq : mid1 = (d :: (wr ++ (sr ++ ['=']))) ++ mid2 := by
    rw [hmidA, hm1, hm2e, hm3, hm4, show cs "=" = ['='] from rfl]
    simp [List.append_assoc]
  refine ⟨g1, d, wr, sr, ?_, ?_, hg1, hd, hwr, hsr⟩
  · rw [hcaps, hc1g, hc2, hc3, hc5, hcA2eq, hcB2eq, hcC2eq, hcA, hcB, hcC, hcD,
      hcD2, hc4, hmid1eq, take_of_append]
    simp
  · rw [hlg, hmid1eq, hmid2]
    simp

/-- The per-line body either leaves the line unchanged or inserts the
declaration keyword after the leading whitespace, before a word character. -/
lemma fixLine_shape (l : List Char) :
    fixLine l = l ∨
    ∃ g1 d B, pyWord d = true ∧ l = g1 ++ (d :: B) ∧
      (∀ c ∈ g1, pySpace c = true) ∧
      fixLine l = g1 ++ (cs "let " ++ (d :: B)) := by
  cases hcond : reMatch patA (pyStrip l) && !reMatch patB (pyStrip l) with
  | false =>
    left
    simp [fixLine, hcond]
  | true =>
    cases hrun : (patC.run l).head? with
    | none =>
      left
      simp [fixLine, hcond, subAnchored, hrun]
    | some x =>
      right
      have hmem : x ∈ patC.run l := by
        cases hr2 : patC.run l with
        | nil =>
          rw [hr2] at hrun
          cases hrun
        | cons y ys =>
          rw [hr2] at hrun
          simp only [List.head?_cons, Option.some.injEq] at hrun
          rw [hrun]
          simp
      have hacc := run_sound patC l x hmem
      obtain ⟨g1, d, wr, sr, hcaps, hleq, hg1, hd, hwr, hsr⟩ := patC_caps hacc
      refine ⟨g1, d, wr ++ (sr ++ ('=' :: x.2)), alphaUnd_word d hd, hleq, hg1, ?_⟩
      have hfx : fixLine l = subAnchored patC replC l := by
        unfold fixLine
        rw [hcond]
        simp
      rw [hfx]
      unfold subAnchored
      rw [hrun]
      show applyTpl x.1 replC ++ x.2 = _
      rw [hcaps,
        show applyTpl [(1, g1), (2, d :: (wr ++ (sr ++ ['='])))] replC =
          g1 ++ (cs "let " ++ ((d :: (wr ++ (sr ++ ['=']))) ++ [])) from rfl]
      simp [List.append_assoc]

/-- The exclusion pattern matches any stripped line that begins with the
declaration keyword and a space. -/
lemma reMatch_patB_let (W : List Char) : reMatch patB (cs "let " ++ W) = true := by
  have hacc : AccC patB (cs "let " ++ W) [(1, cs "let")] W := by
    refine ⟨cs "let " ++ W, [], [(1, cs "let")], rfl, ⟨rfl, [], rfl, by simp⟩, ?_⟩
    refine ⟨' ' :: W, [(1, cs "let")], [], by simp, ?_, ?_⟩
    · refine ⟨[], ?_, Or.inl ⟨rfl, rfl⟩⟩
      have ht : (cs "let " ++ W).take ((cs "let " ++ W).length - (' ' :: W).length) =
          cs "let" := take_of_append (cs "let") (' ' :: W)
      rw [ht]
      simp
    · exact ⟨W, [], [], rfl, ⟨rfl, [' '], rfl, by simp, by decide⟩, ⟨rfl, rfl⟩⟩
  have hmem := run_complete patB _ _ _ hacc
  unfold reMatch
  cases hr : patB.run (cs "let " ++ W) with
  | nil =>
    rw [hr] at hmem
    exact absurd hmem (List.not_mem_nil _)
  | cons y ys => rfl

/-- The per-line body of the Declaration Fixer is idempotent: a line it
rewrites begins, once stripped, with the declaration keyword, so the second
pass excludes it. -/
lemma fixLine_idem (l : List Char) : fixLine (fixLine l) = fixLine l := by
  rcases fixLine_shape l with h0 | ⟨g1, d, B, hd, hleq, hg1, hfix⟩
  · rw [h0]
    exact h0
  · rw [hfix]
    have hBw : ∃ c ∈ d :: B, pySpace c = false := ⟨d, by simp, word_not_space d hd⟩
    have hstrip := pyStrip_shape g1 (d :: B) hg1 hBw
    have hB : reMatch patB (pyStrip (g1 ++ (cs "let " ++ (d :: B)))) = true := by
      rw [hstrip]
      exact reMatch_patB_let _
    unfold fixLine
    rw [hB]
    simp

/-- Inserting the declaration keyword at a line start introduces no new rule
occurrence: a match cannot start at or inside the inserted keyword, and
cannot straddle it. -/
lemma noOcc_insert (rk : Reg) (tks : List Tok) (hg : GoodRule rk tks)
    (A B : List Char) (d : Char) (hd : pyWord d = true)
    (h : ¬ Occ rk (A ++ d :: B)) : ¬ Occ rk (A ++ (cs "let " ++ d :: B)) := by
  intro ho
  obtain ⟨u, mk, w, heq, caps, hacc⟩ := ho
  obtain ⟨m2, hm2, hts0⟩ := hg.1 (mk ++ w) caps w hacc
  have hmm : mk = m2 := (List.append_inj' hm2 rfl).1
  have hts : ToksStr tks mk := by
    rw [hmm]
    exact hts0
  have hpre8 : Pre8 mk := hg.2.2.2.2 mk hts
  obtain ⟨c0, z0, hhd, hcs0⟩ := pre8_head hpre8
  have heq2 : A ++ (cs "let " ++ d :: B) = u ++ (mk ++ w) := by
    rw [heq, List.append_assoc]
  rcases List.append_eq_append_iff.mp heq2 with ⟨a2, ha1, ha2⟩ | ⟨c2, hc1, hc2⟩
  · rcases List.append_eq_append_iff.mp ha2 with ⟨p, hp1, hp2⟩ | ⟨p, hp1, hp2⟩
    · refine h ⟨A ++ p, mk, w, ?_, caps, hacc⟩
      rw [hp2]
      simp [List.append_assoc]
    · cases p with
      | nil =>
        simp only [List.nil_append] at hp2
        refine h ⟨A, mk, w, ?_, caps, hacc⟩
        rw [← hp2]
        simp
      | cons ph pt =>
        have hmemp : ph ∈ cs "let " := by
          rw [hp1]
          simp
        have hf : mk = 'f' :: (cs "unction" ++ c0 :: z0) := by
          rw [hhd]
          rfl
        rw [hf] at hp2
        simp only [List.cons_append, List.cons.injEq] at hp2
        rw [← hp2.1] at hmemp
        exact absurd hmemp (by decide)
  · rcases List.append_eq_append_iff.mp hc2 with ⟨q, hq1, hq2⟩ | ⟨q, hq1, hq2⟩
    · refine h ⟨u, mk, q ++ d :: B, ?_, caps, accC_ext rk mk w caps hacc (q ++ d :: B)⟩
      rw [hc1, hq1]
      simp [List.append_assoc]
    · cases q with
      | nil =>
        simp only [List.append_nil] at hq1
        refine h ⟨u, mk, d :: B, ?_, caps, accC_ext rk mk w caps hacc (d :: B)⟩
        rw [hc1, ← hq1]
      | cons qh qt =>
        have htsk : ToksStr tks (c2 ++ (qh :: qt)) := by
          rw [← hq1]
          exact hts
        exact no_let_overlap_toks tks hg.2.1 hg.2.2.2.1 c2 (qh :: qt) w d B htsk
          (by simp) hq2.symm hd

/-- Splitting on newlines never yields an empty list of lines. -/
lemma splitNl_ne_nil : ∀ y : List Char, splitNl y ≠ [] := by
  intro y
  cases y with
  | nil => simp [splitNl]
  | cons c s =>
    simp only [splitNl]
    by_cases hc : c = '\n'
    · simp [hc]
    · rw [if_neg hc]
      cases hsp : splitNl s <;> simp

/-- Joining the split lines reassembles the buffer. -/
lemma joinNl_splitNl : ∀ y : List Char, joinNl (splitNl y) = y := by
  intro y
  induction y with
  | nil => rfl
  | cons c s ih =>
    simp only [splitNl]
    by_cases hc : c = '\n'
    · rw [if_pos hc]
      subst hc
      cases hsp : splitNl s with
      | nil => exact absurd hsp (splitNl_ne_nil s)
      | cons l ls =>
        rw [hsp] at ih
        show [] ++ '\n' :: joinNl (l :: ls) = '\n' :: s
        rw [ih]
        simp
    · rw [if_neg hc]
      cases hsp : splitNl s with
      | nil => exact absurd hsp (splitNl_ne_nil s)
      | cons l ls =>
        rw [hsp] at ih
        cases ls with
        | nil =>
          have hl : l = s := ih
          rw [show joinNl [c :: l] = c :: l from rfl, hl]
        | cons l2 ls2 =>
          rw [show joinNl ((c :: l) :: l2 :: ls2) =
            (c :: l) ++ '\n' :: joinNl (l2 :: ls2) from rfl]
          have ih2 : l ++ '\n' :: joinNl (l2 :: ls2) = s := ih
          rw [List.cons_append, ih2]

/-- No split line contains a newline. -/
lemma splitNl_no_nl : ∀ (y l : List Char), l ∈ splitNl y → '\n' ∉ l := by
  intro y
  induction y with
  | nil =>
    intro l hl
    simp only [splitNl, List.mem_singleton] at hl
    subst hl
    simp
  | cons c s ih =>
    intro l hl
    simp only [splitNl] at hl
    by_cases hc : c = '\n'
    · rw [if_pos hc] at hl
      rcases List.mem_cons.mp hl with rfl | h2
      · simp
      · exact ih l h2
    · rw [if_neg hc] at hl
      cases hsp : splitNl s with
      | nil => exact absurd hsp (splitNl_ne_nil s)
      | cons l0 ls0 =>
        rw [hsp] at hl
        rcases List.mem_cons.mp hl with rfl | h2
        · intro hmem
          rcases List.mem_cons.mp hmem with he | h3
          · exact hc he.symm
          · exact ih l0 (by rw [hsp]; simp) h3
        · exact ih l (by rw [hsp]; simp [h2])

/-- A newline-free buffer splits to a single line. -/
lemma splitNl_single : ∀ l : List Char, '\n' ∉ l → splitNl l = [l] := by
  intro l
  induction l with
  | nil =>
    intro _
    rfl
  | cons c t ih =>
    intro h
    have hc : ¬ c = '\n' := fun h0 => h (by simp [h0])
    have ht : '\n' ∉ t := fun h2 => h (by simp [h2])
    simp only [splitNl]
    rw [if_neg hc, ih ht]

/-- Splitting a newline-free line, a newline, and a remainder peels the
line. -/
lemma splitNl_append_nl : ∀ (l J : List Char), '\n' ∉ l →
    splitNl (l ++ '\n' :: J) = l :: splitNl J := by
  intro l
  induction l with
  | nil =>
    intro J _
    simp only [List.nil_append, splitNl]
    simp
  | cons c t ih =>
    intro J h
    have hc : ¬ c = '\n' := fun h0 => h (by simp [h0])
    have ht : '\n' ∉ t := fun h2 => h (by simp [h2])
    simp only [List.cons_append, splitNl, List.append_eq]
    rw [if_neg hc, ih J ht]

/-- Splitting the join of nonempty newline-free lines recovers the lines. -/
lemma splitNl_joinNl_lines : ∀ ls : List (List Char), ls ≠ [] →
    (∀ l ∈ ls, '\n' ∉ l) → splitNl (joinNl ls) = ls := by
  intro ls
  induction ls with
  | nil =>
    intro h _
    exact absurd rfl h
  | cons l ls2 ih =>
    intro _ hno
    cases ls2 with
    | nil =>
      show splitNl (joinNl [l]) = [l]
      rw [show joinNl [l] = l from rfl]
      exact splitNl_single l (hno l (by simp))
    | cons l2 ls3 =>
      rw [show joinNl (l :: l2 :: ls3) = l ++ '\n' :: joinNl (l2 :: ls3) from rfl,
        splitNl_append_nl l _ (hno l (by simp)),
        ih (by simp) (fun x hx => hno x (by simp [hx]))]

/-- The per-line body never introduces a newline. -/
lemma fixLine_no_nl (l : List Char) (h : '\n' ∉ l) : '\n' ∉ fixLine l := by
  rcases fixLine_shape l with h0 | ⟨g1, d, B, hd, hleq, hg1, hfix⟩
  · rw [h0]
    exact h
  · rw [hfix]
    intro hmem
    rcases List.mem_append.mp hmem with h1 | h2
    · exact h (by rw [hleq]; exact List.mem_append.mpr (Or.inl h1))
    · rcases List.mem_append.mp h2 with h3 | h4
      · exact absurd h3 (by decide)
      · exact h (by rw [hleq]; exact List.mem_append.mpr (Or.inr h4))

/-- The Declaration Fixer introduces no rule occurrence: processing the lines
in order with an already-processed prefix preserves absence of occurrences. -/
lemma V_noOcc_aux (rk : Reg) (tks : List Tok) (hg : GoodRule rk tks) :
    ∀ (ls : List (List Char)) (P : List Char),
      ¬ Occ rk (P ++ joinNl ls) → ¬ Occ rk (P ++ joinNl (ls.map fixLine)) := by
  intro ls
  induction ls with
  | nil =>
    intro P h
    exact h
  | cons l ls2 ih =>
    intro P h
    cases ls2 with
    | nil =>
      rcases fixLine_shape l with h0 | ⟨g1, d, B, hd, hleq, hg1, hfix⟩
      · rw [show joinNl ((l :: []).map fixLine) = fixLine l from rfl, h0]
        exact h
      · rw [show joinNl ((l :: []).map fixLine) = fixLine l from rfl, hfix]
        have hcur : ¬ Occ rk (P ++ l) := h
        rw [hleq] at hcur
        have h2 : ¬ Occ rk ((P ++ g1) ++ d :: B) := by
          rw [List.append_assoc]
          exact hcur
        have h3 := noOcc_insert rk tks hg (P ++ g1) B d hd h2
        intro ho
        refine h3 ?_
        rw [List.append_assoc]
        exact ho
    | cons l2 ls3 =>
      rw [show joinNl ((l :: l2 :: ls3).map fixLine) =
        fixLine l ++ '\n' :: joinNl ((l2 :: ls3).map fixLine) from rfl]
      have h1 : ¬ Occ rk ((P ++ l ++ ['\n']) ++ joinNl ((l2 :: ls3).map fixLine)) := by
        refine ih (P ++ l ++ ['\n']) ?_
        intro ho
        refine h ?_
        rw [show joinNl (l :: l2 :: ls3) = l ++ '\n' :: joinNl (l2 :: ls3) from rfl]
        simpa [List.append_assoc] using ho
      rcases fixLine_shape l with h0 | ⟨g1, d, B, hd, hleq, hg1, hfix⟩
      · rw [h0]
        intro ho
        exact h1 (by simpa [List.append_assoc] using ho)
      · rw [hfix]
        have h2 : ¬ Occ rk ((P ++ g1) ++
            d :: (B ++ '\n' :: joinNl ((l2 :: ls3).map fixLine))) := by
          intro ho
          refine h1 ?_
          rw [hleq]
          simpa [List.append_assoc] using ho
        have h3 := noOcc_insert rk tks hg (P ++ g1)
          (B ++ '\n' :: joinNl ((l2 :: ls3).map fixLine)) d hd h2
        intro ho
        refine h3 ?_
        simpa [List.append_assoc] using ho

/-- The Declaration Fixer preserves absence of rule occurrences. -/
lemma V_noOcc (rk : Reg) (tks : List Tok) (hg : GoodRule rk tks) (y : List Char)
    (h : ¬ Occ rk y) : ¬ Occ rk (fix_variable_declarations y) := by
  have h0 : ¬ Occ rk ([] ++ joinNl (splitNl y)) := by
    rw [joinNl_splitNl]
    simpa using h
  have h1 := V_noOcc_aux rk tks hg (splitNl y) [] h0
  intro ho
  exact h1 (by simpa [fix_variable_declarations] using ho)

/-- The Declaration Fixer is idempotent. -/
lemma V_idem (y : List Char) :
    fix_variable_declarations (fix_variable_declarations y) =
      fix_variable_declarations y := by
  unfold fix_variable_declarations
  have hner : (splitNl y).map fixLine ≠ [] := by
    cases hsp : splitNl y with
    | nil => exact absurd hsp (splitNl_ne_nil y)
    | cons a as => simp
  have hnonl : ∀ l ∈ (splitNl y).map fixLine, '\n' ∉ l := by
    intro l hl
    obtain ⟨l0, hl0, rfl⟩ := List.mem_map.mp hl
    exact fixLine_no_nl l0 (splitNl_no_nl y l0 hl0)
  rw [splitNl_joinNl_lines _ hner hnonl]
  congr 1
  rw [List.map_map]
  refine List.map_congr_left ?_
  intro a _
  exact fixLine_idem a

/-- C5: the full pipeline — the Signature Fixer followed by the Declaration
Fixer, as applied by fix_file — is idempotent: applying the transformer twice
to any buffer yields the same result as applying it once. -/
theorem c5_pipeline_idempotent :
    ∀ x : List Char, applyFixes (applyFixes x) = applyFixes x := by
  intro x
  obtain ⟨h1, h2, h3, h4⟩ := noOcc_fix_signatures x
  have v1 := V_noOcc rule1 ruleToks1 goodRule1 _ h1
  have v2 := V_noOcc rule2 ruleToks2 goodRule2 _ h2
  have v3 := V_noOcc rule3 ruleToks3 goodRule3 _ h3
  have v4 := V_noOcc rule4 ruleToks4 goodRule4 _ h4
  have hF : fix_function_signatures (fix_variable_declarations
      (fix_function_signatures x)) =
      fix_variable_declarations (fix_function_signatures x) :=
    fix_signatures_id _ v1 v2 v3 v4
  show fix_variable_declarations (fix_function_signatures
    (fix_variable_declarations (fix_function_signatures x))) =
    fix_variable_declarations (fix_function_signatures x)
  rw [hF]
  exact V_idem _

/-- Two decompositions of one string into a class run and a stopper
coincide. -/
lemma span_eq (p : Char → Bool) : ∀ (u u' : List Char) (c c' : Char)
    (y y' : List Char),
    (∀ x ∈ u, p x = true) → (∀ x ∈ u', p x = true) →
    p c = false → p c' = false →
    u ++ c :: y = u' ++ c' :: y' → u = u' ∧ c = c' ∧ y = y' := by
  intro u
  induction u with
  | nil =>
    intro u' c c' y y' hu hu' hc hc' he
    cases u' with
    | nil =>
      simp only [List.nil_append, List.cons.injEq] at he
      exact ⟨rfl, he.1, he.2⟩
    | cons x' v' =>
      simp only [List.nil_append, List.cons_append, List.cons.injEq] at he
      have hx := hu' x' (by simp)
      rw [← he.1] at hx
      rw [hx] at hc
      cases hc
  | cons x v ih =>
    intro u' c c' y y' hu hu' hc hc' he
    cases u' with
    | nil =>
      simp only [List.cons_append, List.nil_append, List.cons.injEq] at he
      have hx := hu x (by simp)
      rw [he.1] at hx
      rw [hx] at hc'
      cases hc'
    | cons x' v' =>
      simp only [List.cons_append, List.cons.injEq] at he
      obtain ⟨rfl, he2⟩ := he
      obtain ⟨hA, hB, hC⟩ := ih v' c c' y y' (fun z hz => hu z (by simp [hz]))
        (fun z hz => hu' z (by simp [hz])) hc hc' he2
      exact ⟨by rw [hA], hB, hC⟩

/-- Two decompositions of one string into a word run, a whitespace run and a
non-word non-space stopper coincide. -/
lemma wordSpanLit_eq : ∀ (u u' t t' : List Char) (g g' : Char) (y y' : List Char),
    (∀ c ∈ u, pyWord c = true) → (∀ c ∈ u', pyWord c = true) →
    (∀ c ∈ t, pySpace c = true) → (∀ c ∈ t', pySpace c = true) →
    pyWord g = false → pySpace g = false →
    pyWord g' = false → pySpace g' = false →
    u ++ (t ++ g :: y) = u' ++ (t' ++ g' :: y') →
    u = u' ∧ t = t' ∧ g = g' ∧ y = y' := by
  intro u
  induction u with
  | nil =>
    intro u' t t' g g' y y' hu hu' ht ht' hgw hgs hgw' hgs' he
    cases u' with
    | nil =>
      simp only [List.nil_append] at he
      obtain ⟨hA, hB, hC⟩ := span_eq pySpace t t' g g' y y' ht ht' hgs hgs' he
      exact ⟨rfl, hA, hB, hC⟩
    | cons x' v' =>
      exfalso
      cases t with
      | nil =>
        simp only [List.nil_append, List.cons_append, List.cons.injEq] at he
        have hx := hu' x' (by simp)
        rw [← he.1] at hx
        rw [hx] at hgw
        cases hgw
      | cons c2 t2 =>
        simp only [List.cons_append, List.nil_append, List.cons.injEq] at he
        have hx := hu' x' (by simp)
        have hc2 := ht c2 (by simp)
        rw [← he.1] at hx
        rw [space_not_word c2 hc2] at hx
        cases hx
  | cons x v ih =>
    intro u' t t' g g' y y' hu hu' ht ht' hgw hgs hgw' hgs' he
    cases u' with
    | nil =>
      exfalso
      cases t' with
      | nil =>
        simp only [List.cons_append, List.nil_append, List.cons.injEq] at he
        have hx := hu x (by simp)
        rw [he.1] at hx
        rw [hx] at hgw'
        cases hgw'
      | cons c2 t2 =>
        simp only [List.cons_append, List.nil_append, List.cons.injEq] at he
        have hx := hu x (by simp)
        have hc2 := ht' c2 (by simp)
        rw [he.1] at hx
        rw [space_not_word c2 hc2] at hx
        cases hx
    | cons x' v' =>
      simp only [List.cons_append, List.cons.injEq] at he
      obtain ⟨rfl, he2⟩ := he
      obtain ⟨hA, hB, hC, hD⟩ := ih v' t t' g g' y y'
        (fun z hz => hu z (by simp [hz])) (fun z hz => hu' z (by simp [hz]))
        ht ht' hgw hgs hgw' hgs' he2
      exact ⟨by rw [hA], hB, hC, hD⟩

/-- A literal-character token of a skeleton occurs in every realization. -/
lemma chTok_mem : ∀ (ts : List Tok) (m : List Char) (c : Char),
    ToksStr ts m → Tok.ch c ∈ ts → c ∈ m := by
  intro ts
  induction ts with
  | nil =>
    intro m c _ h
    simp at h
  | cons t ts2 ih =>
    intro m c hts hmem
    obtain ⟨u1, u2, rfl, htok, hts2⟩ := hts
    rcases List.mem_cons.mp hmem with he | h2
    · rw [← he] at htok
      have hu : u1 = [c] := htok
      rw [hu]
      simp
    · exact List.mem_append.mpr (Or.inr (ih u2 c hts2 h2))

/-- Acceptance introduction for a literal. -/
lemma accC_lit_intro (l rest : List Char) : AccC (Reg.lit l) (l ++ rest) [] rest :=
  ⟨rfl, rfl⟩

/-- Acceptance introduction for a class repetition. -/
lemma accC_star_intro (p : Char → Bool) (u rest : List Char)
    (h : ∀ c ∈ u, p c = true) : AccC (Reg.star p) (u ++ rest) [] rest :=
  ⟨rfl, u, rfl, h⟩

/-- Acceptance introduction for a nonempty class repetition. -/
lemma accC_plus_intro (p : Char → Bool) (u rest : List Char) (hne : u ≠ [])
    (h : ∀ c ∈ u, p c = true) : AccC (Reg.plus p) (u ++ rest) [] rest :=
  ⟨rfl, u, rfl, hne, h⟩

/-- Acceptance introduction for a captured nonempty class repetition. -/
lemma accC_grp_plus_intro (n : Nat) (p : Char → Bool) (u rest : List Char)
    (hne : u ≠ []) (h : ∀ c ∈ u, p c = true) :
    AccC (Reg.grp n (Reg.plus p)) (u ++ rest) [(n, u)] rest := by
  refine ⟨[], ?_, rfl, u, rfl, hne, h⟩
  rw [take_of_append u rest]
  rfl

/-- Acceptance introduction for the empty concatenation. -/
lemma accC_rseq_nil (s : List Char) : AccC (rseq []) s [] s := ⟨rfl, rfl⟩

/-- Acceptance introduction for a concatenation step. -/
lemma accC_rseq_cons {e : Reg} {es : List Reg} {s mid rest : List Char}
    {c1 c2 : Caps} (h1 : AccC e s c1 mid) (h2 : AccC (rseq es) mid c2 rest) :
    AccC (rseq (e :: es)) s (c1 ++ c2) rest := ⟨mid, c1, c2, rfl, h1, h2⟩

/-- A scan whose very first position yields a result returns it with an empty
prefix. -/
lemma findFirst_start (r : Reg) (s : List Char) (x : Caps × List Char)
    (h : (r.run s).head? = some x) : findFirst r s = some ([], x.1, x.2) := by
  cases s with
  | nil => simp [findFirst, h]
  | cons c t => simp [findFirst, h]

/-- The worker leaves the empty string alone when the pattern cannot match
it. -/
lemma subAux_nil (r : Reg) (t : List Tpl) (hnil : r.run [] = []) :
    ∀ fuel, subAux r t fuel [] = [] := by
  intro fuel
  cases fuel with
  | zero => rfl
  | succ f => simp [subAux, findFirst, hnil]

/-- A checked rule never matches the empty string. -/
lemma run_nil_of_good (rk : Reg) (tks : List Tok) (hg : GoodRule rk tks) :
    rk.run [] = [] := by
  by_contra h
  obtain ⟨rest, caps, hacc⟩ := (run_ne_iff rk []).mp h
  obtain ⟨m, hm, hts⟩ := hg.1 [] caps rest hacc
  exact pre8_ne (hg.2.2.2.2 m hts) (List.append_eq_nil.mp hm.symm).1

/-- A substitution whose scan matches the whole string at position zero
replaces it entirely by the instantiated template. -/
lemma reSub_step (r : Reg) (t : List Tpl) (s : List Char) (caps : Caps)
    (hff : findFirst r s = some ([], caps, [])) (hnil : r.run [] = []) :
    reSub r t s = applyTpl caps t := by
  unfold reSub
  simp [subAux, hff, subAux_nil r t hnil]

/-- No checked rule occurs anywhere in an instantiated replacement taken on
its own. -/
lemma noOcc_replShape (rk : Reg) (tks : List Tok) (hg : GoodRule rk tks)
    (R : List Char) (hR : ReplShape R) : ¬ Occ rk R := by
  intro ho
  have ho2 : Occ rk ([] ++ (R ++ [])) := by simpa using ho
  have hcontra : ¬ Occ rk ([] : List Char) := by
    rintro ⟨u, m, w, heq, caps, hacc⟩
    obtain ⟨m2, hm2, hts⟩ := hg.1 (m ++ w) caps w hacc
    have hmm : m = m2 := (List.append_inj' hm2 rfl).1
    have hne : m ≠ [] := by
      rw [hmm]
      exact pre8_ne (hg.2.2.2.2 m2 hts)
    have hm0 : u ++ m = [] := (List.append_eq_nil.mp heq.symm).1
    exact hne (List.append_eq_nil.mp hm0).2
  rcases occ_block rk tks hg R [] [] hR ho2 with h | h
  · exact hcontra h
  · exact hcontra h

/-- The two-parameter replacement instantiated at word-run captures has the
common typed shape. -/
lemma replShape_of_caps1 (nm a b : List Char) (h1 : WordStr nm) (h2 : WordStr a)
    (h3 : WordStr b) : ReplShape (cs "function " ++ (nm ++ (cs "(" ++ (a ++
      (cs ": number, " ++ (b ++ (cs ": number): void \x7b" ++ []))))))) := by
  refine ⟨nm, a, cs " number, " ++ b ++ cs ": number): void \x7b", h1, h2,
    Or.inr (Or.inr ⟨b, h3, Or.inl rfl⟩), ?_⟩
  rw [show cs ": number, " = ':' :: cs " number, " from rfl,
    show cs "(" = ['('] from rfl]
  simp [List.append_assoc]

/-- The one-parameter replacement instantiated at word-run captures has the
common typed shape. -/
lemma replShape_of_caps2 (nm a : List Char) (h1 : WordStr nm) (h2 : WordStr a) :
    ReplShape (cs "function " ++ (nm ++ (cs "(" ++ (a ++
      (cs ": number): void \x7b" ++ []))))) := by
  refine ⟨nm, a, cs " number): void \x7b", h1, h2, Or.inl rfl, ?_⟩
  rw [show cs ": number): void \x7b" = ':' :: cs " number): void \x7b" from rfl,
    show cs "(" = ['('] from rfl]
  simp [List.append_assoc]

/-- Full structure of a rule-1 acceptance: the consumed text decomposes into
the pattern's literal, whitespace and captured segments, and the captures are
exactly the three captured segments. -/
lemma rule1_capsStruct {s : List Char} {caps : Caps} {rest : List Char}
    (h : AccC rule1 s caps rest) :
    ∃ s1 nm s2 s3 a s4 s5 b s6 s7,
      caps = [(1, nm), (2, a), (3, b)] ∧
      s = cs "function" ++ (s1 ++ (nm ++ (s2 ++ ('(' :: (s3 ++ (a ++ (s4 ++
        (',' :: (s5 ++ (b ++ (s6 ++ (')' :: (s7 ++
        ('\x7b' :: rest)))))))))))))) ∧
      s1 ≠ [] ∧ (∀ c ∈ s1, pySpace c = true) ∧
      nm ≠ [] ∧ (∀ c ∈ nm, pyWord c = true) ∧
      (∀ c ∈ s2, pySpace c = true) ∧ (∀ c ∈ s3, pySpace c = true) ∧
      a ≠ [] ∧ (∀ c ∈ a, pyWord c = true) ∧
      (∀ c ∈ s4, pySpace c = true) ∧ (∀ c ∈ s5, pySpace c = true) ∧
      b ≠ [] ∧ (∀ c ∈ b, pyWord c = true) ∧
      (∀ c ∈ s6, pySpace c = true) ∧ (∀ c ∈ s7, pySpace c = true) := by
  obtain ⟨m1, c1, cr1, hcap0, hA1, hR1⟩ := h
  obtain ⟨hc1, hs0⟩ := hA1
  obtain ⟨m2, c2, cr2, hcap1, hA2, hR2⟩ := hR1
  obtain ⟨hc2, s1, hs1, hs1ne, hs1p⟩ := hA2
  obtain ⟨m3, c3, cr3, hcap2, hA3, hR3⟩ := hR2
  obtain ⟨nm, hc3, hm2, hnmne, hnmw⟩ := accC_grp_plus_inv hA3
  obtain ⟨m4, c4, cr4, hcap3, hA4, hR4⟩ := hR3
  obtain ⟨hc4, s2, hm3, hs2p⟩ := hA4
  obtain ⟨m5, c5, cr5, hcap4, hA5, hR5⟩ := hR4
  obtain ⟨hc5, hm4⟩ := hA5
  obtain ⟨m6, c6, cr6, hcap5, hA6, hR6⟩ := hR5
  obtain ⟨hc6, s3, hm5, hs3p⟩ := hA6
  obtain ⟨m7, c7, cr7, hcap6, hA7, hR7⟩ := hR6
  obtain ⟨a, hc7, hm6, hane, haw⟩ := accC_grp_plus_inv hA7
  obtain ⟨m8, c8, cr8, hcap7, hA8, hR8⟩ := hR7
  obtain ⟨hc8, s4, hm7, hs4p⟩ := hA8
  obtain ⟨m9, c9, cr9, hcap8, hA9, hR9⟩ := hR8
  obtain ⟨hc9, hm8⟩ := hA9
  obtain ⟨m10, c10, cr10, hcap9, hA10, hR10⟩ := hR9
  obtain ⟨hc10, s5, hm9, hs5p⟩ := hA10
  obtain ⟨m11, c11, cr11, hcap10, hA11, hR11⟩ := hR10
  obtain ⟨b, hc11, hm10, hbne, hbw⟩ := accC_grp_plus_inv hA11
  obtain ⟨m12, c12, cr12, hcap11, hA12, hR12⟩ := hR11
  obtain ⟨hc12, s6, hm11, hs6p⟩ := hA12
  obtain ⟨m13, c13, cr13, hcap12, hA13, hR13⟩ := hR12
  obtain ⟨hc13, hm12⟩ := hA13
  obtain ⟨m14, c14, cr14, hcap13, hA14, hR14⟩ := hR13
  obtain ⟨hc14, s7, hm13, hs7p⟩ := hA14
  obtain ⟨m15, c15, cr15, hcap14, hA15, hR15⟩ := hR14
  obtain ⟨hc15, hm14⟩ := hA15
  obtain ⟨hc16, hm15⟩ := hR15
  simp only [List.nil_append] at hm15
  refine ⟨s1, nm, s2, s3, a, s4, s5, b, s6, s7, ?_, ?_, hs1ne, hs1p, hnmne,
    hnmw, hs2p, hs3p, hane, haw, hs4p, hs5p, hbne, hbw, hs6p, hs7p⟩
  · rw [hcap0, hc1, hcap1, hc2, hcap2, hc3, hcap3, hc4, hcap4, hc5, hcap5, hc6,
      hcap6, hc7, hcap7, hc8, hcap8, hc9, hcap9, hc10, hcap10, hc11, hcap11,
      hc12, hcap12, hc13, hcap13, hc14, hcap14, hc15, hc16]
    simp
  · rw [hs0, hs1, hm2, hm3, hm4, hm5, hm6, hm7, hm8, hm9, hm10, hm11, hm12,
      hm13, hm14, hm15, show cs "(" = ['('] from rfl, show cs "," = [','] from rfl,
      show cs ")" = [')'] from rfl, show cs "\x7b" = ['\x7b'] from rfl]
    simp [List.append_assoc]

/-- Full structure of a rule-2 acceptance. -/
lemma rule2_capsStruct {s : List Char} {caps : Caps} {rest : List Char}
    (h : AccC rule2 s caps rest) :
    ∃ s1 nm s2 s3 a s4 s5,
      caps = [(1, nm), (2, a)] ∧
      s = cs "function" ++ (s1 ++ (nm ++ (s2 ++ ('(' :: (s3 ++ (a ++ (s4 ++
        (')' :: (s5 ++ ('\x7b' :: rest)))))))))) ∧
      s1 ≠ [] ∧ (∀ c ∈ s1, pySpace c = true) ∧
      nm ≠ [] ∧ (∀ c ∈ nm, pyWord c = true) ∧
      (∀ c ∈ s2, pySpace c = true) ∧ (∀ c ∈ s3, pySpace c = true) ∧
      a ≠ [] ∧ (∀ c ∈ a, pyWord c = true) ∧
      (∀ c ∈ s4, pySpace c = true) ∧ (∀ c ∈ s5, pySpace c = true) := by
  obtain ⟨m1, c1, cr1, hcap0, hA1, hR1⟩ := h
  obtain ⟨hc1, hs0⟩ := hA1
  obtain ⟨m2, c2, cr2, hcap1, hA2, hR2⟩ := hR1
  obtain ⟨hc2, s1, hs1, hs1ne, hs1p⟩ := hA2
  obtain ⟨m3, c3, cr3, hcap2, hA3, hR3⟩ := hR2
  obtain ⟨nm, hc3, hm2, hnmne, hnmw⟩ := accC_grp_plus_inv hA3
  obtain ⟨m4, c4, cr4, hcap3, hA4, hR4⟩ := hR3
  obtain ⟨hc4, s2, hm3, hs2p⟩ := hA4
  obtain ⟨m5, c5, cr5, hcap4, hA5, hR5⟩ := hR4
  obtain ⟨hc5, hm4⟩ := hA5
  obtain ⟨m6, c6, cr6, hcap5, hA6, hR6⟩ := hR5
  obtain ⟨hc6, s3, hm5, hs3p⟩ := hA6
  obtain ⟨m7, c7, cr7, hcap6, hA7, hR7⟩ := hR6
  obtain ⟨a, hc7, hm6, hane, haw⟩ := accC_grp_plus_inv hA7
  obtain ⟨m8, c8, cr8, hcap7, hA8, hR8⟩ := hR7
  obtain ⟨hc8, s4, hm7, hs4p⟩ := hA8
  obtain ⟨m9, c9, cr9, hcap8, hA9, hR9⟩ := hR8
  obtain ⟨hc9, hm8⟩ := hA9
  obtain ⟨m10, c10, cr10, hcap9, hA10, hR10⟩ := hR9
  obtain ⟨hc10, s5, hm9, hs5p⟩ := hA10
  obtain ⟨m11, c11, cr11, hcap10, hA11, hR11⟩ := hR10
  obtain ⟨hc11, hm10⟩ := hA11
  obtain ⟨hc12, hm11⟩ := hR11
  simp only [List.nil_append] at hm11
  refine ⟨s1, nm, s2, s3, a, s4, s5, ?_, ?_, hs1ne, hs1p, hnmne, hnmw, hs2p,
    hs3p, hane, haw, hs4p, hs5p⟩
  · rw [hcap0, hc1, hcap1, hc2, hcap2, hc3, hcap3, hc4, hcap4, hc5, hcap5, hc6,
      hcap6, hc7, hcap7, hc8, hcap8, hc9, hcap9, hc10, hcap10, hc11, hc12]
    simp
  · rw [hs0, hs1, hm2, hm3, hm4, hm5, hm6, hm7, hm8, hm9, hm10, hm11,
      show cs "(" = ['('] from rfl, show cs ")" = [')'] from rfl,
      show cs "\x7b" = ['\x7b'] from rfl]
    simp [List.append_assoc]

/-- On an untyped two-parameter signature with arbitrary whitespace in every
gap, any accepted rule-1 match consumes the whole string and captures exactly
the name and the two parameters. -/
lemma rule1_uniq (s1 nm s2 s3 a s4 s5 b s6 s7 : List Char)
    (h1 : s1 ≠ []) (h1s : ∀ c ∈ s1, pySpace c = true)
    (h2 : nm ≠ []) (h2w : ∀ c ∈ nm, pyWord c = true)
    (h3 : ∀ c ∈ s2, pySpace c = true) (h4 : ∀ c ∈ s3, pySpace c = true)
    (h5 : a ≠ []) (h5w : ∀ c ∈ a, pyWord c = true)
    (h6 : ∀ c ∈ s4, pySpace c = true) (h7 : ∀ c ∈ s5, pySpace c = true)
    (h8 : b ≠ []) (h8w : ∀ c ∈ b, pyWord c = true)
    (h9 : ∀ c ∈ s6, pySpace c = true) (h10 : ∀ c ∈ s7, pySpace c = true)
    (caps : Caps) (rest : List Char)
    (hacc : AccC rule1 (cs "function" ++ (s1 ++ (nm ++ (s2 ++ (cs "(" ++
      (s3 ++ (a ++ (s4 ++ (cs "," ++ (s5 ++ (b ++ (s6 ++ (cs ")" ++
      (s7 ++ cs "\x7b")))))))))))))) caps rest) :
    caps = [(1, nm), (2, a), (3, b)] ∧ rest = [] := by
  obtain ⟨s1', nm', s2', s3', a', s4', s5', b', s6', s7', hcaps, hseq, h1', h1s',
    h2', h2w', h3', h4', h5', h5w', h6', h7', h8', h8w', h9', h10'⟩ :=
    rule1_capsStruct hacc
  have he := List.append_cancel_left hseq
  obtain ⟨n0, nt, rfl⟩ := List.exists_cons_of_ne_nil h2
  obtain ⟨a0, at2, rfl⟩ := List.exists_cons_of_ne_nil h5
  obtain ⟨b0, bt, rfl⟩ := List.exists_cons_of_ne_nil h8
  obtain ⟨n0', nt', rfl⟩ := List.exists_cons_of_ne_nil h2'
  obtain ⟨a0', at2', rfl⟩ := List.exists_cons_of_ne_nil h5'
  obtain ⟨b0', bt', rfl⟩ := List.exists_cons_of_ne_nil h8'
  rw [show cs "(" = ['('] from rfl, show cs "," = [','] from rfl,
    show cs ")" = [')'] from rfl, show cs "\x7b" = ['\x7b'] from rfl] at he
  simp only [List.cons_append, List.singleton_append] at he
  obtain ⟨hA1, hA2, hA3⟩ := span_eq pySpace s1 s1' n0 n0' _ _ h1s h1s'
    (word_not_space n0 (h2w n0 (by simp)))
    (word_not_space n0' (h2w' n0' (by simp))) he
  obtain ⟨hB1, hB2, -, hB3⟩ := wordSpanLit_eq nt nt' s2 s2' '(' '(' _ _
    (fun z hz => h2w z (by simp [hz])) (fun z hz => h2w' z (by simp [hz]))
    h3 h3' (by decide) (by decide) (by decide) (by decide) hA3
  obtain ⟨hC1, hC2, hC3⟩ := span_eq pySpace s3 s3' a0 a0' _ _ h4 h4'
    (word_not_space a0 (h5w a0 (by simp)))
    (word_not_space a0' (h5w' a0' (by simp))) hB3
  obtain ⟨hD1, hD2, -, hD3⟩ := wordSpanLit_eq at2 at2' s4 s4' ',' ',' _ _
    (fun z hz => h5w z (by simp [hz])) (fun z hz => h5w' z (by simp [hz]))
    h6 h6' (by decide) (by decide) (by decide) (by decide) hC3
  obtain ⟨hE1, hE2, hE3⟩ := span_eq pySpace s5 s5' b0 b0' _ _ h7 h7'
    (word_not_space b0 (h8w b0 (by simp)))
    (word_not_space b0' (h8w' b0' (by simp))) hD3
  obtain ⟨hF1, hF2, -, hF3⟩ := wordSpanLit_eq bt bt' s6 s6' ')' ')' _ _
    (fun z hz => h8w z (by simp [hz])) (fun z hz => h8w' z (by simp [hz]))
    h9 h9' (by decide) (by decide) (by decide) (by decide) hE3
  obtain ⟨hG1, -, hG3⟩ := span_eq pySpace s7 s7' '\x7b' '\x7b' _ _ h10 h10'
    (by decide) (by decide) hF3
  refine ⟨?_, hG3.symm⟩
  rw [hcaps, ← hA2, ← hB1, ← hC2, ← hD1, ← hE2, ← hF1]

/-- On an untyped one-parameter signature with arbitrary whitespace in every
gap, any accepted rule-2 match consumes the whole string and captures exactly
the name and the parameter. -/
lemma rule2_uniq (s1 nm s2 s3 a s4 s5 : List Char)
    (h1 : s1 ≠ []) (h1s : ∀ c ∈ s1, pySpace c = true)
    (h2 : nm ≠ []) (h2w : ∀ c ∈ nm, pyWord c = true)
    (h3 : ∀ c ∈ s2, pySpace c = true) (h4 : ∀ c ∈ s3, pySpace c = true)
    (h5 : a ≠ []) (h5w : ∀ c ∈ a, pyWord c = true)
    (h6 : ∀ c ∈ s4, pySpace c = true) (h7 : ∀ c ∈ s5, pySpace c = true)
    (caps : Caps) (rest : List Char)
    (hacc : AccC rule2 (cs "function" ++ (s1 ++ (nm ++ (s2 ++ (cs "(" ++
      (s3 ++ (a ++ (s4 ++ (cs ")" ++ (s5 ++ cs "\x7b")))))))))) caps rest) :
    caps = [(1, nm), (2, a)] ∧ rest = [] := by
  obtain ⟨s1', nm', s2', s3', a', s4', s5', hcaps, hseq, h1', h1s', h2', h2w',
    h3', h4', h5', h5w', h6', h7'⟩ := rule2_capsStruct hacc
  have he := List.append_cancel_left hseq
  obtain ⟨n0, nt, rfl⟩ := List.exists_cons_of_ne_nil h2
  obtain ⟨a0, at2, rfl⟩ := List.exists_cons_of_ne_nil h5
  obtain ⟨n0', nt', rfl⟩ := List.exists_cons_of_ne_nil h2'
  obtain ⟨a0', at2', rfl⟩ := List.exists_cons_of_ne_nil h5'
  rw [show cs "(" = ['('] from rfl, show cs ")" = [')'] from rfl,
    show cs "\x7b" = ['\x7b'] from rfl] at he
  simp only [List.cons_append, List.singleton_append] at he
  obtain ⟨hA1, hA2, hA3⟩ := span_eq pySpace s1 s1' n0 n0' _ _ h1s h1s'
    (word_not_space n0 (h2w n0 (by simp)))
    (word_not_space n0' (h2w' n0' (by simp))) he
  obtain ⟨hB1, hB2, -, hB3⟩ := wordSpanLit_eq nt nt' s2 s2' '(' '(' _ _
    (fun z hz => h2w z (by simp [hz])) (fun z hz => h2w' z (by simp [hz]))
    h3 h3' (by decide) (by decide) (by decide) (by decide) hA3
  obtain ⟨hC1, hC2, hC3⟩ := span_eq pySpace s3 s3' a0 a0' _ _ h4 h4'
    (word_not_space a0 (h5w a0 (by simp)))
    (word_not_space a0' (h5w' a0' (by simp))) hB3
  obtain ⟨hD1, hD2, -, hD3⟩ := wordSpanLit_eq at2 at2' s4 s4' ')' ')' _ _
    (fun z hz => h5w z (by simp [hz])) (fun z hz => h5w' z (by simp [hz]))
    h6 h6' (by decide) (by decide) (by decide) (by decide) hC3
  obtain ⟨hE1, -, hE3⟩ := span_eq pySpace s5 s5' '\x7b' '\x7b' _ _ h7 h7'
    (by decide) (by decide) hD3
  refine ⟨?_, hE3.symm⟩
  rw [hcaps, ← hA2, ← hB1, ← hC2, ← hD1]

/-- Rule 1 maps an untyped two-parameter signature with arbitrary whitespace
in every gap to exactly the annotated replacement. -/
lemma reSub_rule1_family (s1 nm s2 s3 a s4 s5 b s6 s7 : List Char)
    (h1 : s1 ≠ []) (h1s : ∀ c ∈ s1, pySpace c = true)
    (h2 : nm ≠ []) (h2w : ∀ c ∈ nm, pyWord c = true)
    (h3 : ∀ c ∈ s2, pySpace c = true) (h4 : ∀ c ∈ s3, pySpace c = true)
    (h5 : a ≠ []) (h5w : ∀ c ∈ a, pyWord c = true)
    (h6 : ∀ c ∈ s4, pySpace c = true) (h7 : ∀ c ∈ s5, pySpace c = true)
    (h8 : b ≠ []) (h8w : ∀ c ∈ b, pyWord c = true)
    (h9 : ∀ c ∈ s6, pySpace c = true) (h10 : ∀ c ∈ s7, pySpace c = true) :
    reSub rule1 repl1 (cs "function" ++ (s1 ++ (nm ++ (s2 ++ (cs "(" ++
      (s3 ++ (a ++ (s4 ++ (cs "," ++ (s5 ++ (b ++ (s6 ++ (cs ")" ++
      (s7 ++ cs "\x7b")))))))))))))) =
    cs "function " ++ (nm ++ (cs "(" ++ (a ++ (cs ": number, " ++ (b ++
      (cs ": number): void \x7b" ++ [])))))) := by
  have hne : rule1.run (cs "function" ++ (s1 ++ (nm ++ (s2 ++ (cs "(" ++
      (s3 ++ (a ++ (s4 ++ (cs "," ++ (s5 ++ (b ++ (s6 ++ (cs ")" ++
      (s7 ++ cs "\x7b")))))))))))))) ≠ [] :=
    (run_ne_iff rule1 _).mpr ⟨[], _,
      accC_rseq_cons (accC_lit_intro (cs "function") _)
      (accC_rseq_cons (accC_plus_intro pySpace s1 _ h1 h1s)
      (accC_rseq_cons (accC_grp_plus_intro 1 pyWord nm _ h2 h2w)
      (accC_rseq_cons (accC_star_intro pySpace s2 _ h3)
      (accC_rseq_cons (accC_lit_intro (cs "(") _)
      (accC_rseq_cons (accC_star_intro pySpace s3 _ h4)
      (accC_rseq_cons (accC_grp_plus_intro 2 pyWord a _ h5 h5w)
      (accC_rseq_cons (accC_star_intro pySpace s4 _ h6)
      (accC_rseq_cons (accC_lit_intro (cs ",") _)
      (accC_rseq_cons (accC_star_intro pySpace s5 _ h7)
      (accC_rseq_cons (accC_grp_plus_intro 3 pyWord b _ h8 h8w)
      (accC_rseq_cons (accC_star_intro pySpace s6 _ h9)
      (accC_rseq_cons (accC_lit_intro (cs ")") _)
      (accC_rseq_cons (accC_star_intro pySpace s7 _ h10)
      (accC_rseq_cons (accC_lit_intro (cs "\x7b") _)
      (accC_rseq_nil [])))))))))))))))⟩
  cases hr : rule1.run (cs "function" ++ (s1 ++ (nm ++ (s2 ++ (cs "(" ++
      (s3 ++ (a ++ (s4 ++ (cs "," ++ (s5 ++ (b ++ (s6 ++ (cs ")" ++
      (s7 ++ cs "\x7b")))))))))))))) with
  | nil => exact absurd hr hne
  | cons y ys =>
    have hacc := run_sound rule1 _ y (by rw [hr]; simp)
    obtain ⟨hy1, hy2⟩ := rule1_uniq s1 nm s2 s3 a s4 s5 b s6 s7 h1 h1s h2 h2w
      h3 h4 h5 h5w h6 h7 h8 h8w h9 h10 y.1 y.2 hacc
    have hff := findFirst_start rule1 _ y (by rw [hr]; rfl)
    rw [hy1, hy2] at hff
    rw [reSub_step rule1 repl1 _ [(1, nm), (2, a), (3, b)] hff
      (run_nil_of_good rule1 ruleToks1 goodRule1)]
    rfl

/-- Rule 2 maps an untyped one-parameter signature with arbitrary whitespace
in every gap to exactly the annotated replacement. -/
lemma reSub_rule2_family (s1 nm s2 s3 a s4 s5 : List Char)
    (h1 : s1 ≠ []) (h1s : ∀ c ∈ s1, pySpace c = true)
    (h2 : nm ≠ []) (h2w : ∀ c ∈ nm, pyWord c = true)
    (h3 : ∀ c ∈ s2, pySpace c = true) (h4 : ∀ c ∈ s3, pySpace c = true)
    (h5 : a ≠ []) (h5w : ∀ c ∈ a, pyWord c = true)
    (h6 : ∀ c ∈ s4, pySpace c = true) (h7 : ∀ c ∈ s5, pySpace c = true) :
    reSub rule2 repl2 (cs "function" ++ (s1 ++ (nm ++ (s2 ++ (cs "(" ++
      (s3 ++ (a ++ (s4 ++ (cs ")" ++ (s5 ++ cs "\x7b")))))))))) =
    cs "function " ++ (nm ++ (cs "(" ++ (a ++
      (cs ": number): void \x7b" ++ [])))) := by
  have hne : rule2.run (cs "function" ++ (s1 ++ (nm ++ (s2 ++ (cs "(" ++
      (s3 ++ (a ++ (s4 ++ (cs ")" ++ (s5 ++ cs "\x7b")))))))))) ≠ [] :=
    (run_ne_iff rule2 _).mpr ⟨[], _,
      accC_rseq_cons (accC_lit_intro (cs "function") _)
      (accC_rseq_cons (accC_plus_intro pySpace s1 _ h1 h1s)
      (accC_rseq_cons (accC_grp_plus_intro 1 pyWord nm _ h2 h2w)
      (accC_rseq_cons (accC_star_intro pySpace s2 _ h3)
      (accC_rseq_cons (accC_lit_intro (cs "(") _)
      (accC_rseq_cons (accC_star_intro pySpace s3 _ h4)
      (accC_rseq_cons (accC_grp_plus_intro 2 pyWord a _ h5 h5w)
      (accC_rseq_cons (accC_star_intro pySpace s4 _ h6)
      (accC_rseq_cons (accC_lit_intro (cs ")") _)
      (accC_rseq_cons (accC_star_intro pySpace s5 _ h7)
      (accC_rseq_cons (accC_lit_intro (cs "\x7b") _)
      (accC_rseq_nil [])))))))))))⟩
  cases hr : rule2.run (cs "function" ++ (s1 ++ (nm ++ (s2 ++ (cs "(" ++
      (s3 ++ (a ++ (s4 ++ (cs ")" ++ (s5 ++ cs "\x7b")))))))))) with
  | nil => exact absurd hr hne
  | cons y ys =>
    have hacc := run_sound rule2 _ y (by rw [hr]; simp)
    obtain ⟨hy1, hy2⟩ := rule2_uniq s1 nm s2 s3 a s4 s5 h1 h1s h2 h2w h3 h4 h5
      h5w h6 h7 y.1 y.2 hacc
    have hff := findFirst_start rule2 _ y (by rw [hr]; rfl)
    rw [hy1, hy2] at hff
    rw [reSub_step rule2 repl2 _ [(1, nm), (2, a)] hff
      (run_nil_of_good rule2 ruleToks2 goodRule2)]
    rfl

/-- No comma occurs in an untyped one-parameter signature built from word
runs and whitespace. -/
lemma comma_not_fam2 (s1 nm s2 s3 a s4 s5 : List Char)
    (h1s : ∀ c ∈ s1, pySpace c = true) (h2w : ∀ c ∈ nm, pyWord c = true)
    (h3 : ∀ c ∈ s2, pySpace c = true) (h4 : ∀ c ∈ s3, pySpace c = true)
    (h5w : ∀ c ∈ a, pyWord c = true) (h6 : ∀ c ∈ s4, pySpace c = true)
    (h7 : ∀ c ∈ s5, pySpace c = true) :
    ',' ∉ cs "function" ++ (s1 ++ (nm ++ (s2 ++ (cs "(" ++ (s3 ++ (a ++
      (s4 ++ (cs ")" ++ (s5 ++ cs "\x7b"))))))))) := by
  intro h
  simp only [List.mem_append] at h
  rcases h with h | h | h | h | h | h | h | h | h | h | h
  · exact absurd h (by decide)
  · exact absurd (h1s ',' h) (by decide)
  · exact absurd (h2w ',' h) (by decide)
  · exact absurd (h3 ',' h) (by decide)
  · exact absurd h (by decide)
  · exact absurd (h4 ',' h) (by decide)
  · exact absurd (h5w ',' h) (by decide)
  · exact absurd (h6 ',' h) (by decide)
  · exact absurd h (by decide)
  · exact absurd (h7 ',' h) (by decide)
  · exact absurd h (by decide)

/-- Rule 1 cannot match anywhere in an untyped one-parameter signature: every
rule-1 match contains a comma, and the signature has none. -/
lemma noOcc_rule1_fam2 (s1 nm s2 s3 a s4 s5 : List Char)
    (h1s : ∀ c ∈ s1, pySpace c = true) (h2w : ∀ c ∈ nm, pyWord c = true)
    (h3 : ∀ c ∈ s2, pySpace c = true) (h4 : ∀ c ∈ s3, pySpace c = true)
    (h5w : ∀ c ∈ a, pyWord c = true) (h6 : ∀ c ∈ s4, pySpace c = true)
    (h7 : ∀ c ∈ s5, pySpace c = true) :
    ¬ Occ rule1 (cs "function" ++ (s1 ++ (nm ++ (s2 ++ (cs "(" ++ (s3 ++
      (a ++ (s4 ++ (cs ")" ++ (s5 ++ cs "\x7b")))))))))) := by
  rintro ⟨u, m, w, heq, caps, hacc⟩
  obtain ⟨m2, hm2, hts⟩ := rule1_toksStr (m ++ w) caps w hacc
  have hmm : m = m2 := (List.append_inj' hm2 rfl).1
  have hcm : ',' ∈ m := chTok_mem ruleToks1 m ',' (by rw [hmm]; exact hts)
    (by decide)
  refine comma_not_fam2 s1 nm s2 s3 a s4 s5 h1s h2w h3 h4 h5w h6 h7 ?_
  rw [heq]
  simp [hcm]

/-- C4 (amended): the regex class \s matches newline, so the Signature Fixer
recognizes signatures spanning multiple lines whenever the break falls at a
whitespace position of a pattern: for every untyped two-parameter and
one-parameter signature with arbitrary whitespace runs — possibly containing
newlines — in every gap position (nonempty after the keyword function, and
arbitrary around the name, parentheses, comma and brace), the Signature Fixer
rewrites the declaration to exactly the corresponding single annotated
line. -/
theorem c4_amended_multiline_recognized :
    pySpace '\n' = true ∧
    (∀ s1 nm s2 s3 a s4 s5 b s6 s7 : List Char,
      s1 ≠ [] → (∀ c ∈ s1, pySpace c = true) →
      nm ≠ [] → (∀ c ∈ nm, pyWord c = true) →
      (∀ c ∈ s2, pySpace c = true) → (∀ c ∈ s3, pySpace c = true) →
      a ≠ [] → (∀ c ∈ a, pyWord c = true) →
      (∀ c ∈ s4, pySpace c = true) → (∀ c ∈ s5, pySpace c = true) →
      b ≠ [] → (∀ c ∈ b, pyWord c = true) →
      (∀ c ∈ s6, pySpace c = true) → (∀ c ∈ s7, pySpace c = true) →
      fix_function_signatures (cs "function" ++ s1 ++ nm ++ s2 ++ cs "(" ++
          s3 ++ a ++ s4 ++ cs "," ++ s5 ++ b ++ s6 ++ cs ")" ++ s7 ++
          cs "\x7b") =
        cs "function " ++ nm ++ cs "(" ++ a ++ cs ": number, " ++ b ++
          cs ": number): void \x7b") ∧
    (∀ s1 nm s2 s3 a s4 s5 : List Char,
      s1 ≠ [] → (∀ c ∈ s1, pySpace c = true) →
      nm ≠ [] → (∀ c ∈ nm, pyWord c = true) →
      (∀ c ∈ s2, pySpace c = true) → (∀ c ∈ s3, pySpace c = true) →
      a ≠ [] → (∀ c ∈ a, pyWord c = true) →
      (∀ c ∈ s4, pySpace c = true) → (∀ c ∈ s5, pySpace c = true) →
      fix_function_signatures (cs "function" ++ s1 ++ nm ++ s2 ++ cs "(" ++
          s3 ++ a ++ s4 ++ cs ")" ++ s5 ++ cs "\x7b") =
        cs "function " ++ nm ++ cs "(" ++ a ++ cs ": number): void \x7b") := by
  refine ⟨by decide, ?_, ?_⟩
  · intro s1 nm s2 s3 a s4 s5 b s6 s7 h1 h1s h2 h2w h3 h4 h5 h5w h6 h7 h8 h8w
      h9 h10
    have hL : cs "function" ++ s1 ++ nm ++ s2 ++ cs "(" ++ s3 ++ a ++ s4 ++
        cs "," ++ s5 ++ b ++ s6 ++ cs ")" ++ s7 ++ cs "\x7b" =
        cs "function" ++ (s1 ++ (nm ++ (s2 ++ (cs "(" ++ (s3 ++ (a ++ (s4 ++
        (cs "," ++ (s5 ++ (b ++ (s6 ++ (cs ")" ++ (s7 ++
        cs "\x7b"))))))))))))) := by
      simp [List.append_assoc]
    rw [fix_signatures_unfold, hL,
      reSub_rule1_family s1 nm s2 s3 a s4 s5 b s6 s7 h1 h1s h2 h2w h3 h4 h5
        h5w h6 h7 h8 h8w h9 h10]
    have hRS : ReplShape (cs "function " ++ (nm ++ (cs "(" ++ (a ++
        (cs ": number, " ++ (b ++ (cs ": number): void \x7b" ++ []))))))) :=
      replShape_of_caps1 nm a b ⟨h2, h2w⟩ ⟨h5, h5w⟩ ⟨h8, h8w⟩
    rw [reSub_id_of_noOcc rule2 repl2 _
        (noOcc_replShape rule2 ruleToks2 goodRule2 _ hRS),
      reSub_id_of_noOcc rule3 repl3 _
        (noOcc_replShape rule3 ruleToks3 goodRule3 _ hRS),
      reSub_id_of_noOcc rule4 repl4 _
        (noOcc_replShape rule4 ruleToks4 goodRule4 _ hRS)]
    simp [List.append_assoc]
  · intro s1 nm s2 s3 a s4 s5 h1 h1s h2 h2w h3 h4 h5 h5w h6 h7
    have hL : cs "function" ++ s1 ++ nm ++ s2 ++ cs "(" ++ s3 ++ a ++ s4 ++
        cs ")" ++ s5 ++ cs "\x7b" =
        cs "function" ++ (s1 ++ (nm ++ (s2 ++ (cs "(" ++ (s3 ++ (a ++ (s4 ++
        (cs ")" ++ (s5 ++ cs "\x7b"))))))))) := by
      simp [List.append_assoc]
    rw [fix_signatures_unfold, hL,
      reSub_id_of_noOcc rule1 repl1 _
        (noOcc_rule1_fam2 s1 nm s2 s3 a s4 s5 h1s h2w h3 h4 h5w h6 h7),
      reSub_rule2_family s1 nm s2 s3 a s4 s5 h1 h1s h2 h2w h3 h4 h5 h5w h6 h7]
    have hRS : ReplShape (cs "function " ++ (nm ++ (cs "(" ++ (a ++
        (cs ": number): void \x7b" ++ []))))) :=
      replShape_of_caps2 nm a ⟨h2, h2w⟩ ⟨h5, h5w⟩
    rw [reSub_id_of_noOcc rule3 repl3 _
        (noOcc_replShape rule3 ruleToks3 goodRule3 _ hRS),
      reSub_id_of_noOcc rule4 repl4 _
        (noOcc_replShape rule4 ruleToks4 goodRule4 _ hRS)]
    simp [List.append_assoc]

/-- C4 (amended, witness): both universal conjuncts instantiated at concrete
multi-line signatures — a newline inside the two-parameter list and a newline
both after the keyword and inside the one-parameter list. -/
theorem c4_amended_witness :
    fix_function_signatures (cs "function" ++ [' '] ++ cs "add" ++ [] ++
        cs "(" ++ [] ++ cs "a" ++ [] ++ cs "," ++ ('\n' :: cs "  ") ++
        cs "b" ++ [] ++ cs ")" ++ [' '] ++ cs "\x7b") =
      cs "function " ++ cs "add" ++ cs "(" ++ cs "a" ++ cs ": number, " ++
        cs "b" ++ cs ": number): void \x7b" ∧
    fix_function_signatures (cs "function" ++ ['\n'] ++ cs "square" ++ [] ++
        cs "(" ++ ('\n' :: cs " ") ++ cs "x" ++ [] ++ cs ")" ++ [' '] ++
        cs "\x7b") =
      cs "function " ++ cs "square" ++ cs "(" ++ cs "x" ++
        cs ": number): void \x7b" :=
  ⟨c4_amended_multiline_recognized.2.1 [' '] (cs "add") [] [] (cs "a") []
      ('\n' :: cs "  ") (cs "b") [] [' '] (by decide) (by decide) (by decide)
      (by decide) (by decide) (by decide) (by decide) (by decide) (by decide)
      (by decide) (by decide) (by decide) (by decide) (by decide),
   c4_amended_multiline_recognized.2.2 ['\n'] (cs "square") [] ('\n' :: cs " ")
      (cs "x") [] [' '] (by decide) (by decide) (by decide) (by decide)
      (by decide) (by decide) (by decide) (by decide) (by decide) (by decide)⟩

/-- C10 (witness): the concrete error file yields false from fix_file, and in
the concrete three-file batch the skipped count is the one errored file plus
the zero unchanged files plus... namely errored plus unchanged. -/
theorem c10_witness :
    (fix_file fsW "tests/b.tg").2.1 = false ∧
    (mainRun fsW ["tests/a.tg", "tests/b.tg", "tests/c.tg"]).1.2.2 =
      ((["tests/a.tg", "tests/b.tg", "tests/c.tg"] : List String).filter (errsAt fsW)).length +
      ((["tests/a.tg", "tests/b.tg", "tests/c.tg"] : List String).filter (unchangedAt fsW)).length :=
  ⟨c10_errors_counted_as_skipped.1 fsW "tests/b.tg" (cs "#") (by decide),
   c10_errors_counted_as_skipped.2.2 fsW ["tests/a.tg", "tests/b.tg", "tests/c.tg"]
     (by decide)⟩

end FixTypes




